import Mathlib

/-!
# Verification of the dispatch and index machinery of `iv/apl`

A shallow embedding of `apl/primitives/elementary.go` (`arith1`, `arith2`,
`gcd`, `lcm`) and `apl/primitives/index.go` (`spec2ints`, `indexArray`,
`index`, `indexSelection`).

Conventions of the embedding.

* Go values (`apl.Value`) are an arbitrary type `V`; the dynamic type of a
  value (`reflect.TypeOf`) is a function `typeOf : V → Ty`, and the type
  assertion `x.(apl.Number)` is a predicate `isNumber : V → Bool`.
* A Go function returning `(apl.Value, bool)` becomes a function into
  `Option V`: `none` is the declination `(nil, false)`.
* A Go function returning `(apl.Value, error)` becomes a function into
  `Outcome`, which also records a run-time panic (nil dereference, failed type
  assertion) as a separate constructor.
* Go `int` is modelled by mathematical integers (`Int`); sizes, lengths and
  loop counters that start at zero and only grow are `Nat`.
-/

namespace Iv

/-! ## Results of a primitive call -/

/-- Errors produced by `fmt.Errorf` in `arith1` and `arith2`.  The operand that
Go prints with `%T` is kept as a field. -/
inductive ArithError (V E : Type) where
  /-- `"%s: not a numeric type %T"` (arith1). -/
  | notNumeric (symbol : String) (R : V)
  /-- `"%s: left argument is not a numeric type %T"` (arith2). -/
  | leftNotNumeric (symbol : String) (L : V)
  /-- `"%s: right argument is not a numeric type %T"` (arith2). -/
  | rightNotNumeric (symbol : String) (R : V)
  /-- `"%s: unknown numeric type %T"`. -/
  | unknownNumeric (symbol : String) (n : V)
  /-- `"%s: %s"` wrapping the error of `Tower.SameType`. -/
  | sameType (symbol : String) (err : E)
  /-- `"%s: not supported for %T"` (arith1). -/
  | notSupported (symbol : String) (R : V)
  /-- `"%s: not supported for types %T"` (arith2). -/
  | notSupportedTypes (symbol : String) (L : V)
  deriving DecidableEq, Repr

/-- Outcome of a Go call returning `(apl.Value, error)`. -/
inductive Outcome (α ε : Type) where
  /-- The call returned `(v, nil)`. -/
  | ok (v : α)
  /-- The call returned `(nil, err)`. -/
  | err (e : ε)
  /-- The call panicked at run time. -/
  | crash
  deriving DecidableEq, Repr

/-! ## The numeric tower, as far as the dispatcher uses it -/

/-- The Go struct `apl.Numeric`: `Class` and `Uptype` (`Parse` is not used by
the dispatcher).  `Uptype` returns the pair `(n', ok)`. -/
structure Numeric (V : Type) where
  Class : Int
  Uptype : V → V × Bool

/-- The part of `apl.Tower` used by `arith1` and `arith2`.  `Numbers` is the Go
map `map[reflect.Type]*Numeric` (a missing key yields the nil pointer, here
`none`); `size` is `len(Tower.Numbers)`.  `ToNumeric` and `SameType` are
methods of `apl.Tower` whose bodies are not part of the sources at hand, so
they are fields here. -/
structure Tower (V Ty E : Type) where
  Numbers : Ty → Option (Numeric V)
  size : Nat
  ToNumeric : V → Option (Numeric V)
  SameType : V → V → Except E (V × V)

/-- Dynamic typing of values: `reflect.TypeOf` and the assertion
`x.(apl.Number)`. -/
structure Typing (V Ty : Type) where
  typeOf : V → Ty
  isNumber : V → Bool

/-! ## `arith1` -/

/-- The loop `for i := num.Class; ; i++` of `arith1`.  The Go loop has no
bound of its own, so the embedding takes fuel; `none` means the fuel ran out.
`num` is a pointer that may be nil after a lookup in `Tower.Numbers`. -/
def arith1Loop {V Ty E : Type} (ty : Typing V Ty) (T : Tower V Ty E)
    (symbol : String) (fn : V → Option V) (R : V) :
    Nat → Option (Numeric V) → V → Option (Outcome V (ArithError V E))
  | 0, _, _ => none
  | fuel + 1, num, n =>
    match fn n with
    | some res => some (.ok res)
    | none =>
      match num with
      | none => some .crash
      | some nm =>
        let p := nm.Uptype n
        if p.2 = false then some (.err (.notSupported symbol R))
        else arith1Loop ty T symbol fn R fuel (T.Numbers (ty.typeOf p.1)) p.1

/-- The function returned by `arith1(symbol, fn)`, applied to the right
argument `R` (the left argument is ignored by the Go closure). -/
def arith1 {V Ty E : Type} (ty : Typing V Ty) (T : Tower V Ty E)
    (symbol : String) (fn : V → Option V) (fuel : Nat) (R : V) :
    Option (Outcome V (ArithError V E)) :=
  match fn R with
  | some res => some (.ok res)
  | none =>
    if ty.isNumber R = false then some (.err (.notNumeric symbol R))
    else
      match T.ToNumeric R with
      | none => some (.err (.unknownNumeric symbol R))
      | some num => arith1Loop ty T symbol fn R fuel (some num) R

/-- The promotion chain of `arith1`: `ns = [n0, n1, ..., nm]` starts at a value
whose tower entry is `num`, every step is a successful `Uptype` into a type
registered in `Tower.Numbers`, and `Uptype` of the last element signals
exhaustion. -/
inductive UpChain {V Ty E : Type} (ty : Typing V Ty) (T : Tower V Ty E) :
    Numeric V → List V → Prop where
  | last (num : Numeric V) (n : V) (h : (num.Uptype n).2 = false) :
      UpChain ty T num [n]
  | step (num num' : Numeric V) (n n' : V) (rest : List V)
      (hup : num.Uptype n = (n', true))
      (hreg : T.Numbers (ty.typeOf n') = some num')
      (htail : UpChain ty T num' (n' :: rest)) :
      UpChain ty T num (n :: n' :: rest)

/-- What the dispatcher reports for a chain of candidates: the first accepted
result, or the given error when every candidate is declined. -/
def firstAccepted {α V ε : Type} (f : α → Option V) (e : ε) (cands : List α) :
    Outcome V ε :=
  match cands.findSome? f with
  | some v => .ok v
  | none => .err e

/-! ## `arith2` -/

/-- The loop `for i := num.Class; i < len(a.Tower.Numbers); i++` of `arith2`;
the first argument is the number of iterations left.  The `ok` of the second
`Uptype` (on `rn`) is overwritten without being read, as in the source. -/
def arith2Loop {V Ty E : Type} (ty : Typing V Ty) (T : Tower V Ty E)
    (symbol : String) (fn : V → V → Option V) (L : V) :
    Nat → Option (Numeric V) → V → V → Outcome V (ArithError V E)
  | 0, _, _, _ => .err (.notSupportedTypes symbol L)
  | k + 1, num, ln, rn =>
    match fn ln rn with
    | some res => .ok res
    | none =>
      match num with
      | none => .crash
      | some nm =>
        let p := nm.Uptype ln
        if p.2 = false then .err (.notSupportedTypes symbol L)
        else
          let q := nm.Uptype rn
          arith2Loop ty T symbol fn L k (T.Numbers (ty.typeOf p.1)) p.1 q.1

/-- The part of `arith2` after the direct attempt: the two type assertions,
`SameType`, `ToNumeric` and the promotion loop. -/
def arith2Promote {V Ty E : Type} (ty : Typing V Ty) (T : Tower V Ty E)
    (symbol : String) (fn : V → V → Option V) (L R : V) :
    Outcome V (ArithError V E) :=
  if ty.isNumber L = false then .err (.leftNotNumeric symbol L)
  else if ty.isNumber R = false then .err (.rightNotNumeric symbol R)
  else
    match T.SameType L R with
    | .error e => .err (.sameType symbol e)
    | .ok (ln, rn) =>
      match T.ToNumeric ln with
      | none => .err (.unknownNumeric symbol ln)
      | some num =>
        arith2Loop ty T symbol fn L ((T.size : Int) - num.Class).toNat (some num) ln rn

/-- The function returned by `arith2(symbol, fn)`, applied to `L` and `R`. -/
def arith2 {V Ty E : Type} [DecidableEq Ty] (ty : Typing V Ty) (T : Tower V Ty E)
    (symbol : String) (fn : V → V → Option V) (L R : V) :
    Outcome V (ArithError V E) :=
  if ty.typeOf L = ty.typeOf R then
    match fn L R with
    | some res => .ok res
    | none => arith2Promote ty T symbol fn L R
  else arith2Promote ty T symbol fn L R

/-- The lockstep promotion chain of `arith2`: a list of operand pairs
`[(l0, r0), (l1, r1), ...]`, where both components of the next pair are obtained
with the `Uptype` of the tower entry of the current left operand, the promoted
left operand is registered in `Tower.Numbers`, and `Uptype` signals exhaustion
on the left operand of the last pair. -/
inductive LockChain {V Ty E : Type} (ty : Typing V Ty) (T : Tower V Ty E) :
    Numeric V → List (V × V) → Prop where
  | last (num : Numeric V) (l r : V) (h : (num.Uptype l).2 = false) :
      LockChain ty T num [(l, r)]
  | step (num num' : Numeric V) (l r l' r' : V) (rest : List (V × V))
      (hl : num.Uptype l = (l', true))
      (hr : (num.Uptype r).1 = r')
      (hreg : T.Numbers (ty.typeOf l') = some num')
      (htail : LockChain ty T num' ((l', r') :: rest)) :
      LockChain ty T num ((l, r) :: (l', r') :: rest)

/-! ## `gcd` and `lcm` with the capabilities they consult -/

/-- Result of a Go function returning `(apl.Value, bool)` that may also panic
on a failed type assertion. -/
inductive Reply (V : Type) where
  /-- The call returned `(v, true)`. -/
  | val (v : V)
  /-- The call returned `(_, false)`: the implementation declines. -/
  | decline
  /-- The call panicked. -/
  | crash
  deriving DecidableEq, Repr

/-- Conversion of a capability result `(v, ok)` into a reply. -/
def Reply.ofOption {V : Type} : Option V → Reply V
  | some v => .val v
  | none => .decline

/-- What `abs`, `sub`, `mul2`, `div2`, `gcd` and `lcm` ask of their operands
and of the interpreter.  A capability such as `Gcd` is `none` on a value whose
type does not implement the interface (`L.(gcder)` fails) and otherwise the
method, whose result `(v, ok)` is an `Option`.  `IsZero`, `Import`, `SameType`
and `less` are functions of other files of the package; `int n` is the Go
value `apl.Int(n)`. -/
structure Caps (V E : Type) where
  isNumber : V → Bool
  IsZero : V → Bool
  int : Int → V
  Import : V → V
  SameType : V → V → Except E (V × V)
  less : V → V → Option Bool
  Abs : V → Option (Option V)
  Sub : V → Option (Option V)
  Mul2 : V → Option (V → Option V)
  Div2 : V → Option (V → Option V)
  Gcd : V → Option (V → Option V)

/-- Go `sub`: monadic minus through the `substracter` interface. -/
def sub {V E : Type} (c : Caps V E) (R : V) : Reply V :=
  match c.Sub R with
  | some res => .ofOption res
  | none => .decline

/-- Go `mul2`: multiplication through the `multiplier2` interface of `L`. -/
def mul2 {V E : Type} (c : Caps V E) (L R : V) : Reply V :=
  match c.Mul2 L with
  | some m => .ofOption (m R)
  | none => .decline

/-- Go `div2`: division through the `divider2` interface of `L`. -/
def div2 {V E : Type} (c : Caps V E) (L R : V) : Reply V :=
  match c.Div2 L with
  | some d => .ofOption (d R)
  | none => .decline

/-- Go `abs`: the `abser` interface if present, otherwise a comparison with
the imported zero. -/
def abs {V E : Type} (c : Caps V E) (R : V) : Reply V :=
  match c.Abs R with
  | some res => .ofOption res
  | none =>
    if c.isNumber R = false then .crash
    else
      match c.SameType (c.Import (c.int 0)) R with
      | .error _ => .decline
      | .ok (zero, r) =>
        match c.less r zero with
        | none => .decline
        | some isless => if isless then sub c R else .val R

/-- Go `gcd`. -/
def gcd {V E : Type} (c : Caps V E) (L R : V) : Reply V :=
  if c.isNumber L = false then .crash
  else if c.IsZero L then .val R
  else if c.isNumber R = false then .crash
  else if c.IsZero R then .val L
  else
    match c.Gcd L with
    | some g => .ofOption (g R)
    | none => .decline

/-- Go `lcm`. -/
def lcm {V E : Type} (c : Caps V E) (L R : V) : Reply V :=
  if c.isNumber L = false then .crash
  else if c.IsZero L then .val (c.int 0)
  else if c.isNumber R = false then .crash
  else if c.IsZero R then .val (c.int 0)
  else
    match mul2 c L R with
    | .crash => .crash
    | .decline => .decline
    | .val p =>
      match abs c p with
      | .crash => .crash
      | .decline => .decline
      | .val ab =>
        match gcd c L R with
        | .crash => .crash
        | .decline => .decline
        | .val g => div2 c ab g

/-- A representation of the integers that implements no capability at all. -/
def bareCaps : Caps Int Unit where
  isNumber := fun _ => true
  IsZero := fun n => n == 0
  int := fun n => n
  Import := fun n => n
  SameType := fun l r => .ok (l, r)
  less := fun l r => some (decide (l < r))
  Abs := fun _ => none
  Sub := fun _ => none
  Mul2 := fun _ => none
  Div2 := fun _ => none
  Gcd := fun _ => none

/-! ## Index specifications: `spec2ints` -/

/-- What the domain `ToIndexArray(nil)` hands back for an accepted axis entry:
the empty-axis marker `apl.EmptyArray` or an `apl.IntArray`, of which
`spec2ints` reads the field `Ints` only. -/
inductive Axis where
  | empty
  | ints (Ints : List Int)
  deriving DecidableEq, Repr

/-- The part of the interpreter state `*apl.Apl` read by the index engine: the
index origin, and the conversion `ToIndexArray(nil).To` of the domain package
(`none` when the entry is not accepted).  `S` is the type of the entries of an
`apl.IdxSpec`. -/
structure Apl (S : Type) where
  Origin : Int
  ToIndexArray : S → Option Axis

/-- Errors of the index engine. -/
inductive IndexError where
  /-- `"indexing: array and index specification have different rank"`. -/
  | rank
  /-- `"index specification for axis %d is illegal: %T"`. -/
  | illegal (axis : Nat)
  /-- `"index specification for axis %d is out of range"`. -/
  | outOfRange (axis : Nat)
  /-- The error of `apl.ArrayBounds`. -/
  | bounds
  deriving DecidableEq, Repr

/-- The inner loop of `spec2ints` over `ia.Ints` for an axis of extent `n`:
every index is shifted by the origin and checked against `[0, n)`; `axis` is
the one-based axis number of the error message. -/
def shiftInts (origin : Int) (n : Nat) (axis : Nat) :
    List Int → Except IndexError (List Int)
  | [] => .ok []
  | v :: vs =>
    if v - origin < 0 ∨ v - origin ≥ (n : Int) then .error (.outOfRange axis)
    else
      match shiftInts origin n axis vs with
      | .error e => .error e
      | .ok r => .ok ((v - origin) :: r)

/-- One iteration of the outer loop of `spec2ints`: axis `i` (zero-based) with
entry `s` and extent `n`. -/
def spec2intsAxis {S : Type} (a : Apl S) (i : Nat) (s : S) (n : Nat) :
    Except IndexError (List Int) :=
  match a.ToIndexArray s with
  | none => .error (.illegal (i + 1))
  | some .empty => .ok ((List.range n).map Int.ofNat)
  | some (.ints l) => shiftInts a.Origin n (i + 1) l

/-- The outer loop `for i := range spec` of `spec2ints`, from axis `i` on; the
entries are paired with the extents of their axes. -/
def spec2intsFrom {S : Type} (a : Apl S) :
    Nat → List (S × Nat) → Except IndexError (List (List Int))
  | _, [] => .ok []
  | i, (s, n) :: rest =>
    match spec2intsAxis a i s n with
    | .error e => .error e
    | .ok l =>
      match spec2intsFrom a (i + 1) rest with
      | .error e => .error e
      | .ok ls => .ok (l :: ls)

/-- Go `spec2ints`. -/
def spec2ints {S : Type} (a : Apl S) (spec : List S) (shape : List Nat) :
    Except IndexError (List (List Int)) :=
  if spec.length ≠ shape.length then .error .rank
  else spec2intsFrom a 0 (spec.zip shape)

/-! ## Index arrays: `indexArray` -/

/-- Go `apl.IntArray`. -/
structure IntArray where
  Dims : List Nat
  Ints : List Int
  deriving DecidableEq, Repr

/-- Modelled from the spec: `apl.ArraySize`, which is not among the sources at
hand; the size of an array is the product of its shape. -/
def ArraySize (shape : List Nat) : Nat := shape.prod

/-- Modelled from the spec: `apl.NewIdxConverter`, which is not among the
sources at hand; the converter of the mixed-radix formula holds for every axis
the product of the extents of the axes after it. -/
def NewIdxConverter : List Nat → List Int
  | [] => []
  | _ :: ss => (ss.prod : Int) :: NewIdxConverter ss

/-- Modelled from the spec: the method `IdxConverter.Index`, which is not among
the sources at hand; the flat offset is the sum of index times stride. -/
def IdxConverterIndex (ic : List Int) (idx : List Int) : Int :=
  (List.zipWith (fun c i => c * i) ic idx).sum

/-- Row-major increment with carry: the result for the axes of the list and
whether the increment wraps around (carries into the axis before). -/
def incCarry : List Nat → List Nat → List Nat × Bool
  | d :: ds, s :: ss =>
    let t := incCarry ds ss
    if t.2 then
      if d + 1 < s then ((d + 1) :: t.1, false) else (0 :: t.1, true)
    else (d :: t.1, false)
  | ds, _ => (ds, true)

/-- Modelled from the spec: `apl.IncArrayIndex`, which is not among the sources
at hand; it advances a multi-index to the next one in row-major order (last
axis fastest) within the given shape. -/
def IncArrayIndex (idx shape : List Nat) : List Nat := (incCarry idx shape).1

/-- The statement `for k, n := range dst { src[k] = intspec[k][n] }`. -/
def gather (intspec : List (List Int)) (dst : List Nat) : List Int :=
  List.zipWith (fun l n => l.getD n 0) intspec dst

/-- The loop `for i := range res.Ints` of `indexArray`, with the number of
iterations left and the current multi-index `dst`. -/
def indexArrayLoop (intspec : List (List Int)) (ic : List Int) (dims : List Nat) :
    Nat → List Nat → List Int
  | 0, _ => []
  | k + 1, dst =>
    IdxConverterIndex ic (gather intspec dst)
      :: indexArrayLoop intspec ic dims k (IncArrayIndex dst dims)

/-- Go `indexArray`.  An error of `spec2ints` is answered with
`return apl.IntArray{}, nil`, as in the source. -/
def indexArray {S : Type} (a : Apl S) (spec : List S) (shape : List Nat) :
    Outcome IntArray IndexError :=
  match spec2ints a spec shape with
  | .error _ => .ok ⟨[], []⟩
  | .ok intspec =>
    let dims := intspec.map List.length
    let ints := indexArrayLoop intspec (NewIdxConverter shape) dims (ArraySize dims)
      (List.replicate dims.length 0)
    .ok ⟨dims.filter (fun v => v ≠ 1), ints⟩

/-! ## `index` and `indexSelection` -/

/-- An `apl.Array` as far as the index engine uses it: `Shape()` and `At`. -/
structure Arr (V : Type) where
  Shape : List Nat
  At : Int → V

/-- The values returned by `index`: the right argument itself, a bare element,
or a fresh `apl.MixedArray` (a slot of `Values` that was never assigned holds
the nil interface, here `none`). -/
inductive IndexValue (V : Type) where
  | array (R : Arr V)
  | element (v : V)
  | mixed (Dims : List Nat) (Values : List (Option V))

/-- Modelled from the spec: `apl.ArrayBounds`, which is not among the sources
at hand; a flat index is in bounds when it lies in `[0, Size)`. -/
def ArrayBounds {V : Type} (ar : Arr V) (i : Int) : Except IndexError Unit :=
  if i < 0 ∨ i ≥ (ArraySize ar.Shape : Int) then .error .bounds else .ok ()

/-- The loop `for i, n := range idx.Ints` of `index`; writing past the end of
`res.Values` is a run-time panic. -/
def indexFill {V : Type} (ar : Arr V) :
    List (Option V) → Nat → List Int → Outcome (List (Option V)) IndexError
  | vals, _, [] => .ok vals
  | vals, i, n :: ns =>
    match ArrayBounds ar n with
    | .error e => .err e
    | .ok _ =>
      if i < vals.length then indexFill ar (vals.set i (some (ar.At n))) (i + 1) ns
      else .crash

/-- Go `index` (the primitive `⌷` on arrays). -/
def index {V S : Type} (a : Apl S) (spec : List S) (R : Arr V) :
    Outcome (IndexValue V) IndexError :=
  if spec.length = 0 then .ok (.array R)
  else
    match indexArray a spec R.Shape with
    | .err e => .err e
    | .crash => .crash
    | .ok idx =>
      if idx.Ints.length = 1 ∧ idx.Dims.length = 0 then
        match ArrayBounds R (idx.Ints.getD 0 0) with
        | .error e => .err e
        | .ok _ => .ok (.element (R.At (idx.Ints.getD 0 0)))
      else
        match indexFill R (List.replicate (ArraySize idx.Dims) none) 0 idx.Ints with
        | .err e => .err e
        | .crash => .crash
        | .ok vals => .ok (.mixed idx.Dims vals)

/-- Go `indexSelection`. -/
def indexSelection {V S : Type} (a : Apl S) (spec : List S) (R : Arr V) :
    Outcome IntArray IndexError :=
  if spec.length = 0 then
    .ok ⟨R.Shape, (List.range (ArraySize R.Shape)).map Int.ofNat⟩
  else indexArray a spec R.Shape

/-- Specification side: an axis entry is acceptable for an axis of extent `n`
when it converts to an index array and, if it lists indices, each of them lies
in `[0, n)` after the origin is subtracted. -/
def AxisValid {S : Type} (a : Apl S) (s : S) (n : Nat) : Prop :=
  match a.ToIndexArray s with
  | none => False
  | some .empty => True
  | some (.ints l) => ∀ v ∈ l, 0 ≤ v - a.Origin ∧ v - a.Origin < (n : Int)

/-- Specification side: the zero-based index list an acceptable axis entry
stands for: the full range for the empty-axis marker, else the given indices
with the origin subtracted. -/
def axisList {S : Type} (a : Apl S) (s : S) (n : Nat) : List Int :=
  match a.ToIndexArray s with
  | some (.ints l) => l.map (fun v => v - a.Origin)
  | _ => (List.range n).map Int.ofNat

/-- Specification side: the multi-index number `i` of a shape in row-major
order, the mixed-radix digits of `i`. -/
def unravel : List Nat → Nat → List Nat
  | [], _ => []
  | _ :: ss, i => (i / ss.prod) :: unravel ss (i % ss.prod)

/-- Specification side: the Cartesian product of the per-axis lists, enumerated
in row-major order (the last axis varies fastest). -/
def combinations {α : Type} : List (List α) → List (List α)
  | [] => [[]]
  | l :: ls => l.flatMap (fun x => (combinations ls).map (fun c => x :: c))

/-- Specification side: the row-major flat offset of a multi-index, the sum of
index times stride, where the stride of an axis is the product of the extents
of the axes after it. -/
def flatOffset : List Nat → List Int → Int
  | _ :: ss, i :: is => i * (ss.prod : Int) + flatOffset ss is
  | _, _ => 0

/-- An interpreter state whose index specifications are already converted:
an entry is `none` when `ToIndexArray` rejects it. -/
def plainApl (origin : Int) : Apl (Option Axis) where
  Origin := origin
  ToIndexArray := fun s => s

/-- The matrix of shape `[2, 3]` holding `10, 11, 12` in row 0 and
`13, 14, 15` in row 1. -/
def demoMatrix : Arr Int where
  Shape := [2, 3]
  At := fun i => 10 + i

/-! ## A small concrete tower used to instantiate the theorems -/

/-- Tower entry of the demonstration tower: three classes `0, 1, 2`; values are
natural numbers and a value is its own class; `Uptype` adds one below class 2
and signals exhaustion at class 2. -/
def demoNumeric (c : Nat) : Numeric Nat where
  Class := c
  Uptype := fun n => if c < 2 then (n + 1, true) else (n, false)

/-- Typing of the demonstration tower: the type of a value is the value. -/
def demoTyping : Typing Nat Nat where
  typeOf := fun n => n
  isNumber := fun _ => true

/-- The demonstration tower: `SameType` lifts both operands to the larger one. -/
def demoTower : Tower Nat Nat Unit where
  Numbers := fun c => if c ≤ 2 then some (demoNumeric c) else none
  size := 3
  ToNumeric := fun n => if n ≤ 2 then some (demoNumeric n) else none
  SameType := fun l r => .ok (max l r, max l r)

/-- A monadic implementation that only accepts the top class. -/
def demoFn1 (n : Nat) : Option Nat := if n = 2 then some 20 else none

/-- A dyadic implementation that only accepts the top class. -/
def demoFn2 (l r : Nat) : Option Nat := if l = 2 then some (l + r) else none

/-- A variant of the demonstration tower whose `SameType` aligns nothing: it
fails on operands of different types. -/
def demoTowerStrict : Tower Nat Nat Unit where
  Numbers := demoTower.Numbers
  size := 3
  ToNumeric := demoTower.ToNumeric
  SameType := fun l r => if l = r then .ok (l, r) else .error ()

/-! ## The dot operator: `dot.Apply`, `inner`, `outer` -/

/-- Errors of `dot.go`.  Errors handed on from `At`, `apl.ArrayAt`,
`apl.ArrayIndexes`, `f.Call`, `g.Call` or `ScalarProduct` are wrapped in
`other`. -/
inductive DotError (E : Type) where
  /-- `"TODO: outer product"`. -/
  | outerTodo
  /-- `"left argument to dot operator must be a function: %T"`. -/
  | leftNotFunction
  /-- `"right argument to dot operator must be a function: %T"`. -/
  | rightNotFunction
  /-- `"inner: empty rhs array"`. -/
  | emptyRhs
  /-- `"inner: empty lhs array"`. -/
  | emptyLhs
  /-- `"inner: empty array"`. -/
  | emptyArray
  /-- `"inner dimensions must agree"`. -/
  | dimsMustAgree
  /-- An error returned by a callee. -/
  | other (e : E)
  deriving DecidableEq, Repr

/-- An `apl.Array` as `dot.go` uses it: `Shape()` and `At`, which returns a
value and an error here. -/
structure DArray (V E : Type) where
  Shape : List Nat
  At : Int → Except E V

/-- An operand of the derived function: a value that is an `apl.Array` or one
that is not (a scalar). -/
inductive DValue (V E : Type) where
  | scalar (v : V)
  | array (A : DArray V E)

/-- The values returned by `inner`: the result of a function call, or a fresh
`apl.GeneralArray`. -/
inductive InnerResult (V : Type) where
  | scalar (v : V)
  | array (Dims : List Nat) (Values : List V)
  deriving DecidableEq, Repr

/-- An operator argument `f` or `g` (an `apl.Value`): what the assertions
`f.(apl.Primitive)` and `f.(apl.Function)` give, the latter as the `Call`
method. -/
structure FnValue (V E : Type) where
  primitive : Option String
  function : Option (V → V → Except E V)

/-- What `dot.go` reads from its surroundings: the nil interface value, the
error of an out-of-range access, `reflect.TypeOf` on operands, and the
`scalarProducter` interface of an operand (`none` when its type does not
implement it). -/
structure DotEnv (V E Ty : Type) where
  nilValue : V
  rangeError : E
  typeOf : DValue V E → Ty
  ScalarProduct : DValue V E → Option (DValue V E → Except E (InnerResult V))

/-- Go `apl.GeneralArray`: `Dims` and `Values`. -/
structure GeneralArray (V : Type) where
  Dims : List Nat
  Values : List V
  deriving DecidableEq, Repr

/-- Modelled from the spec: the methods `Shape` and `At` of `apl.GeneralArray`,
which are not among the sources at hand; `At` fails on a flat index outside the
stored values. -/
def GeneralArray.toArray {V E : Type} (rangeError : E) (u : GeneralArray V) :
    DArray V E where
  Shape := u.Dims
  At := fun i =>
    if 0 ≤ i then
      match u.Values[i.toNat]? with
      | some v => .ok v
      | none => .error rangeError
    else .error rangeError

/-- Modelled from the spec: `apl.ArrayAt`, which is not among the sources at
hand; element access by multi-index, the flat offset being the row-major one,
failing on a multi-index outside the shape. -/
def ArrayAt {V E : Type} (rangeError : E) (A : DArray V E) (idx : List Nat) :
    Except E V :=
  if idx.length = A.Shape.length ∧ (List.zip idx A.Shape).all (fun p => p.1 < p.2) then
    A.At (flatOffset A.Shape (idx.map Int.ofNat))
  else .error rangeError

/-- Modelled from the spec: `apl.ArrayIndexes`, which is not among the sources
at hand; the multi-index of the flat index `i` in row-major order, failing
outside the shape. -/
def ArrayIndexes {E : Type} (rangeError : E) (shape : List Nat) (i : Nat) :
    Except E (List Nat) :=
  if i < shape.prod then .ok (unravel shape i) else .error rangeError

/-- The loop `for k := inner - 1; k >= 0; k--` of `inner`, shared by the
vector case and the general case: `lat k` and `rat k` fetch the operands of
step `k`, `n` is `inner`, the first argument is `k + 1` and the last is the
variable `v`. -/
def innerFold {V E : Type} (f g : V → V → Except E V) (lat rat : Nat → Except E V)
    (n : Nat) : Nat → V → Except E V
  | 0, v => .ok v
  | k + 1, v =>
    match lat k with
    | .error e => .error e
    | .ok lval =>
      match rat k with
      | .error e => .error e
      | .ok rval =>
        match g lval rval with
        | .error e => .error e
        | .ok u =>
          if k + 1 = n then innerFold f g lat rat n k u
          else
            match f u v with
            | .error e => .error e
            | .ok u' => innerFold f g lat rat n k u'

/-- Results of a loop that returns at the first error. -/
def collect {E α : Type} : List (Except E α) → Except E (List α)
  | [] => .ok []
  | x :: xs =>
    match x with
    | .error e => .error e
    | .ok v =>
      match collect xs with
      | .error e => .error e
      | .ok vs => .ok (v :: vs)

/-- One iteration of the loop `for i := range result.Values` of `inner`: the
element number `i` of the result. -/
def innerElement {V E Ty : Type} (env : DotEnv V E Ty) (f g : V → V → Except E V)
    (al ar : DArray V E) (shape : List Nat) (split n : Nat) (i : Nat) : Except E V :=
  match ArrayIndexes env.rangeError shape i with
  | .error e => .error e
  | .ok idx =>
    innerFold f g
      (fun k => ArrayAt env.rangeError al (idx.take split ++ [k]))
      (fun k => ArrayAt env.rangeError ar (k :: idx.drop split))
      n n env.nilValue

/-- The part of `inner` after the scalar operands have been converted: both
operands are arrays. -/
def innerArrays {V E Ty : Type} (env : DotEnv V E Ty) (f g : V → V → Except E V)
    (al ar : DArray V E) : Outcome (InnerResult V) (DotError E) :=
  let ls := al.Shape
  let rs := ar.Shape
  if ls.length = 0 ∨ rs.length = 0 then .err .emptyArray
  else
    let n := ls.getLastD 0
    if n ≠ rs.headD 0 then .err .dimsMustAgree
    else if ls.length = 1 ∧ rs.length = 1 then
      match innerFold f g (fun k => al.At k) (fun k => ar.At k) n n env.nilValue with
      | .error e => .err (.other e)
      | .ok v => .ok (.scalar v)
    else
      let shape := ls.dropLast ++ rs.tail
      match collect ((List.range (ArraySize shape)).map
          (innerElement env f g al ar shape (ls.length - 1) n)) with
      | .error e => .err (.other e)
      | .ok vals => .ok (.array shape vals)

/-- Go `inner`.  In the branch of two scalars `g.Call` receives `al` and `ar`,
the results of the failed assertions `l.(apl.Array)` and `r.(apl.Array)`, which
are nil.  A shape without entries is treated as the nil shape. -/
def inner {V E Ty : Type} (env : DotEnv V E Ty) (f g : V → V → Except E V)
    (l r : DValue V E) : Outcome (InnerResult V) (DotError E) :=
  match l, r with
  | .scalar _, .scalar _ =>
    match g env.nilValue env.nilValue with
    | .error e => .err (.other e)
    | .ok v => .ok (.scalar v)
  | .scalar lv, .array ar =>
    match ar.Shape with
    | [] => .err .emptyRhs
    | n :: _ =>
      if n = 0 then .err .emptyRhs
      else
        innerArrays env f g
          (GeneralArray.toArray env.rangeError ⟨[n], List.replicate n lv⟩) ar
  | .array al, .scalar rv =>
    match al.Shape with
    | [] => .err .emptyLhs
    | n :: rest =>
      if n = 0 then .err .emptyLhs
      else
        innerArrays env f g al
          (GeneralArray.toArray env.rangeError
            ⟨[(n :: rest).getLastD 0], List.replicate n rv⟩)
  | .array al, .array ar => innerArrays env f g al ar

/-- Go `outer`. -/
def outer {V E : Type} (_l _r : DValue V E) (_f : FnValue V E) :
    Outcome (InnerResult V) (DotError E) :=
  .err .outerTodo

/-- The function returned by `dot.Apply(f, g)`, applied to `l` and `r`.  The
statement `if l == nil { fmt.Errorf(...) }` builds an error and drops it, so it
leaves no trace here.  The counter `scalarProduct` is raised a second time when
`df` (not `dg`) is the primitive `×`, as in the source. -/
def dotApply {V E Ty : Type} [DecidableEq Ty] (env : DotEnv V E Ty) (f g : FnValue V E)
    (l r : DValue V E) : Outcome (InnerResult V) (DotError E) :=
  if f.primitive = some "∘" then outer l r g
  else
    match f.function with
    | none => .err .leftNotFunction
    | some df =>
      let sp1 : Int := if f.primitive = some "+" then -1 + 1 else -1
      match g.function with
      | none => .err .rightNotFunction
      | some dg =>
        let sp2 : Int := if f.primitive = some "×" then sp1 + 1 else sp1
        if sp2 = 1 ∧ env.typeOf l = env.typeOf r then
          match env.ScalarProduct l with
          | some sc =>
            match sc r with
            | .error e => .err (.other e)
            | .ok v => .ok v
          | none => inner env df dg l r
        else inner env df dg l r

/-- Specification side: the right-to-left fold
`f(g p0, f(g p1, ... f(g p(n-2), g p(n-1))))` over the pairs of operands, the
last pair seeding the fold; an error of `f` or `g` is the result.  For no pair
at all the result is the given default. -/
def foldPairs {V E : Type} (f g : V → V → Except E V) (d : V) :
    List (V × V) → Except E V
  | [] => .ok d
  | [p] => g p.1 p.2
  | p :: q :: rest =>
    match foldPairs f g d (q :: rest) with
    | .error e => .error e
    | .ok v =>
      match g p.1 p.2 with
      | .error e => .error e
      | .ok u => f u v

/-- A vector as an `apl.Array` of `dot.go`. -/
def vectorArray {V E : Type} (rangeError : E) (vals : List V) : DArray V E :=
  GeneralArray.toArray rangeError ⟨[vals.length], vals⟩

/-- An environment for integer operands: nil is `0`, every operand has the
same type, and no type implements `ScalarProduct`. -/
def intEnv : DotEnv Int Unit Unit where
  nilValue := 0
  rangeError := ()
  typeOf := fun _ => ()
  ScalarProduct := fun _ => none

/-- Integer addition as an `apl.Function`. -/
def intAdd (x y : Int) : Except Unit Int := .ok (x + y)

/-- Integer multiplication as an `apl.Function`. -/
def intMul (x y : Int) : Except Unit Int := .ok (x * y)

/-- An environment in which every operand implements `ScalarProduct`, with a
result that the generic fold cannot produce on the operands used below. -/
def productEnv : DotEnv Int Unit Unit where
  nilValue := 0
  rangeError := ()
  typeOf := fun _ => ()
  ScalarProduct := fun _ => some (fun _ => .ok (.scalar 999))

/-- Specification side: ordinary multi-index addressing, the row-major flat
position of a multi-index (as a natural number). -/
def ravel : List Nat → List Nat → Nat
  | _ :: ss, i :: is => i * ss.prod + ravel ss is
  | _, _ => 0

/-- Specification side: the element of the inner product at the outer indices
`I` (into the left operand) and `J` (into the right operand): the right-to-left
fold over `k` of `g(L[I, k], R[k, J])`, where `lv` and `rv` give the elements of
the operands by flat position, the left shape is `lpre ++ [n]` and the right
shape is `n :: rtail`. -/
def innerSpecElement {V E : Type} (f g : V → V → Except E V) (d : V) (lv rv : Nat → V)
    (lpre : List Nat) (n : Nat) (rtail : List Nat) (I J : List Nat) : Except E V :=
  foldPairs f g d ((List.range n).map (fun k =>
    (lv (ravel (lpre ++ [n]) (I ++ [k])), rv (ravel (n :: rtail) (k :: J)))))

/-- The matrix of shape `[2, 3]` with the values `1, ..., 6`, as an array of
`dot.go`. -/
def demoMatrix23 : DArray Int Unit :=
  GeneralArray.toArray () ⟨[2, 3], [1, 2, 3, 4, 5, 6]⟩

/-! ## Take and drop: `takedrop`, `dodrop` -/

/-- Errors of `take.go`; an error of `operators.Take` is wrapped in `take`. -/
inductive TakeError (E : Type) where
  /-- `"take/drop: L must be a vector"`. -/
  | notVector
  /-- `"take/drop: ⍴,L must match ⍴⍴R"`. -/
  | rank
  /-- An error returned by `operators.Take`. -/
  | take (e : E)
  deriving DecidableEq, Repr

/-- The left argument of take and drop after the domain `ToIndexArray(nil)`:
the empty array or an index array. -/
inductive TDCount where
  | emptyArray
  | index (ai : IntArray)
  deriving DecidableEq, Repr

/-- The right argument of take and drop: the empty array, another array, or a
value that is no array (a scalar). -/
inductive TDOperand (V : Type) where
  | emptyArray
  | array (A : Arr V)
  | scalar (v : V)

/-- The values returned by `takedrop`: the right argument itself, an index
array of zeros, or the result of `operators.Take`. -/
inductive TDResult (V T : Type) where
  | unchanged (R : TDOperand V)
  | zeros (ia : IntArray)
  | taken (t : T)

/-- What `take.go` uses from other packages: `operators.Take`, whose result
type is `T`, and the empty array seen through the interface `apl.Array`. -/
structure TakeEnv (V T E : Type) where
  Take : IntArray → Arr V → Outcome T E
  EmptyArray : Arr V

/-- The test `R.(apl.EmptyArray)`. -/
def TDOperand.isEmptyArray {V : Type} : TDOperand V → Bool
  | .emptyArray => true
  | _ => false

/-- The body of the loop of `dodrop` for one axis: from the drop count `l` and
the extent `r` to the count handed to `Take`. -/
def dropCount (l r : Int) : Int :=
  let t := l - r
  let t := if t > 0 then 0 else t
  let t := if l < 0 then 0 else t
  let s := l + r
  let s := if s < 0 then 0 else s
  let s := if l ≥ 0 then 0 else s
  s + t

/-- Go `dodrop`.  Reading `rs[i]` beyond the rank of `R` is a run-time
panic. -/
def dodrop {V T E : Type} (env : TakeEnv V T E) (L : IntArray) (R : Arr V) :
    Outcome T E :=
  if L.Ints.length ≤ R.Shape.length then
    env.Take ⟨L.Dims, List.zipWith dropCount L.Ints (R.Shape.map Int.ofNat)⟩ R
  else .crash

/-- The result of `operators.Take` or `dodrop` as a result of `takedrop`. -/
def liftTake {V T E : Type} : Outcome T E → Outcome (TDResult V T) (TakeError E)
  | .ok t => .ok (.taken t)
  | .err e => .err (.take e)
  | .crash => .crash

/-- The array `ar` of `takedrop`: `R` itself if it is an array, else the scalar
`R` with the shape `(⍴,L)⍴1`, an array of one value; position 0 is the only one
within that shape, and the value is given at every position here. -/
def takedropArray {V T E : Type} (env : TakeEnv V T E) (ai : IntArray) :
    TDOperand V → Arr V
  | .emptyArray => env.EmptyArray
  | .array A => A
  | .scalar v => ⟨List.replicate ai.Ints.length 1, fun _ => v⟩

/-- Go `takedrop`.  Reading `ai.Dims[0]` of an index array without dimensions is
a run-time panic. -/
def takedrop {V T E : Type} (env : TakeEnv V T E) (L : TDCount) (R : TDOperand V)
    (take : Bool) : Outcome (TDResult V T) (TakeError E) :=
  match L with
  | .emptyArray => .ok (.unchanged R)
  | .index ai =>
    if R.isEmptyArray = true ∧ ai.Ints.length = 1 then
      let n := (ai.Ints.getD 0 0).natAbs
      .ok (.zeros ⟨[n], List.replicate n 0⟩)
    else if ai.Dims.length > 1 then .err .notVector
    else
      let ar := takedropArray env ai R
      match ai.Dims with
      | [] => .crash
      | d0 :: _ =>
        let ai' : IntArray :=
          if take = false ∧ d0 < ar.Shape.length then
            ⟨[ai.Ints.length + (ar.Shape.length - d0)],
              ai.Ints ++ List.replicate (ar.Shape.length - d0) 0⟩
          else ai
        if ai'.Dims.headD 0 ≠ ar.Shape.length then .err .rank
        else if take then liftTake (env.Take ai' ar)
        else liftTake (dodrop env ai' ar)

/-- Go `take`. -/
def take {V T E : Type} (env : TakeEnv V T E) (L : TDCount) (R : TDOperand V) :
    Outcome (TDResult V T) (TakeError E) :=
  takedrop env L R true

/-- Go `drop`. -/
def drop {V T E : Type} (env : TakeEnv V T E) (L : TDCount) (R : TDOperand V) :
    Outcome (TDResult V T) (TakeError E) :=
  takedrop env L R false

/-- Modelled from the spec: the source position on one axis of `operators.Take`
(which is not among the sources at hand) for the position `j` of the result: a
non-negative count keeps the first elements, a negative count `c` the last
`|c|` ones, so that the result is aligned with the end of the axis of extent
`ext`. -/
def takeSource (c : Int) (ext : Nat) (j : Nat) : Int :=
  if 0 ≤ c then (j : Int) else (j : Int) + (ext : Int) - (c.natAbs : Int)

/-- Modelled from the spec: the source multi-index of `operators.Take` for a
multi-index of the result. -/
def takeIndex : List Int → List Nat → List Nat → List Int
  | c :: cs, e :: es, j :: js => takeSource c e j :: takeIndex cs es js
  | _, _, _ => []

/-- Whether a source multi-index lies within the shape; outside of it the
result is filled. -/
def withinShape : List Int → List Nat → Bool
  | x :: xs, e :: es => decide (0 ≤ x ∧ x < (e : Int)) && withinShape xs es
  | _, _ => true

/-- Modelled from the spec: `operators.Take`, which is not among the sources
at hand.  Per axis, a non-negative count `N` keeps the first `N` elements and a
negative count the last `|N|` elements; positions beyond the extent of the
array are filled with `zero`.  The result has the extent `|N|` on each axis. -/
def TakeSpec {V E : Type} (zero : V) (b : IntArray) (R : Arr V) :
    Outcome (GeneralArray V) E :=
  let dims := b.Ints.map Int.natAbs
  .ok ⟨dims, (List.range dims.prod).map (fun i =>
    let src := takeIndex b.Ints R.Shape (unravel dims i)
    if withinShape src R.Shape then R.At (flatOffset R.Shape src) else zero)⟩

/-- The environment of take and drop with `operators.Take` as the spec
describes it, on integers with fill 0; the empty array has no axes. -/
def specTakeEnv : TakeEnv Int (GeneralArray Int) Unit where
  Take := TakeSpec 0
  EmptyArray := ⟨[], fun _ => 0⟩

/-- The environment `specTakeEnv` with an empty array of one axis of extent
0 in place of the empty array without axes. -/
def specTakeEnvZero : TakeEnv Int (GeneralArray Int) Unit where
  Take := TakeSpec 0
  EmptyArray := ⟨[0], fun _ => 0⟩

/-- The vector `10, 11, ..., 14` as an array of `take.go`. -/
def demoVector : Arr Int where
  Shape := [5]
  At := fun i => 10 + i

/-! ## The domain of numbers: `ToNumber`, `IsNumber` -/

/-- What `number.To` asks of a value and of the tower: the type tests
`V.(apl.Array)`, `V.(apl.Bool)` and `V.(apl.Index)`, the run-time type of a
value, the types registered in `Tower.Numbers`, and the two imports
`Tower.FromBool` and `Tower.FromIndex`. -/
structure NumberEnv (V Ty : Type) where
  asArray : V → Option (Arr V)
  asBool : V → Option Bool
  asIndex : V → Option Int
  typeOf : V → Ty
  Numbers : Ty → Bool
  FromBool : Bool → V
  FromIndex : Int → V

/-- Go `number.To`.  After an array of size 1 has been unwrapped into `v`, the
tests for `apl.Bool` and `apl.Index` are made on the argument `V`, the lookup in
`Tower.Numbers` on `v`. -/
def numberTo {V Ty : Type} (env : NumberEnv V Ty) (convert : Bool) (V0 : V) : V × Bool :=
  let rest (v : V) : V × Bool :=
    match env.asBool V0 with
    | some b => (env.FromBool b, true)
    | none =>
      match env.asIndex V0 with
      | some i => (env.FromIndex i, true)
      | none => if env.Numbers (env.typeOf v) then (v, true) else (V0, false)
  match env.asArray V0 with
  | some ar =>
    if convert = false then (V0, false)
    else if ArraySize ar.Shape ≠ 1 then (V0, false)
    else rest (ar.At 0)
  | none => rest V0

/-- Go `ToNumber(child).To`. -/
def ToNumber {V Ty : Type} (env : NumberEnv V Ty) (V0 : V) : V × Bool :=
  numberTo env true V0

/-- Go `IsNumber(child).To`. -/
def IsNumber {V Ty : Type} (env : NumberEnv V Ty) (V0 : V) : V × Bool :=
  numberTo env false V0

/-- A small universe of values: booleans, indexes, integers of the tower,
strings, and vectors of booleans, of indexes and of integers. -/
inductive NumValue where
  | bool (b : Bool)
  | index (i : Int)
  | integer (n : Int)
  | string (s : String)
  | bools (bs : List Bool)
  | indexes (is : List Int)
  | integers (ns : List Int)
  deriving DecidableEq, Repr

/-- The run-time types of `NumValue`. -/
inductive NumType where
  | bool | index | integer | string | boolArray | indexArray | integerArray
  deriving DecidableEq, Repr

/-- A tower with the integers as its only registered type; booleans import as
0 and 1, indexes as themselves. -/
def demoNumberEnv : NumberEnv NumValue NumType where
  asArray
    | .bools bs => some ⟨[bs.length], fun i => .bool (bs.getD i.toNat false)⟩
    | .indexes is => some ⟨[is.length], fun i => .index (is.getD i.toNat 0)⟩
    | .integers ns => some ⟨[ns.length], fun i => .integer (ns.getD i.toNat 0)⟩
    | _ => none
  asBool
    | .bool b => some b
    | _ => none
  asIndex
    | .index i => some i
    | _ => none
  typeOf
    | .bool _ => .bool
    | .index _ => .index
    | .integer _ => .integer
    | .string _ => .string
    | .bools _ => .boolArray
    | .indexes _ => .indexArray
    | .integers _ => .integerArray
  Numbers := fun t => decide (t = .integer)
  FromBool := fun b => .integer (if b then 1 else 0)
  FromIndex := fun i => .integer i


/-! ## Shape and reshape: `rho1`, `rho2` -/

/-- What `rho1` and `rho2` ask of their right argument: the type tests
`R.(apl.Table)` with `t.Rows` and `len(t.K)`, `R.(apl.Object)` with
`len(o.Keys())`, `R.(apl.Array)` with `Shape()`, `R.(apl.EmptyArray)`, and
`R.(apl.Reshaper)` with the method `Reshape`, whose results have the type
`T`. -/
structure RhoValue (T : Type) where
  table : Option (Int × Nat)
  object : Option Nat
  array : Option (List Nat)
  emptyArray : Bool
  reshaper : Option (List Int → T)

/-- The values that `rho1` returns and `rho2` takes on the left: the empty
array or an integer array. -/
inductive ShapeValue where
  | emptyArray
  | ints (ia : IntArray)
  deriving DecidableEq, Repr

/-- The error of `rho.go`, `"cannot reshape %T"`. -/
inductive RhoError where
  | cannotReshape
  deriving DecidableEq, Repr

/-- The values returned by `rho2`: the empty array or the result of
`Reshape`. -/
inductive RhoResult (T : Type) where
  | emptyArray
  | reshaped (t : T)
  deriving DecidableEq, Repr

/-- Go `rho1`. -/
def rho1 {T : Type} (R : RhoValue T) : Outcome ShapeValue RhoError :=
  match R.table with
  | some (rows, cols) => .ok (.ints ⟨[2], [rows, (cols : Int)]⟩)
  | none =>
    match R.object with
    | some n => .ok (.ints ⟨[1], [(n : Int)]⟩)
    | none =>
      match R.array with
      | none => .ok .emptyArray
      | some shape =>
        if R.emptyArray then .ok (.ints ⟨[1], [0]⟩)
        else .ok (.ints ⟨[shape.length], shape.map Int.ofNat⟩)

/-- Modelled from the spec: `apl.ArraySize` of the left argument of `rho2`; the
empty array has no elements, an integer array has as many as the product of
its shape. -/
def ShapeValue.size : ShapeValue → Nat
  | .emptyArray => 0
  | .ints ia => ArraySize ia.Dims

/-- Go `rho2`.  The type assertion `L.(apl.IntArray)` on the empty array would
be a run-time panic; it is not reached, as the empty array has size 0. -/
def rho2 {T : Type} (L : ShapeValue) (R : RhoValue T) : Outcome (RhoResult T) RhoError :=
  if L.size = 0 then .ok .emptyArray
  else if R.object.isSome then .err .cannotReshape
  else
    match L with
    | .emptyArray => .crash
    | .ints l =>
      match R.reshaper with
      | some reshape => .ok (.reshaped (reshape l.Ints))
      | none => .err .cannotReshape

/-- Modelled from the spec: the method `Reshape` of an array, which is not
among the sources at hand: the result has the given shape and takes the
elements of the receiver in row-major order, starting again at the first one
when they are used up. -/
def reshapeSpec {V : Type} (A : GeneralArray V) (shape : List Int) : GeneralArray V :=
  ⟨shape.map Int.toNat,
    (List.range (shape.map Int.toNat).prod).filterMap
      (fun (i : Nat) => A.Values[i % A.Values.length]?)⟩

/-- A general array as a right argument of `rho1` and `rho2`: an array that
is neither table nor object nor the empty array and that reshapes as the spec
describes. -/
def GeneralArray.rhoValue {V : Type} (A : GeneralArray V) : RhoValue (GeneralArray V) where
  table := none
  object := none
  array := some A.Dims
  emptyArray := false
  reshaper := some (reshapeSpec A)

/-- A table of 4 rows and 2 columns as an argument of `rho1`. -/
def demoTableRho : RhoValue Unit where
  table := some (4, 2)
  object := some 2
  array := none
  emptyArray := false
  reshaper := none


/-! ## Lists: `listSelection`, `listIndex` -/

/-- A value in a list: a list itself, or any other value. -/
inductive LValue (α : Type) where
  | atom (a : α)
  | list (items : List (LValue α))

/-- Errors of `listSelection`: `"indexing with a list is not supported"`,
`"list index is no integer"`, `"list index out of range"` and
`"list index is too deep"`. -/
inductive ListError where
  | withList
  | notInteger
  | outOfRange
  | tooDeep
  deriving DecidableEq, Repr

/-- What `listSelection` uses of the interpreter: the index origin, the test
`spec[0].(apl.List)`, and the domain `ToIndexArray(nil)`, which returns the
empty array or an integer array when it accepts a value. -/
structure ListEnv (S : Type) where
  Origin : Int
  isList : S → Bool
  ToIndexArray : S → Option ShapeValue

/-- The first loop of `listSelection`: every entry of the spec as one integer
relative to the origin.  The type assertion `v.(apl.IntArray)` on the empty
array and `ai.Ints[0]` on an array without integers are run-time panics. -/
def listInts {S : Type} (env : ListEnv S) : List S → Outcome (List Int) ListError
  | [] => .ok []
  | s :: rest =>
    match env.ToIndexArray s with
    | none => .err .notInteger
    | some .emptyArray => .crash
    | some (.ints ai) =>
      if ai.Dims ≠ [1] then .err .notInteger
      else
        match ai.Ints with
        | [] => .crash
        | n :: _ =>
          match listInts env rest with
          | .ok ks => .ok ((n - env.Origin) :: ks)
          | .err e => .err e
          | .crash => .crash

/-- The second loop of `listSelection`: the indexes are normalized and checked
against the list at their depth, which is replaced by the element found for
every index but the last.  Reading `lst[k]` outside the list would be a
run-time panic. -/
def listWalk {α : Type} : List Int → List (LValue α) → Outcome (List Int) ListError
  | [], _ => .ok []
  | k :: ks, lst =>
    let k1 := if k < 0 then (lst.length : Int) + k else k
    if k1 < 0 ∨ k1 ≥ (lst.length : Int) then .err .outOfRange
    else if ks.isEmpty then .ok [k1]
    else
      match lst[k1.toNat]? with
      | none => .crash
      | some (.atom _) => .err .tooDeep
      | some (.list l) =>
        match listWalk ks l with
        | .ok r => .ok (k1 :: r)
        | .err e => .err e
        | .crash => .crash

/-- Go `listSelection`. -/
def listSelection {S α : Type} (env : ListEnv S) (spec : List S) (lst : List (LValue α)) :
    Outcome IntArray ListError :=
  if spec.length = 1 ∧ spec.head?.map env.isList = some true then .err .withList
  else
    match listInts env spec with
    | .err e => .err e
    | .crash => .crash
    | .ok idx =>
      match listWalk idx lst with
      | .err e => .err e
      | .crash => .crash
      | .ok r => .ok ⟨[idx.length], r⟩

/-- The loop of `listIndex`.  Reading `lst[k]` outside the list and the type
assertion `v.(apl.List)` on a value that is no list are run-time panics. -/
def listFollow {α : Type} : List Int → List (LValue α) → Outcome (LValue α) ListError
  | [], lst => .ok (.list lst)
  | k :: ks, lst =>
    if k < 0 then .crash
    else
      match lst[k.toNat]? with
      | none => .crash
      | some v =>
        if ks.isEmpty then .ok v
        else
          match v with
          | .atom _ => .crash
          | .list l => listFollow ks l

/-- Go `listIndex`. -/
def listIndex {S α : Type} (env : ListEnv S) (spec : List S) (lst : List (LValue α)) :
    Outcome (LValue α) ListError :=
  match listSelection env spec lst with
  | .err e => .err e
  | .crash => .crash
  | .ok ai => listFollow ai.Ints lst

/-- The index `k` relative to the origin, counted from the end of a list of
length `n` when it is negative. -/
def normIndex (k : Int) (n : Nat) : Int := if k < 0 then (n : Int) + k else k

/-- The path of a list index at depth, in the words of the spec: every
normalized index lies within the list at its depth, every element on the path
except the last is a list, and the last element is the one reached.  The
arguments are the list, the indexes relative to the origin, the normalized
indexes, and the element reached. -/
inductive ListPath {α : Type} : List (LValue α) → List Int → List Int → LValue α → Prop
  | nil (lst : List (LValue α)) : ListPath lst [] [] (.list lst)
  | last (lst : List (LValue α)) (k : Int) (v : LValue α) :
      0 ≤ normIndex k lst.length → normIndex k lst.length < (lst.length : Int) →
      lst[(normIndex k lst.length).toNat]? = some v →
      ListPath lst [k] [normIndex k lst.length] v
  | step (lst l : List (LValue α)) (k : Int) (ks ns : List Int) (v : LValue α) :
      ks ≠ [] →
      0 ≤ normIndex k lst.length → normIndex k lst.length < (lst.length : Int) →
      lst[(normIndex k lst.length).toNat]? = some (.list l) →
      ListPath l ks ns v →
      ListPath lst (k :: ks) (normIndex k lst.length :: ns) v

/-- An interpreter with origin 1 whose index specifications are integers. -/
def demoListEnv : ListEnv Int where
  Origin := 1
  isList := fun _ => false
  ToIndexArray := fun i => some (.ints ⟨[1], [i]⟩)

/-- The list `(1; (2; 3); 4)`. -/
def demoList : List (LValue Int) :=
  [.atom 1, .list [.atom 2, .atom 3], .atom 4]


/-! ## Objects: `objIndex`, `objSelection` -/

/-- Reading a Go map, given by the list of its entries: `v, ok := m[k]`. -/
def mapGet {K V : Type} [DecidableEq K] : List (K × V) → K → Option V
  | [], _ => none
  | (k1, v) :: m, k => if k1 = k then some v else mapGet m k

/-- Writing a Go map, `m[k] = v`: the entry of the key is replaced, or a new
entry is added. -/
def mapSet {K V : Type} [DecidableEq K] : List (K × V) → K → V → List (K × V)
  | [], k, v => [(k, v)]
  | (k1, v1) :: m, k, v => if k1 = k then (k, v) :: m else (k1, v1) :: mapSet m k v

/-- An `apl.Object` as far as `objIndex` uses it: `Keys()` and `At`, which
returns nil for a key that the object does not have. -/
structure ObjectValue (K V : Type) where
  Keys : List K
  At : K → Option V

/-- Go `apl.Dict`: the keys in order, and the map from key to value. -/
structure Dict (Key Val : Type) where
  K : List Key
  M : List (Key × Val)
  deriving DecidableEq, Repr

/-- Errors of `objIndex` and `objSelection`:
`"object index: index spec must be a single scalar or vector"`,
`"key does not exist"`, and `"object index must be a vector"`. -/
inductive ObjError where
  | specLength
  | keyMissing
  | notVector
  deriving DecidableEq, Repr

/-- The values returned by `objIndex`: the value of a key, or a dictionary. -/
inductive ObjResult (K V : Type) where
  | value (v : V)
  | dict (d : Dict K V)
  deriving DecidableEq, Repr

/-- The loop of `objIndex` over the keys of the spec: the key is stored at its
position in `k` and the value under the key in the map `m`. -/
def objIndexLoop {K V : Type} [DecidableEq K] (At : K → Option V) :
    List K → Dict K V → Outcome (Dict K V) ObjError
  | [], d => .ok d
  | key :: rest, d =>
    match At key with
    | none => .err .keyMissing
    | some v => objIndexLoop At rest ⟨d.K ++ [key], mapSet d.M key v⟩

/-- The elements of an array in the order of their flat positions, as a loop
`for i := 0; i < n; i++` reads them with `At(i)`. -/
def arrayElements {K : Type} (A : Arr K) (n : Nat) : List K :=
  (List.range n).map (fun (i : Nat) => A.At (i : Int))

/-- Go `objIndex`; `asArray` is the type test `spec[0].(apl.Array)`. -/
def objIndex {K V : Type} [DecidableEq K] (asArray : K → Option (Arr K))
    (obj : ObjectValue K V) (spec : List K) : Outcome (ObjResult K V) ObjError :=
  match spec with
  | [s] =>
    match asArray s with
    | none =>
      match obj.At s with
      | none => .err .keyMissing
      | some v => .ok (.value v)
    | some sv =>
      match sv.Shape with
      | [n] =>
        match objIndexLoop obj.At (arrayElements sv n) ⟨[], []⟩ with
        | .ok d => .ok (.dict d)
        | .err e => .err e
        | .crash => .crash
      | _ => .err .notVector
  | _ => .err .specLength

/-- The right argument of `objSelection`: a `*apl.Dict`, which is mutable, or
another object, of which only `Keys()` is used. -/
inductive ObjTarget (K V : Type) where
  | dict (d : Dict K V)
  | other (Keys : List K)
  deriving DecidableEq, Repr

/-- Modelled from the spec: `Keys()` of a dictionary, which is not among the
sources at hand, returns the keys in insertion order. -/
def ObjTarget.Keys {K V : Type} : ObjTarget K V → List K
  | .dict d => d.K
  | .other keys => keys

/-- Modelled from the spec: `Dict.Set`, which is not among the sources at
hand: the value of an existing key is replaced, a new key is added after the
existing ones; the call succeeds. -/
def Dict.set {K V : Type} [DecidableEq K] (d : Dict K V) (k : K) (v : V) : Dict K V :=
  ⟨if k ∈ d.K then d.K else d.K ++ [k], mapSet d.M k v⟩

/-- The first loop of `objSelection`: `keys[k] = i + a.Origin` for the keys
from position `i` on. -/
def keyPositions {K : Type} [DecidableEq K] (origin : Int) :
    List K → Nat → List (K × Int) → List (K × Int)
  | [], _, m => m
  | k :: ks, i, m => keyPositions origin ks (i + 1) (mapSet m k ((i : Int) + origin))

/-- The second loop of `objSelection`, over the keys of a key vector. -/
def objSelectionLoop {K V : Type} [DecidableEq K] (origin : Int) (emptyArray : V) :
    List K → List (K × Int) → ObjTarget K V → Outcome (List Int × ObjTarget K V) ObjError
  | [], _, t => .ok ([], t)
  | key :: rest, keys, t =>
    match mapGet keys key with
    | some k =>
      match objSelectionLoop origin emptyArray rest keys t with
      | .ok (ints, t1) => .ok (k :: ints, t1)
      | .err e => .err e
      | .crash => .crash
    | none =>
      match t with
      | .other _ => .err .keyMissing
      | .dict d =>
        let k := (keys.length : Int) + origin
        match objSelectionLoop origin emptyArray rest (mapSet keys key k)
            (.dict (d.set key emptyArray)) with
        | .ok (ints, t1) => .ok (k :: ints, t1)
        | .err e => .err e
        | .crash => .crash

/-- Go `objSelection`, returning the selection together with the object after
the call; `asArray` is the type test `spec[0].(apl.Array)`, and `Size()` of
the key array is the product of its shape. -/
def objSelection {K V : Type} [DecidableEq K] (asArray : K → Option (Arr K))
    (origin : Int) (emptyArray : V) (R : ObjTarget K V) (spec : List K) :
    Outcome (IntArray × ObjTarget K V) ObjError :=
  match spec with
  | [s] =>
    let keys := keyPositions origin R.Keys 0 []
    match asArray s with
    | none =>
      match mapGet keys s with
      | some idx => .ok (⟨[1], [idx]⟩, R)
      | none =>
        match R with
        | .dict d => .ok (⟨[1], [(keys.length : Int) + origin]⟩, .dict (d.set s emptyArray))
        | .other _ => .err .keyMissing
    | some as =>
      match objSelectionLoop origin emptyArray (arrayElements as (ArraySize as.Shape))
          keys R with
      | .ok (ints, t1) => .ok (⟨[ArraySize as.Shape], ints⟩, t1)
      | .err e => .err e
      | .crash => .crash
  | _ => .err .notVector

/-- The keys of a dictionary after the new keys of a key vector have been
added, each once, in the order in which they occur. -/
def addNewKeys {K : Type} [DecidableEq K] (keys : List K) (ks : List K) : List K :=
  ks.foldl (fun acc k => if k ∈ acc then acc else acc ++ [k]) keys

/-- Values of the examples on objects: strings, vectors of strings, numbers,
and the empty array. -/
inductive ObjValue where
  | str (s : String)
  | strs (ss : List String)
  | num (n : Int)
  | emptyArray
  deriving DecidableEq, Repr

/-- The type test `spec[0].(apl.Array)` on the values of the examples. -/
def demoAsArray : ObjValue → Option (Arr ObjValue)
  | .strs ss => some ⟨[ss.length], fun i => .str (ss.getD i.toNat "")⟩
  | _ => none

/-- The dictionary with the keys `a` and `b` and the values 1 and 2. -/
def demoDict : Dict ObjValue ObjValue :=
  ⟨[.str "a", .str "b"], [(.str "a", .num 1), (.str "b", .num 2)]⟩

/-- The dictionary `demoDict` through the interface `apl.Object`. -/
def demoObject : ObjectValue ObjValue ObjValue where
  Keys := demoDict.K
  At := mapGet demoDict.M


/-- The map `keys` of `objSelection` agrees with a list of keys: it holds for
every key of the list its position plus the origin, and nothing else. -/
def KeysAgree {K : Type} [DecidableEq K] (origin : Int) (keys : List (K × Int))
    (ks : List K) : Prop :=
  keys.length = ks.length ∧
  ∀ k, mapGet keys k = if k ∈ ks then some ((ks.indexOf k : Int) + origin) else none


/-! ## Selection of take and drop: `takeDropSelection` -/

/-- Errors of `takeDropSelection`: `"cannot select from non-array"`, an error
of `takedrop`, `"could not convert selection to index array"`, and
`"TODO: overtake/drop with selection"`. -/
inductive SelectionError (E : Type) where
  | notArray
  | takedrop (e : TakeError E)
  | convert
  | overtake
  deriving DecidableEq, Repr

/-- The index array `r` of `takeDropSelection`: the shape of `R`, and at the
flat position `i` the integer `i + 1`. -/
def selectionSource (shape : List Nat) : Arr Int where
  Shape := shape
  At := fun i => i + 1

/-- The last loop of `takeDropSelection`: every integer is reduced by one; the
loop ends with the error at the first one that becomes negative. -/
def decrementAll : List Int → Option (List Int)
  | [] => some []
  | x :: xs =>
    if x - 1 < 0 then none
    else
      match decrementAll xs with
      | none => none
      | some r => some ((x - 1) :: r)

/-- Go `takeDropSelection`.  `ToIndexArray` is the domain `ToIndexArray(nil)`
on the result of `takedrop`; it returns the empty array or an index array when
it accepts a value, and the type assertion `v.(apl.IndexArray)` on the empty
array is a run-time panic. -/
def takeDropSelection {V T E : Type} (env : TakeEnv Int T E)
    (ToIndexArray : TDResult Int T → Option TDCount) (L : TDCount) (R : TDOperand V)
    (take : Bool) : Outcome IntArray (SelectionError E) :=
  let shape : Option (List Nat) :=
    match R with
    | .scalar _ => none
    | .emptyArray => some env.EmptyArray.Shape
    | .array A => some A.Shape
  match shape with
  | none => .err .notArray
  | some shape =>
    match takedrop env L (.array (selectionSource shape)) take with
    | .err e => .err (.takedrop e)
    | .crash => .crash
    | .ok res =>
      match ToIndexArray res with
      | none => .err .convert
      | some .emptyArray => .crash
      | some (.index ai) =>
        match decrementAll ai.Ints with
        | none => .err .overtake
        | some ints => .ok ⟨ai.Dims, ints⟩

/-- The count vector that `takedrop` hands to `operators.Take` for a count
vector and an array of the given shape: the counts themselves for take, the
counts of `dodrop` for drop, after the checks of `takedrop`. -/
def takedropCounts {E : Type} (ai : IntArray) (shape : List Nat) (take : Bool) :
    Outcome IntArray (TakeError E) :=
  if ai.Dims.length > 1 then .err .notVector
  else
    match ai.Dims with
    | [] => .crash
    | d0 :: _ =>
      let ai1 : IntArray :=
        if take = false ∧ d0 < shape.length then
          ⟨[ai.Ints.length + (shape.length - d0)],
            ai.Ints ++ List.replicate (shape.length - d0) 0⟩
        else ai
      if ai1.Dims.headD 0 ≠ shape.length then .err .rank
      else if take then .ok ai1
      else if ai1.Ints.length ≤ shape.length then
        .ok ⟨ai1.Dims, List.zipWith dropCount ai1.Ints (shape.map Int.ofNat)⟩
      else .crash

/-- Spec side: for every position of the result of `Take` with the given
counts on an array of the given shape, in row-major order, the flat position
in the array of the element it holds, or `none` for a fill element. -/
def takePositions (counts : List Int) (shape : List Nat) : List (Option Int) :=
  (List.range (counts.map Int.natAbs).prod).map (fun (i : Nat) =>
    if withinShape (takeIndex counts shape (unravel (counts.map Int.natAbs) i)) shape
    then some (flatOffset shape (takeIndex counts shape (unravel (counts.map Int.natAbs) i)))
    else none)

/-- The element of an array at a position of `takePositions`, the fill for
`none`. -/
def elementAt {V : Type} (zero : V) (A : Arr V) : Option Int → V
  | some p => A.At p
  | none => zero

/-- The domain `ToIndexArray(nil)` on the results of `takedrop` on index
arrays, in the examples: the index array itself. -/
def demoToIndexArray : TDResult Int (GeneralArray Int) → Option TDCount
  | .taken t => some (.index ⟨t.Dims, t.Values⟩)
  | .zeros ia => some (.index ia)
  | .unchanged (.array A) =>
    some (.index ⟨A.Shape, (List.range (ArraySize A.Shape)).map (fun (i : Nat) => A.At (i : Int))⟩)
  | .unchanged .emptyArray => some .emptyArray
  | .unchanged (.scalar _) => none


/-! ## Tables: `tableIndex` -/

/-- Go `apl.Table` as far as `tableIndex` uses it: the number of rows, the keys
in order, and the map from key to column; a column is given by its values. -/
structure Table (V : Type) where
  Rows : Int
  K : List String
  M : List (String × List V)
  deriving DecidableEq, Repr

/-- Errors of `tableIndex`: `"index spec must have one or two fields"`,
`"second part must be a string or string vector"`,
`"first part must be an index or index vector"`, `"table index out of range"`
and `"column does not exist"`. -/
inductive TableError where
  | fields
  | secondPart
  | firstPart
  | outOfRange
  | columnMissing
  deriving DecidableEq, Repr

/-- The values returned by `tableIndex`: a list of values, a single value, or
a table. -/
inductive TableResult (V : Type) where
  | list (vals : List V)
  | cell (v : V)
  | table (t : Table V)
  deriving DecidableEq, Repr

/-- What `tableIndex` uses of the interpreter: the index origin, the test
`spec[i].(apl.EmptyArray)`, and the domains `ToStringArray(IsVector(nil))` and
`ToIndexArray(IsVector(nil))` with the strings and the integers of the arrays
they return. -/
structure TableEnv (S : Type) where
  Origin : Int
  isEmpty : S → Bool
  toStrings : S → Option (List String)
  toInts : S → Option (List Int)

/-- The part of `tableIndex` on `spec[0]`, after the keys are known: the flag
`emptykeys`, the keys, and the rows, which stay nil for an empty field. -/
def tableFirstField {S : Type} (env : TableEnv S) (emptykeys : Bool) (keys : List String)
    (s0 : S) : Outcome (Bool × List String × Option (List Int)) TableError :=
  if env.isEmpty s0 then .ok (true, keys, none)
  else
    match env.toInts s0 with
    | none => .err .firstPart
    | some ints => .ok (emptykeys, keys, some ints)

/-- The first part of `tableIndex`: the number of fields is checked, then the
second field is read, then the first. -/
def tableFields {S V : Type} (env : TableEnv S) (t : Table V) (spec : List S) :
    Outcome (Bool × List String × Option (List Int)) TableError :=
  match spec with
  | [s0] => tableFirstField env false t.K s0
  | [s0, s1] =>
    if env.isEmpty s1 then tableFirstField env true t.K s0
    else
      match env.toStrings s1 with
      | none => .err .secondPart
      | some strings => tableFirstField env false strings s0
  | _ => .err .fields

/-- The body of the loop of `tableIndex` over the rows: the row relative to the
origin, counted from the end when negative. -/
def normRow (origin rows r : Int) : Int :=
  if r - origin < 0 then r - origin + rows else r - origin

/-- The loop of `tableIndex` over the rows; `none` is the error
`"table index out of range"`. -/
def normRows (origin rows : Int) : List Int → Option (List Int)
  | [] => some []
  | r :: rs =>
    if normRow origin rows r < 0 ∨ normRow origin rows r ≥ rows then none
    else
      match normRows origin rows rs with
      | none => none
      | some ns => some (normRow origin rows r :: ns)

/-- The values of a column at the given rows, read with `At`; reading outside
the column is a run-time panic. -/
def pickRows {V : Type} (col : List V) : List Int → Outcome (List V) TableError
  | [] => .ok []
  | j :: js =>
    if j < 0 then .crash
    else
      match col[j.toNat]? with
      | none => .crash
      | some v =>
        match pickRows col js with
        | .ok vs => .ok (v :: vs)
        | .err e => .err e
        | .crash => .crash

/-- The special case of a single row with semicolon: the values of the row,
one per key.  The type assertion `t.M[k].(apl.Array)` on a missing column and
reading outside a column are run-time panics. -/
def tableRow {V : Type} (t : Table V) (r : Int) : List String → Outcome (List V) TableError
  | [] => .ok []
  | k :: ks =>
    match mapGet t.M k with
    | none => .crash
    | some col =>
      if r < 0 then .crash
      else
        match col[r.toNat]? with
        | none => .crash
        | some v =>
          match tableRow t r ks with
          | .ok vs => .ok (v :: vs)
          | .err e => .err e
          | .crash => .crash

/-- The last loop of `tableIndex` over the keys: the key is stored in `d.K` and
the column with the selected rows under the key in `d.M`.  `apl.MakeArray` and
`Set`, which are not among the sources at hand, are modelled from the spec: a
new array of the values set. -/
def tableColumns {V : Type} (t : Table V) (rows : List Int) :
    List String → Dict String (List V) → Outcome (Dict String (List V)) TableError
  | [], d => .ok d
  | k :: ks, d =>
    match mapGet t.M k with
    | none => .err .columnMissing
    | some col =>
      match pickRows col rows with
      | .ok c => tableColumns t rows ks ⟨d.K ++ [k], mapSet d.M k c⟩
      | .err e => .err e
      | .crash => .crash

/-- The rows that the last loop of `tableIndex` reads: the given rows, or all
rows when `rows` is nil. -/
def selectedRows (rows : Int) : Option (List Int) → List Int
  | none => (List.range rows.toNat).map (fun (i : Nat) => (i : Int))
  | some rs => rs

/-- The loop of `tableIndex` over the rows, which are nil for an empty first
field; the outer `none` is the error `"table index out of range"`. -/
def normRowsOpt (origin rows : Int) : Option (List Int) → Option (Option (List Int))
  | none => some none
  | some rs =>
    match normRows origin rows rs with
    | none => none
    | some ns => some (some ns)

/-- The number `nrows` of `tableIndex`: the number of the given rows, or the
number of rows of the table when `rows` is nil. -/
def tableRowCount (rows : Int) : Option (List Int) → Int
  | none => rows
  | some rs => (rs.length : Int)

/-- Go `tableIndex`.  Modelled from the spec: `dict2table`, which is not among
the sources at hand, makes the table of the dictionary, with as many rows as
its columns have. -/
def tableIndex {S V : Type} (env : TableEnv S) (t : Table V) (spec : List S) :
    Outcome (TableResult V) TableError :=
  match tableFields env t spec with
  | .err e => .err e
  | .crash => .crash
  | .ok (emptykeys, keys, rows) =>
    match normRowsOpt env.Origin t.Rows rows with
    | none => .err .outOfRange
    | some rows =>
      match emptykeys, rows, keys with
      | true, some [r], _ =>
        match tableRow t r keys with
        | .ok vs => .ok (.list vs)
        | .err e => .err e
        | .crash => .crash
      | _, _, _ =>
        if spec.length = 2 ∧ keys.length = 1 ∧ (rows.map List.length) = some 1 then
          match keys.head?, rows.bind List.head? with
          | some k, some r =>
            match mapGet t.M k with
            | none => .err .columnMissing
            | some col =>
              if r < 0 then .crash
              else
                match col[r.toNat]? with
                | none => .crash
                | some v => .ok (.cell v)
          | _, _ => .crash
        else
          match tableColumns t (selectedRows t.Rows rows) keys ⟨[], []⟩ with
          | .ok d => .ok (.table ⟨tableRowCount t.Rows rows, d.K, d.M⟩)
          | .err e => .err e
          | .crash => .crash

/-- The fields of an index specification in the examples on tables: the empty
array, a vector of rows, or a vector of keys. -/
inductive TableField where
  | empty
  | rows (rs : List Int)
  | keys (ks : List String)
  deriving DecidableEq, Repr

/-- An interpreter with origin 0 on the fields of the examples. -/
def demoTableEnv : TableEnv TableField where
  Origin := 0
  isEmpty
    | .empty => true
    | _ => false
  toStrings
    | .keys ks => some ks
    | _ => none
  toInts
    | .rows rs => some rs
    | _ => none

/-- The table with the columns `a` and `b` and three rows. -/
def demoTable : Table Int :=
  ⟨3, ["a", "b"], [("a", [1, 2, 3]), ("b", [4, 5, 6])]⟩


/-- The column of the sub-table of `tableIndex` under a key: the values of
the column of the table at the selected rows. -/
def columnAt {V : Type} (t : Table V) (rows : List Int) (k : String) : Option (List V) :=
  match mapGet t.M k with
  | none => none
  | some col =>
    match pickRows col rows with
    | .ok c => some c
    | _ => none


/-! ## The domain of indexes: `ToIndex` -/

/-- What `index.To` asks of a value: the type tests `V.(apl.Bool)`,
`V.(apl.Index)` and `V.(apl.Number)`, the latter with the result `(i, ok)` of
the method `ToIndex`, and the conversion `apl.Index(i)`. -/
structure IndexEnv (V : Type) where
  asBool : V → Option Bool
  asIndex : V → Option Int
  asNumber : V → Option (Option Int)
  index : Int → V

/-- Modelled from the spec: `propagate`, which is not among the sources at
hand: a domain without child accepts the converted value, and a child domain
decides on the converted value. -/
def propagate {V : Type} (v : V) (child : Option (V → V × Bool)) : V × Bool :=
  match child with
  | none => (v, true)
  | some c => c v

/-- Go `index.To`, the method `To` of the domain `ToIndex(child)`. -/
def indexTo {V : Type} (env : IndexEnv V) (child : Option (V → V × Bool)) (V0 : V) :
    V × Bool :=
  match env.asBool V0 with
  | some b => if b = true then (env.index 1, true) else (env.index 0, true)
  | none =>
    match env.asIndex V0 with
    | some _ => (V0, true)
    | none =>
      match env.asNumber V0 with
      | none => (V0, false)
      | some none => (V0, false)
      | some (some i) => propagate (env.index i) child

/-- The values of `NumValue` seen by `ToIndex`: the integers of the tower
convert to an index when they fit into 32 bits. -/
def demoIndexEnv : IndexEnv NumValue where
  asBool
    | .bool b => some b
    | _ => none
  asIndex
    | .index i => some i
    | _ => none
  asNumber
    | .integer n => some (if n.natAbs < 2147483648 then some n else none)
    | _ => none
  index := fun i => .index i


/-! ## Residue: `abs2` -/

/-- What `abs2` asks in addition to `Caps`: the Go value `apl.Bool(b)`, and the
interfaces `adder2`, `substracter2` and `floorer` of an operand, each `none`
on a value whose type does not implement it. -/
structure Caps2 (V E : Type) extends Caps V E where
  bool : Bool → V
  Add2 : V → Option (V → Option V)
  Sub2 : V → Option (V → Option V)
  Floor : V → Option (Option V)

/-- Go `add2`: addition through the `adder2` interface of `L`. -/
def add2 {V E : Type} (c : Caps2 V E) (L R : V) : Reply V :=
  match c.Add2 L with
  | some m => .ofOption (m R)
  | none => .decline

/-- Go `sub2`: subtraction through the `substracter2` interface of `L`. -/
def sub2 {V E : Type} (c : Caps2 V E) (L R : V) : Reply V :=
  match c.Sub2 L with
  | some m => .ofOption (m R)
  | none => .decline

/-- Go `min` of `elementary.go`, the monadic `⌊`: floor through the `floorer`
interface. -/
def Elementary.min {V E : Type} (c : Caps2 V E) (R : V) : Reply V :=
  match c.Floor R with
  | some res => .ofOption res
  | none => .decline

/-- Go `abs2`, `R-L×⌊R÷L+0=L`.  The type assertions `L.(apl.Number)` and
`x.(apl.Number)` on a value that is no number are run-time panics. -/
def abs2 {V E : Type} (c : Caps2 V E) (L R : V) : Reply V :=
  if c.isNumber L = false then .crash
  else
    match c.SameType (c.bool (c.IsZero L)) L with
    | .error _ => .decline
    | .ok (L0, _) =>
      match add2 c L L0 with
      | .crash => .crash
      | .decline => .decline
      | .val x1 =>
        match div2 c.toCaps R x1 with
        | .crash => .crash
        | .decline => .decline
        | .val x2 =>
          match Elementary.min c x2 with
          | .crash => .crash
          | .decline => .decline
          | .val x3 =>
            if c.isNumber x3 = false then .crash
            else
              match c.SameType L x3 with
              | .error _ => .decline
              | .ok (L1, x4) =>
                match mul2 c.toCaps L1 x4 with
                | .crash => .crash
                | .decline => .decline
                | .val x5 => sub2 c R x5

/-- Exact rational arithmetic with all capabilities of `abs2`: addition,
division (which declines a zero divisor), floor, multiplication and
subtraction; all values have the same type. -/
def ratCaps : Caps2 Rat Unit where
  isNumber := fun _ => true
  IsZero := fun q => decide (q = 0)
  int := fun n => (n : Rat)
  Import := fun q => q
  SameType := fun l r => .ok (l, r)
  less := fun l r => some (decide (l < r))
  Abs := fun _ => none
  Sub := fun q => some (some (-q))
  Mul2 := fun l => some (fun r => some (l * r))
  Div2 := fun l => some (fun r => if r = 0 then none else some (l / r))
  Gcd := fun _ => none
  bool := fun b => if b then 1 else 0
  Add2 := fun l => some (fun r => some (l + r))
  Sub2 := fun l => some (fun r => some (l - r))
  Floor := fun q => some (some ((Rat.floor q : Int) : Rat))


/-! ## Operands that may be nil, for the derived function of dot -/

/-- Errors of the functions on operands that may be nil: a function was given
nil where it needs a number, or an access was out of range. -/
inductive NilError where
  | nilOperand
  | range
  deriving DecidableEq, Repr

/-- An environment whose values are integers or nil (`none`): every operand
has the same type, and no type implements `ScalarProduct`. -/
def nilEnv : DotEnv (Option Int) NilError Unit where
  nilValue := none
  rangeError := .range
  typeOf := fun _ => ()
  ScalarProduct := fun _ => none

/-- Multiplication as an `apl.Function` that fails on a nil operand. -/
def optMul : Option Int → Option Int → Except NilError (Option Int)
  | some x, some y => .ok (some (x * y))
  | _, _ => .error .nilOperand

/-- Addition as an `apl.Function` that fails on a nil operand. -/
def optAdd : Option Int → Option Int → Except NilError (Option Int)
  | some x, some y => .ok (some (x + y))
  | _, _ => .error .nilOperand

/-- The function that returns its right argument, whatever the left one is. -/
def rightArg (_x y : Option Int) : Except NilError (Option Int) := .ok y


/-! # Theorems -/

/-! ## Theorems on the dispatcher -/

/-- The promotion loop of `arith1` on a finite chain: with fuel for every
element of the chain it reports the first accepted result or the
not-supported error. -/
theorem arith1Loop_chain {V Ty E : Type} (ty : Typing V Ty) (T : Tower V Ty E)
    (symbol : String) (fn : V → Option V) (R : V) (num : Numeric V) (ns : List V)
    (hch : UpChain ty T num ns) :
    ∀ (fuel : Nat) (n : V) (rest : List V), ns = n :: rest → ns.length ≤ fuel →
      arith1Loop ty T symbol fn R fuel (some num) n
        = some (firstAccepted fn (ArithError.notSupported symbol R) ns) := by
  induction hch with
  | last num m h =>
    intro fuel n rest hns hfuel
    obtain ⟨rfl, rfl⟩ : m = n ∧ [] = rest := by simpa using hns
    obtain ⟨k, rfl⟩ : ∃ k, fuel = k + 1 := ⟨fuel - 1, by simp at hfuel; omega⟩
    cases hfn : fn m <;> simp [arith1Loop, firstAccepted, hfn, h]
  | step num num' m m' tl hup hreg _ ih =>
    intro fuel n rest hns hfuel
    obtain ⟨rfl, rfl⟩ : m = n ∧ m' :: tl = rest := by simpa using hns
    obtain ⟨k, rfl⟩ : ∃ k, fuel = k + 1 := ⟨fuel - 1, by simp at hfuel; omega⟩
    cases hfn : fn m with
    | some v => simp [arith1Loop, firstAccepted, hfn]
    | none =>
      have hk : (m' :: tl).length ≤ k := by simp at hfuel ⊢; omega
      have := ih k m' tl rfl hk
      simp [arith1Loop, hfn, hup, hreg, this, firstAccepted]

/-- C1: `arith1` returns `fn(R)` directly when `fn` accepts `R`; otherwise, for
a number `R` registered in the tower with a finite `Uptype` chain
`R = n0, ..., nm`, it returns `fn(nk)` for the least `k` with `fn` accepting
`nk`, and it fails with the not-supported error exactly when `fn` declines
every `nk`. -/
theorem arith1_dispatch {V Ty E : Type} (ty : Typing V Ty) (T : Tower V Ty E)
    (symbol : String) (fn : V → Option V) (R : V) :
    (∀ (res : V) (fuel : Nat), fn R = some res →
        arith1 ty T symbol fn fuel R = some (.ok res)) ∧
    (∀ (num : Numeric V) (rest : List V) (fuel : Nat),
        ty.isNumber R = true → T.ToNumeric R = some num →
        UpChain ty T num (R :: rest) → (R :: rest).length ≤ fuel →
        arith1 ty T symbol fn fuel R
            = some (firstAccepted fn (ArithError.notSupported symbol R) (R :: rest)) ∧
        (arith1 ty T symbol fn fuel R = some (.err (.notSupported symbol R))
            ↔ ∀ n ∈ R :: rest, fn n = none)) := by
  refine ⟨fun res fuel h => by simp [arith1, h], ?_⟩
  intro num rest fuel hnum hreg hch hfuel
  have hloop := arith1Loop_chain ty T symbol fn R num _ hch fuel R rest rfl hfuel
  have hmain : arith1 ty T symbol fn fuel R
      = some (firstAccepted fn (ArithError.notSupported symbol R) (R :: rest)) := by
    cases hfn : fn R with
    | some v => simp [arith1, hfn, firstAccepted]
    | none => simp [arith1, hfn, hnum, hreg, hloop]
  refine ⟨hmain, ?_⟩
  rw [hmain]
  unfold firstAccepted
  cases hf : (R :: rest).findSome? fn with
  | some v =>
    simp only [Option.some.injEq, reduceCtorEq, false_iff]
    intro hall
    rw [List.findSome?_eq_some_iff] at hf
    obtain ⟨l₁, a, l₂, hl, ha, _⟩ := hf
    have hmem : a ∈ R :: rest := by rw [hl]; simp
    rw [hall a hmem] at ha
    cases ha
  | none =>
    simp only [true_iff]
    intro n hn
    rw [List.findSome?_eq_none_iff] at hf
    exact hf n hn

/-- Instance of C1 on the demonstration tower: from class 0 the chain is
`0, 1, 2` and the implementation accepts at the second promotion. -/
theorem arith1_dispatch_witness :
    arith1 demoTyping demoTower "+" demoFn1 3 0 = some (.ok 20) :=
  ((arith1_dispatch demoTyping demoTower "+" demoFn1 0).2 (demoNumeric 0) [1, 2] 3 rfl rfl
    (UpChain.step _ (demoNumeric 1) 0 1 [2] rfl rfl
      (UpChain.step _ (demoNumeric 2) 1 2 [] rfl rfl (UpChain.last _ 2 rfl)))
    (by decide)).1

/-- The promotion loop of `arith2` on a lockstep chain: with `k` iterations
left it reports the first accepted result among the first `k` pairs of the
chain, or the not-supported error. -/
theorem arith2Loop_chain {V Ty E : Type} (ty : Typing V Ty) (T : Tower V Ty E)
    (symbol : String) (fn : V → V → Option V) (L : V) (num : Numeric V)
    (ps : List (V × V)) (hch : LockChain ty T num ps) :
    ∀ (k : Nat) (l r : V) (rest : List (V × V)), ps = (l, r) :: rest →
      arith2Loop ty T symbol fn L k (some num) l r
        = firstAccepted (fun p => fn p.1 p.2) (ArithError.notSupportedTypes symbol L)
            (ps.take k) := by
  induction hch with
  | last num a b h =>
    intro k l r rest hps
    obtain ⟨⟨rfl, rfl⟩, rfl⟩ : (a = l ∧ b = r) ∧ [] = rest := by simpa using hps
    cases k with
    | zero => simp [arith2Loop, firstAccepted]
    | succ k => cases hfn : fn a b <;> simp [arith2Loop, firstAccepted, hfn, h]
  | step num num' a b a' b' tl hl hr hreg _ ih =>
    intro k l r rest hps
    obtain ⟨⟨rfl, rfl⟩, rfl⟩ : (a = l ∧ b = r) ∧ (a', b') :: tl = rest := by
      simpa using hps
    cases k with
    | zero => simp [arith2Loop, firstAccepted]
    | succ k =>
      cases hfn : fn a b with
      | some v => simp [arith2Loop, firstAccepted, hfn]
      | none =>
        have := ih k a' b' tl rfl
        simp only [arith2Loop, hfn, hl, hr, hreg, this, firstAccepted]
        simp [hfn]

/-- C2: for numbers `L`, `R` that `SameType` aligns to `(l0, r0)` of class `c`
in a tower with `N` entries, `arith2` promotes both operands in lockstep and
returns `fn(lk, rk)` for the least `k` at which `fn` accepts; only the first
`N - c` pairs of the chain are tried, and the not-supported error is returned
when `fn` declines them all.  `SameType` leaves operands of equal type
unchanged (hypothesis `hid`). -/
theorem arith2_lockstep {V Ty E : Type} [DecidableEq Ty] (ty : Typing V Ty)
    (T : Tower V Ty E) (symbol : String) (fn : V → V → Option V) (L R l0 r0 : V)
    (num : Numeric V) (rest : List (V × V))
    (hL : ty.isNumber L = true) (hR : ty.isNumber R = true)
    (hsame : T.SameType L R = .ok (l0, r0))
    (hid : ty.typeOf L = ty.typeOf R → l0 = L ∧ r0 = R)
    (hnum : T.ToNumeric l0 = some num)
    (hc : num.Class < (T.size : Int))
    (hch : LockChain ty T num ((l0, r0) :: rest)) :
    arith2 ty T symbol fn L R
        = firstAccepted (fun p => fn p.1 p.2) (ArithError.notSupportedTypes symbol L)
            (((l0, r0) :: rest).take ((T.size : Int) - num.Class).toNat) ∧
    (((l0, r0) :: rest).length ≤ ((T.size : Int) - num.Class).toNat →
      arith2 ty T symbol fn L R
        = firstAccepted (fun p => fn p.1 p.2) (ArithError.notSupportedTypes symbol L)
            ((l0, r0) :: rest)) := by
  have hloop := arith2Loop_chain ty T symbol fn L num _ hch
    ((T.size : Int) - num.Class).toNat l0 r0 rest rfl
  have hprom : arith2Promote ty T symbol fn L R
      = firstAccepted (fun p => fn p.1 p.2) (ArithError.notSupportedTypes symbol L)
          (((l0, r0) :: rest).take ((T.size : Int) - num.Class).toNat) := by
    simp only [arith2Promote, hL, hR, hsame, hnum, hloop]
    simp
  have hmain : arith2 ty T symbol fn L R
      = firstAccepted (fun p => fn p.1 p.2) (ArithError.notSupportedTypes symbol L)
          (((l0, r0) :: rest).take ((T.size : Int) - num.Class).toNat) := by
    unfold arith2
    by_cases hty : ty.typeOf L = ty.typeOf R
    · cases hfn : fn L R with
      | none => simp only [hty, if_true, hprom]
      | some v =>
        obtain ⟨rfl, rfl⟩ := hid hty
        obtain ⟨k, hk⟩ : ∃ k, ((T.size : Int) - num.Class).toNat = k + 1 :=
          ⟨((T.size : Int) - num.Class).toNat - 1, by omega⟩
        simp [hk, firstAccepted, hfn, hty]
    · simp only [hty, if_false, hprom]
  refine ⟨hmain, fun hlen => ?_⟩
  rw [hmain, List.take_of_length_le hlen]

/-- Instance of C2 on the demonstration tower: `0` and `1` are aligned to
`(1, 1)` of class 1, promoted together to `(2, 2)`, where the implementation
accepts. -/
theorem arith2_lockstep_witness :
    arith2 demoTyping demoTower "+" demoFn2 0 1 = .ok 4 :=
  (arith2_lockstep demoTyping demoTower "+" demoFn2 0 1 1 1 (demoNumeric 1) [(2, 2)]
    rfl rfl rfl (by decide) rfl (by decide)
    (LockChain.step _ (demoNumeric 2) 1 1 2 2 [] rfl rfl rfl
      (LockChain.last _ 2 2 rfl))).1

/-- C3: when `L` and `R` have the same concrete type and `fn` accepts them,
`arith2` returns `fn(L, R)` whatever `SameType` is (it is not consulted).
Otherwise a non-number `L` gives the left-argument error, else a non-number `R`
the right-argument error, else a failing `SameType` gives its error prefixed by
the symbol; for operands of different types this error does not depend on `fn`
(it is not applied to the unaligned operands). -/
theorem arith2_error_cases {V Ty E : Type} [DecidableEq Ty] (ty : Typing V Ty)
    (T : Tower V Ty E) (symbol : String) (fn : V → V → Option V) (L R : V) :
    (∀ res : V, ty.typeOf L = ty.typeOf R → fn L R = some res →
        ∀ st : V → V → Except E (V × V),
          arith2 ty { T with SameType := st } symbol fn L R = .ok res) ∧
    (¬ (ty.typeOf L = ty.typeOf R ∧ (fn L R).isSome = true) →
      (ty.isNumber L = false →
        arith2 ty T symbol fn L R = .err (.leftNotNumeric symbol L)) ∧
      (ty.isNumber L = true → ty.isNumber R = false →
        arith2 ty T symbol fn L R = .err (.rightNotNumeric symbol R)) ∧
      (ty.isNumber L = true → ty.isNumber R = true →
        ∀ e : E, T.SameType L R = .error e →
          arith2 ty T symbol fn L R = .err (.sameType symbol e))) ∧
    (ty.typeOf L ≠ ty.typeOf R → ty.isNumber L = true → ty.isNumber R = true →
      ∀ e : E, T.SameType L R = .error e → ∀ fn' : V → V → Option V,
        arith2 ty T symbol fn' L R = .err (.sameType symbol e)) := by
  refine ⟨?_, ?_, ?_⟩
  · intro res hty hfn st
    simp [arith2, hty, hfn]
  · intro hnot
    have hred : arith2 ty T symbol fn L R = arith2Promote ty T symbol fn L R := by
      unfold arith2
      by_cases hty : ty.typeOf L = ty.typeOf R
      · cases hfn : fn L R with
        | none => simp [hty]
        | some v => exact absurd ⟨hty, by simp [hfn]⟩ hnot
      · simp [hty]
    rw [hred]
    refine ⟨?_, ?_, ?_⟩
    · intro hL
      simp [arith2Promote, hL]
    · intro hL hR
      simp [arith2Promote, hL, hR]
    · intro hL hR e he
      simp [arith2Promote, hL, hR, he]
  · intro hty hL hR e he fn'
    simp [arith2, arith2Promote, hty, hL, hR, he]

/-- Instance of C3 on the strict demonstration tower: operands `0` and `1` have
different types and `SameType` fails on them. -/
theorem arith2_error_cases_witness :
    arith2 demoTyping demoTowerStrict "+" demoFn2 0 1 = .err (.sameType "+" ()) :=
  (arith2_error_cases demoTyping demoTowerStrict "+" demoFn2 0 1).2.1
    (by decide) |>.2.2 rfl rfl () rfl

/-! ## Theorems on `gcd` and `lcm` -/

/-- C4: `gcd` with a zero left operand returns the right operand, with a zero
right operand (and non-zero left operand) the left operand, and for two zeros
the returned value is a zero; `lcm` with a zero operand returns `apl.Int(0)`.
In all these cases the function accepts, whatever the `Gcd`, `Mul2` and `Div2`
capabilities are (they may be replaced by anything, also by nothing). -/
theorem gcd_lcm_zero {V E : Type} (c : Caps V E) (L R : V)
    (hL : c.isNumber L = true) (hR : c.isNumber R = true)
    (g m d : V → Option (V → Option V)) :
    (c.IsZero L = true →
      gcd { c with Gcd := g, Mul2 := m, Div2 := d } L R = .val R ∧
      lcm { c with Gcd := g, Mul2 := m, Div2 := d } L R = .val (c.int 0)) ∧
    (c.IsZero R = true →
      (c.IsZero L = false →
        gcd { c with Gcd := g, Mul2 := m, Div2 := d } L R = .val L) ∧
      (∃ v, gcd { c with Gcd := g, Mul2 := m, Div2 := d } L R = .val v ∧
        (v = L ∨ c.IsZero v = true)) ∧
      lcm { c with Gcd := g, Mul2 := m, Div2 := d } L R = .val (c.int 0)) := by
  refine ⟨fun hz => ?_, fun hz => ⟨fun hnz => ?_, ?_, ?_⟩⟩
  · simp [gcd, lcm, hL, hz]
  · simp [gcd, hL, hR, hz, hnz]
  · cases hzl : c.IsZero L with
    | true => exact ⟨R, by simp [gcd, hL, hzl], Or.inr hz⟩
    | false => exact ⟨L, by simp [gcd, hL, hR, hz, hzl], Or.inl rfl⟩
  · cases hzl : c.IsZero L <;> simp [lcm, hL, hR, hz, hzl]

/-- Instance of C4 on a representation without any capability:
`gcd(0, 5) = 5` and `lcm(0, 5) = 0`. -/
theorem gcd_lcm_zero_witness :
    gcd bareCaps 0 5 = .val 5 ∧ lcm bareCaps 0 5 = .val 0 :=
  (gcd_lcm_zero bareCaps 0 5 rfl rfl (fun _ => none) (fun _ => none) (fun _ => none)).1 rfl

/-! ## Theorems on the index engine -/

/-- The index loop of `spec2ints` succeeds exactly on in-range indices, and
then returns them shifted by the origin. -/
theorem shiftInts_eq (o : Int) (n axis : Nat) (l : List Int) :
    shiftInts o n axis l
      = if (∀ v ∈ l, 0 ≤ v - o ∧ v - o < (n : Int)) then .ok (l.map (fun v => v - o))
        else .error (.outOfRange axis) := by
  induction l with
  | nil => simp [shiftInts]
  | cons v vs ih =>
    simp only [shiftInts, ih, List.mem_cons, forall_eq_or_imp, List.map_cons]
    by_cases h1 : v - o < 0 ∨ v - o ≥ (n : Int)
    · have : ¬ (0 ≤ v - o ∧ v - o < (n : Int)) := by omega
      rw [if_pos h1, if_neg (fun h => this h.1)]
    · have h2 : 0 ≤ v - o ∧ v - o < (n : Int) := by omega
      by_cases h3 : ∀ a ∈ vs, 0 ≤ a - o ∧ a - o < (n : Int)
      · rw [if_neg h1, if_pos h3, if_pos ⟨h2, h3⟩]
      · rw [if_neg h1, if_neg h3, if_neg (fun h => h3 h.2)]

/-- One axis of `spec2ints`: success exactly on an acceptable entry, with the
list the entry stands for. -/
theorem spec2intsAxis_ok_iff {S : Type} (a : Apl S) (i : Nat) (s : S) (n : Nat)
    (l : List Int) :
    spec2intsAxis a i s n = .ok l ↔ AxisValid a s n ∧ l = axisList a s n := by
  unfold spec2intsAxis AxisValid axisList
  cases h : a.ToIndexArray s with
  | none => simp
  | some ax =>
    cases ax with
    | empty => simp [eq_comm]
    | ints vs =>
      simp only [shiftInts_eq]
      by_cases hv : ∀ v ∈ vs, 0 ≤ v - a.Origin ∧ v - a.Origin < (n : Int)
      · rw [if_pos hv]
        exact ⟨fun h => ⟨hv, (by cases h; rfl)⟩, fun h => (by rw [h.2])⟩
      · rw [if_neg hv]
        exact ⟨fun h => (by cases h), fun h => absurd h.1 hv⟩

/-- The axis loop of `spec2ints`: success exactly when every entry is
acceptable for its axis, with one list per axis. -/
theorem spec2intsFrom_ok_iff {S : Type} (a : Apl S) (ps : List (S × Nat)) :
    ∀ (i : Nat) (r : List (List Int)),
      spec2intsFrom a i ps = .ok r ↔
        (∀ p ∈ ps, AxisValid a p.1 p.2) ∧ r = ps.map (fun p => axisList a p.1 p.2) := by
  induction ps with
  | nil => intro i r; simp [spec2intsFrom, eq_comm]
  | cons p ps ih =>
    intro i r
    obtain ⟨s, n⟩ := p
    simp only [spec2intsFrom, List.mem_cons, forall_eq_or_imp, List.map_cons]
    cases h1 : spec2intsAxis a i s n with
    | error e =>
      have : ¬ AxisValid a s n := fun hv => by
        have := (spec2intsAxis_ok_iff a i s n _).2 ⟨hv, rfl⟩
        rw [h1] at this; cases this
      exact ⟨fun h => (by cases h), fun h => absurd h.1.1 this⟩
    | ok l =>
      obtain ⟨hv, rfl⟩ := (spec2intsAxis_ok_iff a i s n l).1 h1
      cases h2 : spec2intsFrom a (i + 1) ps with
      | error e =>
        have : ¬ ∀ p ∈ ps, AxisValid a p.1 p.2 := fun hall => by
          have := (ih (i + 1) _).2 ⟨hall, rfl⟩
          rw [h2] at this; cases this
        exact ⟨fun h => (by cases h), fun h => absurd h.1.2 this⟩
      | ok ls =>
        obtain ⟨hall, rfl⟩ := (ih (i + 1) ls).1 h2
        exact ⟨fun h => ⟨⟨hv, hall⟩, (by cases h; rfl)⟩, fun h => (by rw [h.2])⟩

/-- Characterisation of success of `spec2ints`. -/
theorem spec2ints_ok_iff {S : Type} (a : Apl S) (spec : List S) (shape : List Nat)
    (r : List (List Int)) :
    spec2ints a spec shape = .ok r ↔
      spec.length = shape.length ∧ (∀ p ∈ spec.zip shape, AxisValid a p.1 p.2) ∧
        r = (spec.zip shape).map (fun p => axisList a p.1 p.2) := by
  unfold spec2ints
  by_cases hlen : spec.length = shape.length
  · simp [hlen, spec2intsFrom_ok_iff]
  · simp [hlen]

/-- An entry is not acceptable for an axis exactly when it is not convertible
or lists an index that is out of range. -/
theorem not_axisValid_iff {S : Type} (a : Apl S) (s : S) (n : Nat) :
    ¬ AxisValid a s n ↔
      a.ToIndexArray s = none ∨
        ∃ l v, a.ToIndexArray s = some (.ints l) ∧ v ∈ l ∧
          (v - a.Origin < 0 ∨ v - a.Origin ≥ (n : Int)) := by
  unfold AxisValid
  cases h : a.ToIndexArray s with
  | none => simp
  | some ax =>
    cases ax with
    | empty => simp
    | ints vs =>
      constructor
      · intro hn
        right
        by_contra hcon
        apply hn
        intro v hv
        by_contra hbad
        exact hcon ⟨vs, v, rfl, hv, by omega⟩
      · rintro (h0 | ⟨l, v, hl, hv, hbad⟩)
        · cases h0
        · cases hl
          intro hall
          have := hall v hv
          omega

/-- Membership in the pairing of entries and extents, by axis number. -/
theorem mem_zip_iff_axis {S : Type} (spec : List S) (shape : List Nat) (s : S) (n : Nat) :
    (s, n) ∈ spec.zip shape ↔ ∃ i : Nat, spec[i]? = some s ∧ shape[i]? = some n := by
  rw [List.mem_iff_getElem?]
  constructor
  · rintro ⟨i, hi⟩
    exact ⟨i, List.getElem?_zip_eq_some.1 hi⟩
  · rintro ⟨i, hi⟩
    exact ⟨i, List.getElem?_zip_eq_some.2 hi⟩

/-- C5: `spec2ints` fails if and only if the spec and the shape differ in
length, or some axis entry is not convertible to an index array, or some index
`v` given for an axis `i` has `v - origin < 0` or `v - origin >= shape[i]`; it
succeeds on every other spec. -/
theorem spec2ints_fails_iff {S : Type} (a : Apl S) (spec : List S) (shape : List Nat) :
    ((∃ e, spec2ints a spec shape = .error e) ↔
      (spec.length ≠ shape.length ∨ (∃ s ∈ spec, a.ToIndexArray s = none) ∨
        ∃ (i : Nat) (s : S) (n : Nat) (l : List Int) (v : Int),
          spec[i]? = some s ∧ shape[i]? = some n ∧
          a.ToIndexArray s = some (.ints l) ∧ v ∈ l ∧
          (v - a.Origin < 0 ∨ v - a.Origin ≥ (n : Int)))) ∧
    ((∃ r, spec2ints a spec shape = .ok r) ↔
      ¬ (spec.length ≠ shape.length ∨ (∃ s ∈ spec, a.ToIndexArray s = none) ∨
        ∃ (i : Nat) (s : S) (n : Nat) (l : List Int) (v : Int),
          spec[i]? = some s ∧ shape[i]? = some n ∧
          a.ToIndexArray s = some (.ints l) ∧ v ∈ l ∧
          (v - a.Origin < 0 ∨ v - a.Origin ≥ (n : Int)))) := by
  have hok : (∃ r, spec2ints a spec shape = .ok r) ↔
      ¬ (spec.length ≠ shape.length ∨ (∃ s ∈ spec, a.ToIndexArray s = none) ∨
        ∃ (i : Nat) (s : S) (n : Nat) (l : List Int) (v : Int),
          spec[i]? = some s ∧ shape[i]? = some n ∧
          a.ToIndexArray s = some (.ints l) ∧ v ∈ l ∧
          (v - a.Origin < 0 ∨ v - a.Origin ≥ (n : Int))) := by
    constructor
    · rintro ⟨r, hr⟩
      obtain ⟨hlen, hall, -⟩ := (spec2ints_ok_iff a spec shape r).1 hr
      rintro (h | ⟨s, hs, hnone⟩ | ⟨i, s, n, l, v, hs, hn, hl, hv, hbad⟩)
      · exact h hlen
      · obtain ⟨i, hi⟩ := List.mem_iff_getElem?.1 hs
        have hlt : i < shape.length := by
          have := (List.getElem?_eq_some_iff.1 hi).1
          omega
        have hmem : (s, shape[i]) ∈ spec.zip shape :=
          (mem_zip_iff_axis spec shape s _).2 ⟨i, hi, List.getElem?_eq_getElem hlt⟩
        exact (not_axisValid_iff a s _).2 (Or.inl hnone) (hall _ hmem)
      · have hmem : (s, n) ∈ spec.zip shape := (mem_zip_iff_axis spec shape s n).2 ⟨i, hs, hn⟩
        exact (not_axisValid_iff a s n).2 (Or.inr ⟨l, v, hl, hv, hbad⟩) (hall _ hmem)
    · intro hnot
      refine ⟨_, (spec2ints_ok_iff a spec shape _).2 ⟨?_, ?_, rfl⟩⟩
      · by_contra h
        exact hnot (Or.inl h)
      · rintro ⟨s, n⟩ hmem
        by_contra hbad
        obtain ⟨i, hs, hn⟩ := (mem_zip_iff_axis spec shape s n).1 hmem
        rcases (not_axisValid_iff a s n).1 hbad with h0 | ⟨l, v, hl, hv, hr⟩
        · exact hnot (Or.inr (Or.inl ⟨s, List.mem_iff_getElem?.2 ⟨i, hs⟩, h0⟩))
        · exact hnot (Or.inr (Or.inr ⟨i, s, n, l, v, hs, hn, hl, hv, hr⟩))
  refine ⟨?_, hok⟩
  rw [← not_iff_not, ← hok]
  cases h : spec2ints a spec shape with
  | error e => simp
  | ok r => simp

/-- C6: when `spec2ints` succeeds, its result has one list per axis; the list
of an empty-axis entry is `0, 1, ..., shape[i]-1`, the list of any other entry
is the given indices in order, each decreased by the origin, and every value of
list `i` lies in `[0, shape[i])`. -/
theorem spec2ints_result {S : Type} (a : Apl S) (spec : List S) (shape : List Nat)
    (res : List (List Int)) (h : spec2ints a spec shape = .ok res) :
    res.length = spec.length ∧ res.length = shape.length ∧
    ∀ (i : Nat) (s : S) (n : Nat), spec[i]? = some s → shape[i]? = some n →
      ∃ l, res[i]? = some l ∧
        (a.ToIndexArray s = some .empty → l = (List.range n).map Int.ofNat) ∧
        (∀ vs, a.ToIndexArray s = some (.ints vs) → l = vs.map (fun v => v - a.Origin)) ∧
        ∀ x ∈ l, 0 ≤ x ∧ x < (n : Int) := by
  obtain ⟨hlen, hall, rfl⟩ := (spec2ints_ok_iff a spec shape res).1 h
  refine ⟨by simp [hlen], by simp [hlen], ?_⟩
  intro i s n hs hn
  have hmem : (s, n) ∈ spec.zip shape := (mem_zip_iff_axis spec shape s n).2 ⟨i, hs, hn⟩
  have hval := hall _ hmem
  refine ⟨axisList a s n, ?_, ?_, ?_, ?_⟩
  · have hz : (spec.zip shape)[i]? = some (s, n) :=
      List.getElem?_zip_eq_some.2 ⟨hs, hn⟩
    rw [List.getElem?_map, hz]
    rfl
  · intro he
    simp [axisList, he]
  · intro vs hvs
    simp [axisList, hvs]
  · intro x hx
    unfold AxisValid at hval
    unfold axisList at hx
    cases hc : a.ToIndexArray s with
    | none => rw [hc] at hval; exact hval.elim
    | some ax =>
      cases ax with
      | empty =>
        rw [hc] at hx
        simp only [List.mem_map, List.mem_range] at hx
        obtain ⟨k, hk, rfl⟩ := hx
        exact ⟨Int.ofNat_nonneg k, Int.ofNat_lt.2 hk⟩
      | ints vs =>
        rw [hc] at hx hval
        simp only [List.mem_map] at hx hval
        obtain ⟨v, hv, rfl⟩ := hx
        exact hval v hv

/-- Instance of C6: origin 1, shape `[2, 3]`, the second row and all columns. -/
theorem spec2ints_result_witness :
    spec2ints (plainApl 1) [some (.ints [2]), some .empty] [2, 3] = .ok [[1], [0, 1, 2]] ∧
    ([[1], [0, 1, 2]] : List (List Int)).length = 2 :=
  ⟨rfl, (spec2ints_result (plainApl 1) [some (.ints [2]), some .empty] [2, 3]
    [[1], [0, 1, 2]] rfl).2.1⟩

/-! ### Row-major enumeration -/

/-- Quotient and remainder of `q * P + r` for `r < P`. -/
theorem div_mod_block (P q r : Nat) (hr : r < P) :
    (q * P + r) / P = q ∧ (q * P + r) % P = r := by
  have hP : 0 < P := by omega
  constructor
  · rw [Nat.add_comm, Nat.add_mul_div_right _ _ hP, Nat.div_eq_of_lt hr, Nat.zero_add]
  · rw [Nat.add_comm, Nat.add_mul_mod_self_right, Nat.mod_eq_of_lt hr]

/-- The multi-index number zero is the zero multi-index. -/
theorem unravel_zero (dims : List Nat) : unravel dims 0 = List.replicate dims.length 0 := by
  induction dims with
  | nil => rfl
  | cons s ss ih => simp [unravel, ih, List.replicate_succ]

/-- Incrementing the multi-index number `i` gives number `i + 1`, and wraps
around to number zero with a carry after the last one. -/
theorem incCarry_unravel (dims : List Nat) :
    ∀ i, i < dims.prod →
      incCarry (unravel dims i) dims
        = (unravel dims ((i + 1) % dims.prod), decide (i + 1 = dims.prod)) := by
  induction dims with
  | nil =>
    intro i hi
    have : i = 0 := by simpa using hi
    subst this
    simp [unravel, incCarry]
  | cons s ss ih =>
    intro i hi
    rw [List.prod_cons] at hi ⊢
    have hP : 0 < ss.prod := by
      rcases Nat.eq_zero_or_pos ss.prod with h | h
      · rw [h] at hi; simp at hi
      · exact h
    obtain ⟨q, r, hr, rfl⟩ : ∃ q r, r < ss.prod ∧ i = q * ss.prod + r :=
      ⟨i / ss.prod, i % ss.prod, Nat.mod_lt _ hP, by rw [Nat.mul_comm, Nat.div_add_mod]⟩
    have hq : q < s := by
      by_contra hcon
      have : s * ss.prod ≤ q * ss.prod := Nat.mul_le_mul_right _ (by omega)
      omega
    have hstep : (q + 1) * ss.prod ≤ s * ss.prod := Nat.mul_le_mul_right _ (by omega)
    have hexp : (q + 1) * ss.prod = q * ss.prod + ss.prod := by
      rw [Nat.add_mul, Nat.one_mul]
    obtain ⟨hd, hm⟩ := div_mod_block ss.prod q r hr
    have hu : unravel (s :: ss) (q * ss.prod + r) = q :: unravel ss r := by
      simp only [unravel, hd, hm]
    rw [hu]
    simp only [incCarry, ih r hr]
    by_cases hc : r + 1 = ss.prod
    · have hmod : (r + 1) % ss.prod = 0 := by rw [hc, Nat.mod_self]
      simp only [hmod, hc, decide_True, if_true]
      by_cases hlast : q + 1 < s
      · have hlt : q * ss.prod + r + 1 < s * ss.prod := by
          have : (q + 2) * ss.prod ≤ s * ss.prod := Nat.mul_le_mul_right _ (by omega)
          have h2 : (q + 2) * ss.prod = q * ss.prod + ss.prod + ss.prod := by
            rw [Nat.add_mul]; omega
          omega
        have heq : q * ss.prod + r + 1 = (q + 1) * ss.prod + 0 := by omega
        obtain ⟨hd', hm'⟩ := div_mod_block ss.prod (q + 1) 0 hP
        rw [if_pos hlast, Nat.mod_eq_of_lt hlt, heq]
        simp only [unravel, hd', hm']
        have hne : ¬ ((q + 1) * ss.prod + 0 = s * ss.prod) := by omega
        rw [decide_eq_false hne, Nat.mod_self]
      · have heq : q * ss.prod + r + 1 = s * ss.prod := by
          have : q + 1 = s := by omega
          rw [← this]; omega
        rw [if_neg hlast, heq, Nat.mod_self]
        simp [unravel]
    · have hlt' : r + 1 < ss.prod := by omega
      have hmod : (r + 1) % ss.prod = r + 1 := Nat.mod_eq_of_lt hlt'
      have hlt : q * ss.prod + r + 1 < s * ss.prod := by omega
      have hdec : decide (r + 1 = ss.prod) = false := by simp [hc]
      obtain ⟨hd', hm'⟩ := div_mod_block ss.prod q (r + 1) hlt'
      rw [hmod, hdec, Nat.mod_eq_of_lt hlt]
      have hne : ¬ (q * ss.prod + r + 1 = s * ss.prod) := by omega
      simp only [Nat.add_assoc] at hd' hm' ⊢
      simp [unravel, hd', hm']
      omega

/-- The loop of `indexArray` started at multi-index number `i` visits the
numbers `i, i + 1, ...` in order. -/
theorem indexArrayLoop_unravel (intspec : List (List Int)) (ic : List Int)
    (dims : List Nat) :
    ∀ n i, i + n ≤ dims.prod →
      indexArrayLoop intspec ic dims n (unravel dims i)
        = (List.range' i n).map
            (fun j => IdxConverterIndex ic (gather intspec (unravel dims j))) := by
  intro n
  induction n with
  | zero => intro i _; simp [indexArrayLoop]
  | succ n ih =>
    intro i hi
    have hlt : i < dims.prod := by omega
    rw [indexArrayLoop, List.range'_succ, List.map_cons]
    congr 1
    cases n with
    | zero => simp [indexArrayLoop]
    | succ m =>
      have hnext : i + 1 < dims.prod := by omega
      have hinc : IncArrayIndex (unravel dims i) dims = unravel dims (i + 1) := by
        unfold IncArrayIndex
        rw [incCarry_unravel dims i hlt, Nat.mod_eq_of_lt hnext]
      rw [hinc]
      exact ih (i + 1) (by omega)

/-- One axis of the enumeration: the numbers below `length * P` split into
blocks of `P`, one block for each element of the first list. -/
theorem range_blocks (P : Nat) (G : Nat → List Int) (l : List Int) :
    (List.range (l.length * P)).map (fun j => l.getD (j / P) 0 :: G (j % P))
      = l.flatMap (fun x => (List.range P).map (fun r => x :: G r)) := by
  rcases Nat.eq_zero_or_pos P with hP | hP
  · subst hP
    induction l with
    | nil => simp
    | cons x xs ih => simp
  · induction l with
    | nil => simp
    | cons x xs ih =>
      have hsplit : (x :: xs).length * P = P + xs.length * P := by
        rw [List.length_cons, Nat.add_mul, Nat.one_mul, Nat.add_comm]
      rw [hsplit, List.range_add, List.map_append, List.flatMap_cons, List.map_map, ← ih]
      congr 1
      · apply List.map_congr_left
        intro j hj
        have hj' : j < P := List.mem_range.1 hj
        simp [Nat.div_eq_of_lt hj', Nat.mod_eq_of_lt hj']
      · apply List.map_congr_left
        intro j _
        have h1 : (P + j) / P = j / P + 1 := by
          have h0 := Nat.add_mul_div_right j 1 hP
          rw [Nat.one_mul] at h0
          rw [Nat.add_comm]
          exact h0
        have h2 : (P + j) % P = j % P := by
          rw [Nat.add_comm]; exact Nat.add_mod_right j P
        simp [h1, h2]

/-- The multi-indices in numerical order select the Cartesian product of the
per-axis lists in row-major order. -/
theorem gather_unravel (lists : List (List Int)) :
    (List.range (lists.map List.length).prod).map
        (fun j => gather lists (unravel (lists.map List.length) j))
      = combinations lists := by
  induction lists with
  | nil => simp [gather, unravel, combinations]
  | cons l ls ih =>
    rw [combinations, ← ih, List.map_cons, List.prod_cons]
    have := range_blocks (ls.map List.length).prod
      (fun r => gather ls (unravel (ls.map List.length) r)) l
    refine Eq.trans ?_ (Eq.trans this ?_)
    · apply List.map_congr_left
      intro j _
      simp [gather, unravel]
    · congr 1
      funext x
      rw [List.map_map]
      rfl

/-- The modelled index converter computes the row-major flat offset. -/
theorem idxConverterIndex_eq (shape : List Nat) :
    ∀ idx, IdxConverterIndex (NewIdxConverter shape) idx = flatOffset shape idx := by
  induction shape with
  | nil => intro idx; simp [IdxConverterIndex, NewIdxConverter, flatOffset]
  | cons s ss ih =>
    intro idx
    cases idx with
    | nil => simp [IdxConverterIndex, NewIdxConverter, flatOffset]
    | cons i is =>
      have := ih is
      simp only [IdxConverterIndex] at this
      simp [IdxConverterIndex, NewIdxConverter, flatOffset, this, mul_comm]

/-- The integers computed by the loop of `indexArray` over the whole index
space are the flat offsets of the combinations in row-major order. -/
theorem indexArrayLoop_eq (lists : List (List Int)) (shape : List Nat) :
    indexArrayLoop lists (NewIdxConverter shape) (lists.map List.length)
        (ArraySize (lists.map List.length))
        (List.replicate (lists.map List.length).length 0)
      = (combinations lists).map (flatOffset shape) := by
  rw [← unravel_zero, ArraySize,
    indexArrayLoop_unravel lists _ _ _ 0 (by omega), ← List.range_eq_range',
    ← gather_unravel lists, List.map_map]
  apply List.map_congr_left
  intro j _
  simp [idxConverterIndex_eq]

/-- C7: for a valid spec with resolved per-axis lists, the integers returned by
`indexArray` are, in order, the row-major flat offsets (sum of index times
stride) of the combinations of the Cartesian product of the lists enumerated in
row-major order, so reading an array at them is ordinary multi-index
addressing. -/
theorem indexArray_offsets {S : Type} (a : Apl S) (spec : List S) (shape : List Nat)
    (lists : List (List Int)) (h : spec2ints a spec shape = .ok lists) :
    ∃ res, indexArray a spec shape = .ok res ∧
      res.Ints = (combinations lists).map (flatOffset shape) ∧
      ∀ (V : Type) (A : Arr V), A.Shape = shape →
        res.Ints.map A.At = (combinations lists).map (fun c => A.At (flatOffset A.Shape c)) := by
  have hres : indexArray a spec shape
      = .ok ⟨(lists.map List.length).filter (fun v => v ≠ 1),
          indexArrayLoop lists (NewIdxConverter shape) (lists.map List.length)
            (ArraySize (lists.map List.length))
            (List.replicate (lists.map List.length).length 0)⟩ := by
    simp only [indexArray, h]
  refine ⟨_, hres, indexArrayLoop_eq lists shape, ?_⟩
  intro V A hA
  simp only [indexArrayLoop_eq lists shape, List.map_map, hA]
  rfl

/-- Instance of C7: for shape `[2, 3]` and origin 0, the spec selecting row 1
yields the offsets 3, 4, 5. -/
theorem indexArray_offsets_witness :
    ∃ res, indexArray (plainApl 0) [some (.ints [1]), some .empty] [2, 3] = .ok res ∧
      res.Ints = [3, 4, 5] := by
  obtain ⟨res, h1, h2, -⟩ := indexArray_offsets (plainApl 0)
    [some (.ints [1]), some .empty] [2, 3] [[1], [0, 1, 2]] rfl
  exact ⟨res, h1, by rw [h2]; decide⟩

/-- The loop of `indexArray` emits one integer per iteration. -/
theorem indexArrayLoop_length (intspec : List (List Int)) (ic : List Int)
    (dims : List Nat) :
    ∀ n dst, (indexArrayLoop intspec ic dims n dst).length = n := by
  intro n
  induction n with
  | zero => intro dst; simp [indexArrayLoop]
  | succ n ih => intro dst; simp [indexArrayLoop, ih]

/-- Removing the extents equal to one does not change the product. -/
theorem prod_filter_ne_one (dims : List Nat) :
    (dims.filter (fun v => v ≠ 1)).prod = dims.prod := by
  induction dims with
  | nil => rfl
  | cons d ds ih =>
    by_cases hd : d = 1
    · have hdec : decide (d ≠ 1) = false := decide_eq_false (not_not.2 hd)
      rw [List.filter_cons, hdec, List.prod_cons, hd, Nat.one_mul]
      exact ih
    · have hdec : decide (d ≠ 1) = true := decide_eq_true hd
      rw [List.filter_cons, hdec, if_pos rfl, List.prod_cons, List.prod_cons]
      exact congrArg (fun t => d * t) ih

/-- C8: for a valid spec with per-axis list lengths `m_k`, the `Dims` returned
by `indexArray` are the `m_k` different from 1 in axis order, the number of
returned integers is the product of all `m_k`, and so the product of the
returned `Dims` equals the number of returned integers. -/
theorem indexArray_collapse {S : Type} (a : Apl S) (spec : List S) (shape : List Nat)
    (lists : List (List Int)) (h : spec2ints a spec shape = .ok lists) :
    ∃ res, indexArray a spec shape = .ok res ∧
      res.Dims = (lists.map List.length).filter (fun m => m ≠ 1) ∧
      res.Ints.length = (lists.map List.length).prod ∧
      res.Dims.prod = res.Ints.length := by
  have hres : indexArray a spec shape
      = .ok ⟨(lists.map List.length).filter (fun v => v ≠ 1),
          indexArrayLoop lists (NewIdxConverter shape) (lists.map List.length)
            (ArraySize (lists.map List.length))
            (List.replicate (lists.map List.length).length 0)⟩ := by
    simp only [indexArray, h]
  refine ⟨_, hres, rfl, ?_, ?_⟩
  · simp only [indexArrayLoop_length, ArraySize]
  · simp only [indexArrayLoop_length, ArraySize, prod_filter_ne_one]

/-- Instance of C8: shape `[2, 3]`, one row and all columns: the axis of length
one disappears from the shape, the three elements stay. -/
theorem indexArray_collapse_witness :
    ∃ res, indexArray (plainApl 0) [some (.ints [1]), some .empty] [2, 3] = .ok res ∧
      res.Dims = [3] ∧ res.Ints.length = 3 := by
  obtain ⟨res, h1, h2, h3, -⟩ := indexArray_collapse (plainApl 0)
    [some (.ints [1]), some .empty] [2, 3] [[1], [0, 1, 2]] rfl
  exact ⟨res, h1, by rw [h2]; decide, by rw [h3]; decide⟩

/-! ### Bounds of the offsets -/

/-- The list of an acceptable axis entry lies in `[0, n)`. -/
theorem axisList_bounds {S : Type} (a : Apl S) (s : S) (n : Nat)
    (hval : AxisValid a s n) : ∀ x ∈ axisList a s n, 0 ≤ x ∧ x < (n : Int) := by
  intro x hx
  unfold AxisValid at hval
  unfold axisList at hx
  cases hc : a.ToIndexArray s with
  | none => rw [hc] at hval; exact hval.elim
  | some ax =>
    cases ax with
    | empty =>
      rw [hc] at hx
      simp only [List.mem_map, List.mem_range] at hx
      obtain ⟨k, hk, rfl⟩ := hx
      exact ⟨Int.ofNat_nonneg k, Int.ofNat_lt.2 hk⟩
    | ints vs =>
      rw [hc] at hx hval
      simp only [List.mem_map] at hx hval
      obtain ⟨v, hv, rfl⟩ := hx
      exact hval v hv

/-- The lists resolved by `spec2ints` lie, axis by axis, within the shape. -/
theorem spec2ints_bounds {S : Type} (a : Apl S) :
    ∀ (spec : List S) (shape : List Nat) (lists : List (List Int)),
      spec2ints a spec shape = .ok lists →
      List.Forall₂ (fun (n : Nat) (l : List Int) => ∀ x ∈ l, 0 ≤ x ∧ x < (n : Int))
        shape lists := by
  intro spec shape lists h
  obtain ⟨hlen, hall, rfl⟩ := (spec2ints_ok_iff a spec shape lists).1 h
  clear h
  induction spec generalizing shape with
  | nil =>
    cases shape with
    | nil => simp
    | cons n ns => simp at hlen
  | cons s ss ih =>
    cases shape with
    | nil => simp at hlen
    | cons n ns =>
      simp only [List.zip_cons_cons, List.map_cons, List.mem_cons, forall_eq_or_imp] at hall ⊢
      exact List.Forall₂.cons (axisList_bounds a s n hall.1)
        (ih ns (by simpa using hlen) hall.2)

/-- Every combination of lists that lie within the shape has a flat offset
within the array. -/
theorem combinations_bounds (shape : List Nat) (lists : List (List Int))
    (hb : List.Forall₂ (fun (n : Nat) (l : List Int) => ∀ x ∈ l, 0 ≤ x ∧ x < (n : Int))
      shape lists) :
    ∀ c ∈ combinations lists, 0 ≤ flatOffset shape c ∧ flatOffset shape c < (shape.prod : Int) := by
  induction hb with
  | nil =>
    intro c hc
    simp only [combinations, List.mem_singleton] at hc
    subst hc
    simp [flatOffset]
  | @cons n l ns ls hnl _ ih =>
    intro c hc
    simp only [combinations, List.mem_flatMap, List.mem_map] at hc
    obtain ⟨x, hx, c', hc', rfl⟩ := hc
    obtain ⟨h0, h1⟩ := ih c' hc'
    obtain ⟨hx0, hx1⟩ := hnl x hx
    simp only [flatOffset, List.prod_cons, Nat.cast_mul]
    have hP : (0 : Int) ≤ (ns.prod : Int) := Int.ofNat_nonneg _
    constructor
    · have := mul_nonneg hx0 hP
      omega
    · have h2 : (x + 1) * (ns.prod : Int) ≤ (n : Int) * (ns.prod : Int) :=
        mul_le_mul_of_nonneg_right (by omega) hP
      have h3 : (x + 1) * (ns.prod : Int) = x * (ns.prod : Int) + (ns.prod : Int) := by ring
      omega

/-- The combinations of one-element lists: there is exactly one. -/
theorem combinations_singletons (lists : List (List Int))
    (hone : ∀ l ∈ lists, l.length = 1) :
    combinations lists = [lists.map (fun l => l.headD 0)] := by
  induction lists with
  | nil => rfl
  | cons l ls ih =>
    have hl : l.length = 1 := hone l (by simp)
    obtain ⟨x, rfl⟩ := List.length_eq_one.1 hl
    rw [combinations, ih (fun m hm => hone m (by simp [hm]))]
    simp

/-- C9: for a valid non-empty spec that selects exactly one index on every
axis, `index` returns the bare element of the array at the row-major offset of
the selected multi-index, not a one-element array; for the empty spec it
returns the array itself. -/
theorem index_scalar {V S : Type} (a : Apl S) (A : Arr V) :
    index a ([] : List S) A = .ok (.array A) ∧
    ∀ (spec : List S) (lists : List (List Int)), spec ≠ [] →
      spec2ints a spec A.Shape = .ok lists → (∀ l ∈ lists, l.length = 1) →
      index a spec A
        = .ok (.element (A.At (flatOffset A.Shape (lists.map (fun l => l.headD 0))))) := by
  refine ⟨by simp [index], ?_⟩
  intro spec lists hne h hone
  have hlen : ¬ spec.length = 0 := by
    intro h0
    exact hne (List.length_eq_zero.1 h0)
  have hdims : (lists.map List.length).filter (fun v => v ≠ 1) = [] := by
    rw [List.filter_eq_nil_iff]
    intro m hm
    obtain ⟨l, hl, rfl⟩ := List.mem_map.1 hm
    simp [hone l hl]
  have hints : indexArrayLoop lists (NewIdxConverter A.Shape) (lists.map List.length)
      (ArraySize (lists.map List.length))
      (List.replicate (lists.map List.length).length 0)
      = [flatOffset A.Shape (lists.map (fun l => l.headD 0))] := by
    rw [indexArrayLoop_eq, combinations_singletons lists hone]
    rfl
  have hb := combinations_bounds A.Shape lists (spec2ints_bounds a spec A.Shape lists h)
    (lists.map (fun l => l.headD 0))
    (by rw [combinations_singletons lists hone]; simp)
  have hnot : ¬ (flatOffset A.Shape (lists.map (fun l => l.headD 0)) < 0 ∨
      flatOffset A.Shape (lists.map (fun l => l.headD 0)) ≥ (ArraySize A.Shape : Int)) := by
    unfold ArraySize
    omega
  simp only [index, if_neg hlen, indexArray, h, hdims, hints, List.length_singleton,
    List.length_nil, and_self, if_true, List.getD_cons_zero, ArrayBounds, if_neg hnot]

/-- Instance of C9: indexing the demonstration matrix of shape `[2, 3]` with
row 1 and column 2 (origin 0) yields the bare element at offset 5. -/
theorem index_scalar_witness :
    index (plainApl 0) [some (.ints [1]), some (.ints [2])] demoMatrix
      = .ok (.element 15) :=
  (index_scalar (plainApl 0) demoMatrix).2 [some (.ints [1]), some (.ints [2])]
    [[1], [2]] (by simp) rfl (by decide)

/-! ### The error of `spec2ints` inside `indexArray` -/

/-- C10 (evaluation at the failing inputs): on the matrix of shape `[2, 3]`
with origin 0, the spec `[0; 3]` has a column out of range and the spec `[7]`
has the wrong rank, so `spec2ints` fails on both; `indexArray` answers with the
empty index array and no error, and so `indexSelection` and `index` return a
value with a nil error. -/
theorem index_error_not_surfaced :
    spec2ints (plainApl 0) [some (.ints [0]), some (.ints [3])] demoMatrix.Shape
      = .error (.outOfRange 2) ∧
    spec2ints (plainApl 0) [some (.ints [7])] demoMatrix.Shape = .error .rank ∧
    indexArray (plainApl 0) [some (.ints [0]), some (.ints [3])] demoMatrix.Shape
      = .ok ⟨[], []⟩ ∧
    indexArray (plainApl 0) [some (.ints [7])] demoMatrix.Shape = .ok ⟨[], []⟩ ∧
    indexSelection (plainApl 0) [some (.ints [0]), some (.ints [3])] demoMatrix
      = .ok ⟨[], []⟩ ∧
    indexSelection (plainApl 0) [some (.ints [7])] demoMatrix = .ok ⟨[], []⟩ ∧
    (∃ vals, index (plainApl 0) [some (.ints [0]), some (.ints [3])] demoMatrix
      = .ok (.mixed [] vals)) ∧
    (∃ vals, index (plainApl 0) [some (.ints [7])] demoMatrix = .ok (.mixed [] vals)) :=
  ⟨rfl, rfl, rfl, rfl, rfl, rfl, ⟨_, rfl⟩, ⟨_, rfl⟩⟩

/-! ### Bounds are checked before the array is read -/

/-- The fill loop of `index` succeeds when every flat index is in bounds and
the remaining slots suffice. -/
theorem indexFill_ok {V : Type} (A : Arr V) :
    ∀ (ints : List Int) (vals : List (Option V)) (i : Nat),
      (∀ n ∈ ints, ArrayBounds A n = .ok ()) → i + ints.length ≤ vals.length →
      ∃ vals', indexFill A vals i ints = .ok vals' := by
  intro ints
  induction ints with
  | nil => intro vals i _ _; exact ⟨vals, rfl⟩
  | cons n ns ih =>
    intro vals i hb hlen
    have hn : ArrayBounds A n = .ok () := hb n (by simp)
    have hi : i < vals.length := by simp at hlen; omega
    simp only [indexFill, hn, if_pos hi]
    exact ih _ (i + 1) (fun m hm => hb m (by simp [hm]))
      (by simp at hlen ⊢; omega)

/-- C11: for every shape and every spec on which `spec2ints` succeeds, every
flat index computed by `indexArray` lies in `[0, product of shape)`; so every
`ArrayBounds` check inside `index` succeeds and `index` returns a value. -/
theorem indexArray_in_bounds {S : Type} (a : Apl S) (spec : List S) (shape : List Nat)
    (lists : List (List Int)) (h : spec2ints a spec shape = .ok lists) :
    ∃ res, indexArray a spec shape = .ok res ∧
      (∀ n ∈ res.Ints, 0 ≤ n ∧ n < (shape.prod : Int)) ∧
      ∀ (V : Type) (A : Arr V), A.Shape = shape →
        (∀ n ∈ res.Ints, ArrayBounds A n = .ok ()) ∧
        ∃ v, index a spec A = .ok v := by
  have hres : indexArray a spec shape
      = .ok ⟨(lists.map List.length).filter (fun v => v ≠ 1),
          indexArrayLoop lists (NewIdxConverter shape) (lists.map List.length)
            (ArraySize (lists.map List.length))
            (List.replicate (lists.map List.length).length 0)⟩ := by
    simp only [indexArray, h]
  have hbounds : ∀ n ∈ indexArrayLoop lists (NewIdxConverter shape) (lists.map List.length)
      (ArraySize (lists.map List.length))
      (List.replicate (lists.map List.length).length 0),
      0 ≤ n ∧ n < (shape.prod : Int) := by
    intro n hn
    rw [indexArrayLoop_eq, List.mem_map] at hn
    obtain ⟨c, hc, rfl⟩ := hn
    exact combinations_bounds shape lists (spec2ints_bounds a spec shape lists h) c hc
  refine ⟨_, hres, hbounds, ?_⟩
  intro V A hA
  have hab : ∀ n ∈ indexArrayLoop lists (NewIdxConverter shape) (lists.map List.length)
      (ArraySize (lists.map List.length))
      (List.replicate (lists.map List.length).length 0), ArrayBounds A n = .ok () := by
    intro n hn
    have := hbounds n hn
    have hnot : ¬ (n < 0 ∨ n ≥ (ArraySize A.Shape : Int)) := by
      rw [hA]; unfold ArraySize; omega
    simp only [ArrayBounds, if_neg hnot]
  refine ⟨hab, ?_⟩
  by_cases hlen : spec.length = 0
  · exact ⟨.array A, by simp only [index, if_pos hlen]⟩
  · simp only [index, if_neg hlen, hA, hres]
    split
    · rename_i hsc
      have hmem : (indexArrayLoop lists (NewIdxConverter shape) (lists.map List.length)
          (ArraySize (lists.map List.length))
          (List.replicate (lists.map List.length).length 0)).getD 0 0 ∈
          indexArrayLoop lists (NewIdxConverter shape) (lists.map List.length)
          (ArraySize (lists.map List.length))
          (List.replicate (lists.map List.length).length 0) := by
        have h1 := hsc.1
        obtain ⟨x, hx⟩ := List.length_eq_one.1 h1
        rw [hx]; simp
      rw [hab _ hmem]
      exact ⟨_, rfl⟩
    · obtain ⟨vals, hv⟩ := indexFill_ok A _
        (List.replicate (ArraySize ((lists.map List.length).filter (fun v => v ≠ 1))) none)
        0 hab (by
          simp only [List.length_replicate, ArraySize, prod_filter_ne_one,
            indexArrayLoop_length]
          omega)
      rw [hv]
      exact ⟨_, rfl⟩

/-- Instance of C11: the offsets of row 1 of the demonstration matrix are in
bounds and `index` returns a value. -/
theorem indexArray_in_bounds_witness :
    ∃ res, indexArray (plainApl 0) [some (.ints [1]), some .empty] [2, 3] = .ok res ∧
      (∀ n ∈ res.Ints, 0 ≤ n ∧ n < 6) ∧
      ∃ v, index (plainApl 0) [some (.ints [1]), some .empty] demoMatrix = .ok v := by
  obtain ⟨res, h1, h2, h3⟩ := indexArray_in_bounds (plainApl 0)
    [some (.ints [1]), some .empty] [2, 3] [[1], [0, 1, 2]] rfl
  exact ⟨res, h1, h2, (h3 Int demoMatrix rfl).2⟩

/-! ## Theorems on the dot operator -/


/-- C12: for array operands with non-empty shapes, `inner` fails with
`inner dimensions must agree` if and only if the last entry of the left shape
differs from the first entry of the right shape. -/
theorem inner_dimension_check {V E Ty : Type} (env : DotEnv V E Ty)
    (f g : V → V → Except E V) (al ar : DArray V E)
    (hl : al.Shape ≠ []) (hr : ar.Shape ≠ []) :
    inner env f g (.array al) (.array ar) = .err .dimsMustAgree
      ↔ al.Shape.getLast? ≠ ar.Shape.head? := by
  have h0 : ¬ (al.Shape.length = 0 ∨ ar.Shape.length = 0) := by
    simp [List.length_eq_zero, hl, hr]
  obtain ⟨x, hx⟩ : ∃ x, al.Shape.getLast? = some x := ⟨_, List.getLast?_eq_getLast _ hl⟩
  obtain ⟨y, hy⟩ : ∃ y, ar.Shape.head? = some y := ⟨_, List.head?_eq_head hr⟩
  have hx' : al.Shape.getLastD 0 = x := by simp [hx]
  have hy' : ar.Shape.headD 0 = y := by simp [hy]
  simp only [inner, innerArrays, if_neg h0, hx', hy', hx, hy]
  by_cases hxy : x = y
  · subst hxy
    simp only [ne_eq, not_true_eq_false, if_false, iff_false]
    split
    · split <;> simp
    · split <;> simp
  · have hne : some x ≠ some y := fun h => hxy (Option.some.inj h)
    simp [hxy, hne]

/-- Instance of C12: a vector of length 2 against a vector of length 3. -/
theorem inner_dimension_check_witness :
    inner intEnv intAdd intMul (.array (vectorArray () [1, 2]))
      (.array (vectorArray () [4, 5, 6])) = .err .dimsMustAgree :=
  (inner_dimension_check intEnv intAdd intMul (vectorArray () [1, 2])
    (vectorArray () [4, 5, 6]) (by decide) (by decide)).2 (by decide)

/-- C17: with `f = ∘` the derived function fails for every `g`, `l` and `r`
(the outer product is not implemented); with another `f`, the derived function
fails with a must-be-a-function error when `f` is not a function, and when `f`
is a function but `g` is not. -/
theorem dot_outer_and_non_functions {V E Ty : Type} [DecidableEq Ty]
    (env : DotEnv V E Ty) (f g : FnValue V E) (l r : DValue V E) :
    (f.primitive = some "∘" → dotApply env f g l r = .err .outerTodo) ∧
    (f.primitive ≠ some "∘" → f.function = none →
      dotApply env f g l r = .err .leftNotFunction) ∧
    (f.primitive ≠ some "∘" → f.function.isSome = true → g.function = none →
      dotApply env f g l r = .err .rightNotFunction) := by
  refine ⟨fun h => ?_, fun h hf => ?_, fun h hf hg => ?_⟩
  · simp [dotApply, h, outer]
  · simp [dotApply, h, hf]
  · obtain ⟨df, hdf⟩ := Option.isSome_iff_exists.1 hf
    simp [dotApply, h, hdf, hg]

/-- Instance of C17: `∘.×` on two integer vectors. -/
theorem dot_outer_and_non_functions_witness :
    dotApply intEnv ⟨some "∘", none⟩ ⟨some "×", some intMul⟩
      (.array (vectorArray () [1, 2])) (.array (vectorArray () [3, 4]))
      = .err .outerTodo :=
  (dot_outer_and_non_functions intEnv ⟨some "∘", none⟩ ⟨some "×", some intMul⟩
    (.array (vectorArray () [1, 2])) (.array (vectorArray () [3, 4]))).1 rfl

/-- The counter `scalarProduct` never reaches 1, so apart from the outer
product the derived function is `inner` whenever `f` and `g` are functions. -/
theorem dotApply_eq_inner {V E Ty : Type} [DecidableEq Ty] (env : DotEnv V E Ty)
    (f g : FnValue V E) (df dg : V → V → Except E V) (l r : DValue V E)
    (hf : f.primitive ≠ some "∘") (hdf : f.function = some df)
    (hdg : g.function = some dg) :
    dotApply env f g l r = inner env df dg l r := by
  have hsp : ¬ ((if f.primitive = some "×" then
      (if f.primitive = some "+" then (-1 : Int) + 1 else -1) + 1
      else (if f.primitive = some "+" then (-1 : Int) + 1 else -1)) = 1
      ∧ env.typeOf l = env.typeOf r) := by
    rintro ⟨h, -⟩
    by_cases h1 : f.primitive = some "×"
    · have h2 : ¬ f.primitive = some "+" := by rw [h1]; decide
      rw [if_pos h1, if_neg h2] at h
      omega
    · rw [if_neg h1] at h
      by_cases h2 : f.primitive = some "+"
      · rw [if_pos h2] at h; omega
      · rw [if_neg h2] at h; omega
  simp only [dotApply, if_neg hf, hdf, hdg, if_neg hsp]

/-- C16 (evaluation at the failing input): with `f = +`, `g = ×` and two
operands of the same type that implements `ScalarProduct` (here with result
999), the derived function returns what the generic fold of `inner` computes,
32, and not the result of `ScalarProduct`. -/
theorem dot_fast_path_not_taken :
    (∃ sc, productEnv.ScalarProduct (.array (vectorArray () [1, 2, 3])) = some sc ∧
      sc (.array (vectorArray () [4, 5, 6])) = .ok (.scalar 999)) ∧
    productEnv.typeOf (.array (vectorArray () [1, 2, 3]))
      = productEnv.typeOf (.array (vectorArray () [4, 5, 6])) ∧
    dotApply productEnv ⟨some "+", some intAdd⟩ ⟨some "×", some intMul⟩
      (.array (vectorArray () [1, 2, 3])) (.array (vectorArray () [4, 5, 6]))
      = .ok (.scalar 32) ∧
    inner productEnv intAdd intMul
      (.array (vectorArray () [1, 2, 3])) (.array (vectorArray () [4, 5, 6]))
      = .ok (.scalar 32) :=
  ⟨⟨_, rfl, rfl⟩, rfl, by decide, by decide⟩

/-! ### The fold of `inner` -/

/-- Unfolding of the specification fold at a non-empty tail. -/
theorem foldPairs_cons {V E : Type} (f g : V → V → Except E V) (d : V) (p : V × V)
    (suf : List (V × V)) (hs : suf ≠ []) :
    foldPairs f g d (p :: suf)
      = match foldPairs f g d suf with
        | .error e => .error e
        | .ok v =>
          match g p.1 p.2 with
          | .error e => .error e
          | .ok u => f u v := by
  cases suf with
  | nil => exact absurd rfl hs
  | cons q rest => rfl

/-- An error of the fold over a tail of the pairs is the error of the whole
fold. -/
theorem foldPairs_error_append {V E : Type} (f g : V → V → Except E V) (d : V)
    (suf : List (V × V)) (e : E) (he : foldPairs f g d suf = .error e) :
    ∀ pre : List (V × V), foldPairs f g d (pre ++ suf) = .error e := by
  have hs : suf ≠ [] := by
    intro h
    rw [h] at he
    cases he
  intro pre
  induction pre with
  | nil => exact he
  | cons p pre ih =>
    have hne : pre ++ suf ≠ [] := by simp [hs]
    rw [List.cons_append, foldPairs_cons f g d p _ hne, ih]

/-- The loop of `inner`, once the last pair has seeded `v`, completes the
specification fold. -/
theorem innerFold_append {V E : Type} (f g : V → V → Except E V) (d : V)
    (lat rat : Nat → Except E V) (n : Nat) (pre : List (V × V)) :
    ∀ (suf : List (V × V)) (v : V), suf ≠ [] → foldPairs f g d suf = .ok v →
      (∀ (k : Nat) (p : V × V), (pre ++ suf)[k]? = some p →
        lat k = .ok p.1 ∧ rat k = .ok p.2) →
      n = (pre ++ suf).length →
      innerFold f g lat rat n pre.length v = foldPairs f g d (pre ++ suf) := by
  induction pre using List.reverseRecOn with
  | nil =>
    intro suf v _ hv _ _
    simp [innerFold, hv]
  | append_singleton pre p ih =>
    intro suf v hs hv hat hn
    have hk : (pre ++ [p] ++ suf)[pre.length]? = some p := by
      rw [List.append_assoc, List.getElem?_append_right (Nat.le_refl _)]
      simp
    obtain ⟨hl, hr⟩ := hat pre.length p hk
    have hne : ¬ pre.length + 1 = n := by
      have : 0 < suf.length := List.length_pos.2 hs
      simp at hn
      omega
    have hstep : foldPairs f g d (p :: suf)
        = match g p.1 p.2 with
          | .error e => .error e
          | .ok u => f u v := by
      rw [foldPairs_cons f g d p suf hs, hv]
    have happ : pre ++ [p] ++ suf = pre ++ (p :: suf) := by simp
    rw [List.length_append, List.length_singleton]
    simp only [innerFold, hl, hr, if_neg hne]
    cases hg : g p.1 p.2 with
    | error e =>
      simp only [hg] at hstep
      rw [happ, foldPairs_error_append f g d _ e hstep]
    | ok u =>
      simp only [hg] at hstep
      cases hf : f u v with
      | error e =>
        rw [hf] at hstep
        simp only [hf]
        rw [happ, foldPairs_error_append f g d _ e hstep]
      | ok u' =>
        rw [hf] at hstep
        have := ih (p :: suf) u' (by simp) hstep (by rw [← happ]; exact hat)
          (by rw [← happ]; exact hn)
        simp only [hf]
        rw [happ]
        exact this

/-- The loop of `inner` over `n` pairs of operands computes the specification
fold. -/
theorem innerFold_eq {V E : Type} (f g : V → V → Except E V) (d : V)
    (lat rat : Nat → Except E V) (pairs : List (V × V))
    (hat : ∀ (k : Nat) (p : V × V), pairs[k]? = some p →
      lat k = .ok p.1 ∧ rat k = .ok p.2) :
    innerFold f g lat rat pairs.length pairs.length d = foldPairs f g d pairs := by
  rcases List.eq_nil_or_concat pairs with h | ⟨pre, p, h⟩
  · subst h
    simp [innerFold, foldPairs]
  · rw [List.concat_eq_append] at h
    subst h
    have hk : (pre ++ [p])[pre.length]? = some p := by simp
    obtain ⟨hl, hr⟩ := hat pre.length p hk
    have hlen : (pre ++ [p]).length = pre.length + 1 := by simp
    rw [hlen]
    simp only [innerFold, hl, hr, if_true]
    cases hg : g p.1 p.2 with
    | error e =>
      have h1 : foldPairs f g d [p] = .error e := by simp [foldPairs, hg]
      rw [foldPairs_error_append f g d _ e h1]
    | ok u =>
      have h1 : foldPairs f g d [p] = .ok u := by simp [foldPairs, hg]
      exact innerFold_append f g d lat rat (pre.length + 1) pre [p] u (by simp) h1 hat
        (by simp)

/-- The fold with integer addition and multiplication is the sum of the
products. -/
theorem foldPairs_add_mul (pairs : List (Int × Int)) :
    foldPairs intAdd intMul 0 pairs = .ok ((pairs.map (fun p => p.1 * p.2)).sum) := by
  induction pairs with
  | nil => rfl
  | cons p rest ih =>
    cases rest with
    | nil => simp [foldPairs, intMul]
    | cons q rest =>
      rw [foldPairs_cons intAdd intMul 0 p _ (by simp), ih]
      simp [intAdd, intMul]

/-- Reading a vector at a position of its value list. -/
theorem vectorArray_At {V E : Type} (rangeError : E) (vals : List V) (k : Nat) (v : V)
    (h : vals[k]? = some v) : (vectorArray rangeError vals : DArray V E).At k = .ok v := by
  simp [vectorArray, GeneralArray.toArray, h]

/-- Pairs of the operands of two vectors, position by position. -/
theorem zip_at {V E : Type} (lat rat : Nat → Except E V) (lvals rvals : List V)
    (hl : ∀ (k : Nat) (v : V), lvals[k]? = some v → lat k = .ok v)
    (hr : ∀ (k : Nat) (v : V), rvals[k]? = some v → rat k = .ok v) :
    ∀ (k : Nat) (p : V × V), (lvals.zip rvals)[k]? = some p →
      lat k = .ok p.1 ∧ rat k = .ok p.2 := by
  intro k p hp
  obtain ⟨h1, h2⟩ := List.getElem?_zip_eq_some.1 hp
  exact ⟨hl k _ h1, hr k _ h2⟩

/-- C13: `inner` on two vectors of equal length returns the scalar
`f(g(l0,r0), f(g(l1,r1), ... f(g(l(n-2),r(n-2)), g(l(n-1),r(n-1)))))`, the
last pair seeding the fold, and an error of `f` or `g` is returned as the
error; for integer addition and multiplication this is the sum of the products
`lk * rk`. -/
theorem inner_vectors :
    (∀ (V E Ty : Type) (env : DotEnv V E Ty) (f g : V → V → Except E V)
      (al ar : DArray V E) (lvals rvals : List V),
      al.Shape = [lvals.length] → ar.Shape = [rvals.length] →
      lvals.length = rvals.length → 1 ≤ lvals.length →
      (∀ (k : Nat) (v : V), lvals[k]? = some v → al.At k = .ok v) →
      (∀ (k : Nat) (v : V), rvals[k]? = some v → ar.At k = .ok v) →
      inner env f g (.array al) (.array ar)
        = match foldPairs f g env.nilValue (lvals.zip rvals) with
          | .ok v => .ok (.scalar v)
          | .error e => .err (.other e)) ∧
    (∀ ls rs : List Int, ls.length = rs.length → 1 ≤ ls.length →
      inner intEnv intAdd intMul (.array (vectorArray () ls)) (.array (vectorArray () rs))
        = .ok (.scalar (((ls.zip rs).map (fun p => p.1 * p.2)).sum))) := by
  have hgen : ∀ (V E Ty : Type) (env : DotEnv V E Ty) (f g : V → V → Except E V)
      (al ar : DArray V E) (lvals rvals : List V),
      al.Shape = [lvals.length] → ar.Shape = [rvals.length] →
      lvals.length = rvals.length →
      (∀ (k : Nat) (v : V), lvals[k]? = some v → al.At k = .ok v) →
      (∀ (k : Nat) (v : V), rvals[k]? = some v → ar.At k = .ok v) →
      inner env f g (.array al) (.array ar)
        = match foldPairs f g env.nilValue (lvals.zip rvals) with
          | .ok v => .ok (.scalar v)
          | .error e => .err (.other e) := by
    intro V E Ty env f g al ar lvals rvals hls hrs hlen hl hr
    have hfold := innerFold_eq f g env.nilValue (fun k => al.At k) (fun k => ar.At k)
      (lvals.zip rvals) (zip_at _ _ lvals rvals hl hr)
    have hzl : (lvals.zip rvals).length = lvals.length := by simp [hlen]
    rw [hzl] at hfold
    simp only [inner, innerArrays, hls, hrs, List.length_singleton, List.getLastD_cons,
      List.getLastD_nil, List.headD_cons, hlen]
    simp only [one_ne_zero, or_self, if_false, ne_eq, not_true_eq_false, and_self, if_true]
    rw [← hlen, hfold]
    cases foldPairs f g env.nilValue (lvals.zip rvals) <;> rfl
  refine ⟨fun V E Ty env f g al ar lvals rvals h1 h2 h3 _ h4 h5 =>
    hgen V E Ty env f g al ar lvals rvals h1 h2 h3 h4 h5, ?_⟩
  intro ls rs hlen _
  rw [hgen Int Unit Unit intEnv intAdd intMul _ _ ls rs rfl rfl hlen
    (fun k v h => vectorArray_At () ls k v h) (fun k v h => vectorArray_At () rs k v h)]
  have : intEnv.nilValue = 0 := rfl
  rw [this, foldPairs_add_mul]

/-- Instance of C13: the dot product of `[1, 2, 3]` and `[4, 5, 6]` is 32. -/
theorem inner_vectors_witness :
    inner intEnv intAdd intMul (.array (vectorArray () [1, 2, 3]))
      (.array (vectorArray () [4, 5, 6])) = .ok (.scalar 32) :=
  inner_vectors.2 [1, 2, 3] [4, 5, 6] rfl (by decide)

/-! ### Multi-indices and flat positions -/

/-- The integer flat offset of a multi-index of natural numbers is its flat
position. -/
theorem flatOffset_ofNat (shape : List Nat) :
    ∀ idx : List Nat, flatOffset shape (idx.map Int.ofNat) = (ravel shape idx : Int) := by
  induction shape with
  | nil => intro idx; cases idx <;> simp [flatOffset, ravel]
  | cons s ss ih =>
    intro idx
    cases idx with
    | nil => simp [flatOffset, ravel]
    | cons i is => simp [flatOffset, ravel, ih is]

/-- The multi-index of a flat position lies within the shape. -/
theorem unravel_lt (dims : List Nat) :
    ∀ i, i < dims.prod → List.Forall₂ (fun x s => x < s) (unravel dims i) dims := by
  induction dims with
  | nil => intro i _; exact List.Forall₂.nil
  | cons s ss ih =>
    intro i hi
    rw [List.prod_cons] at hi
    have hP : 0 < ss.prod := by
      rcases Nat.eq_zero_or_pos ss.prod with h | h
      · rw [h] at hi; simp at hi
      · exact h
    refine List.Forall₂.cons ?_ (ih _ (Nat.mod_lt _ hP))
    rw [Nat.div_lt_iff_lt_mul hP]
    exact hi

/-- The flat position of a multi-index within the shape lies within the
array. -/
theorem ravel_lt {idx shape : List Nat}
    (h : List.Forall₂ (fun x s => x < s) idx shape) : ravel shape idx < shape.prod := by
  induction h with
  | nil => simp [ravel]
  | @cons x s xs ss hx _ ih =>
    simp only [ravel, List.prod_cons]
    have h1 : (x + 1) * ss.prod ≤ s * ss.prod := Nat.mul_le_mul_right _ hx
    have h2 : (x + 1) * ss.prod = x * ss.prod + ss.prod := by
      rw [Nat.add_mul, Nat.one_mul]
    omega

/-- The multi-index of the flat position of a multi-index is that
multi-index. -/
theorem unravel_ravel {idx shape : List Nat}
    (h : List.Forall₂ (fun x s => x < s) idx shape) : unravel shape (ravel shape idx) = idx := by
  induction h with
  | nil => rfl
  | @cons x s xs ss _ hrest ih =>
    obtain ⟨hd, hm⟩ := div_mod_block ss.prod x (ravel ss xs) (ravel_lt hrest)
    simp only [unravel, ravel, hd, hm, ih]

/-- The flat position of the multi-index of a flat position is that flat
position. -/
theorem ravel_unravel (dims : List Nat) :
    ∀ i, i < dims.prod → ravel dims (unravel dims i) = i := by
  induction dims with
  | nil => intro i hi; simp at hi; simp [ravel, unravel, hi]
  | cons s ss ih =>
    intro i hi
    rw [List.prod_cons] at hi
    have hP : 0 < ss.prod := by
      rcases Nat.eq_zero_or_pos ss.prod with h | h
      · rw [h] at hi; simp at hi
      · exact h
    simp only [unravel, ravel, ih _ (Nat.mod_lt _ hP)]
    rw [Nat.mul_comm]
    exact Nat.div_add_mod i ss.prod

/-- Multi-index access within the shape reads the array at the flat
position. -/
theorem ArrayAt_eq {V E : Type} (rangeError : E) (A : DArray V E) (idx : List Nat)
    (h : List.Forall₂ (fun x s => x < s) idx A.Shape) :
    ArrayAt rangeError A idx = A.At (ravel A.Shape idx : Int) := by
  have hcond : idx.length = A.Shape.length ∧
      (List.zip idx A.Shape).all (fun p => p.1 < p.2) = true := by
    refine ⟨h.length_eq, ?_⟩
    rw [List.all_eq_true]
    rintro ⟨x, s⟩ hp
    simpa using List.forall₂_zip h hp
  simp only [ArrayAt, if_pos hcond, flatOffset_ofNat]

/-- Collecting results that are all values. -/
theorem collect_map_ok {E α β : Type} (h : β → α) (xs : List β) :
    collect (xs.map (fun x => (Except.ok (h x) : Except E α))) = .ok (xs.map h) := by
  induction xs with
  | nil => rfl
  | cons x xs ih => simp [collect, ih]

/-- A collection that succeeds consists of values only. -/
theorem collect_eq_ok {E α : Type} :
    ∀ (xs : List (Except E α)) (vals : List α), collect xs = .ok vals →
      xs = vals.map Except.ok := by
  intro xs
  induction xs with
  | nil =>
    intro vals h
    simp only [collect, Except.ok.injEq] at h
    subst h
    rfl
  | cons x xs ih =>
    intro vals h
    cases x with
    | error e => simp [collect] at h
    | ok v =>
      cases hc : collect xs with
      | error e => simp [collect, hc] at h
      | ok vs =>
        simp only [collect, hc, Except.ok.injEq] at h
        subst h
        simp [ih vs hc]

/-- One element of the result of `inner`, in terms of the specification
fold. -/
theorem innerElement_eq {V E Ty : Type} (env : DotEnv V E Ty) (f g : V → V → Except E V)
    (al ar : DArray V E) (lpre rtail : List Nat) (n : Nat) (lv rv : Nat → V)
    (hls : al.Shape = lpre ++ [n]) (hrs : ar.Shape = n :: rtail)
    (hl : ∀ i : Nat, i < al.Shape.prod → al.At (i : Int) = .ok (lv i))
    (hr : ∀ i : Nat, i < ar.Shape.prod → ar.At (i : Int) = .ok (rv i))
    (i : Nat) (hi : i < (lpre ++ rtail).prod) :
    innerElement env f g al ar (lpre ++ rtail) lpre.length n i
      = innerSpecElement f g env.nilValue lv rv lpre n rtail
          ((unravel (lpre ++ rtail) i).take lpre.length)
          ((unravel (lpre ++ rtail) i).drop lpre.length) := by
  have hu := unravel_lt (lpre ++ rtail) i hi
  have hI := List.forall₂_take_append _ lpre rtail hu
  have hJ := List.forall₂_drop_append _ lpre rtail hu
  simp only [innerElement, ArrayIndexes, if_pos hi, innerSpecElement]
  have hlen : ((List.range n).map (fun k =>
      (lv (ravel (lpre ++ [n]) ((unravel (lpre ++ rtail) i).take lpre.length ++ [k])),
       rv (ravel (n :: rtail) (k :: (unravel (lpre ++ rtail) i).drop lpre.length))))).length
      = n := by simp
  have := innerFold_eq f g env.nilValue
    (fun k => ArrayAt env.rangeError al ((unravel (lpre ++ rtail) i).take lpre.length ++ [k]))
    (fun k => ArrayAt env.rangeError ar (k :: (unravel (lpre ++ rtail) i).drop lpre.length))
    ((List.range n).map (fun k =>
      (lv (ravel (lpre ++ [n]) ((unravel (lpre ++ rtail) i).take lpre.length ++ [k])),
       rv (ravel (n :: rtail) (k :: (unravel (lpre ++ rtail) i).drop lpre.length)))))
    (by
      intro k p hp
      rw [List.getElem?_map] at hp
      have hk : k < n := by
        by_contra hcon
        rw [List.getElem?_eq_none (by simpa using hcon)] at hp
        cases hp
      rw [List.getElem?_range hk] at hp
      simp only [Option.map_some', Option.some.injEq] at hp
      subst hp
      have hIk : List.Forall₂ (fun x s => x < s)
          ((unravel (lpre ++ rtail) i).take lpre.length ++ [k]) al.Shape := by
        rw [hls]
        exact List.rel_append hI (List.Forall₂.cons hk List.Forall₂.nil)
      have hkJ : List.Forall₂ (fun x s => x < s)
          (k :: (unravel (lpre ++ rtail) i).drop lpre.length) ar.Shape := by
        rw [hrs]
        exact List.Forall₂.cons hk hJ
      refine ⟨?_, ?_⟩
      · beta_reduce
        rw [ArrayAt_eq _ _ _ hIk, hl _ (ravel_lt hIk), hls]
      · beta_reduce
        rw [ArrayAt_eq _ _ _ hkJ, hr _ (ravel_lt hkJ), hrs])
  rw [hlen] at this
  exact this

/-- Reading a general array at a flat position within its values. -/
theorem toArray_At {V E : Type} (rangeError : E) (u : GeneralArray V) (d : V) (i : Nat)
    (hi : i < u.Values.length) :
    (GeneralArray.toArray rangeError u : DArray V E).At (i : Int) = .ok (u.Values.getD i d) := by
  simp [GeneralArray.toArray, List.getD_eq_getElem?_getD, List.getElem?_eq_getElem hi]

/-- The general case of `inner` in terms of the specification elements. -/
theorem innerArrays_eq {V E Ty : Type} (env : DotEnv V E Ty) (f g : V → V → Except E V)
    (al ar : DArray V E) (lpre rtail : List Nat) (n : Nat) (lv rv : Nat → V)
    (hls : al.Shape = lpre ++ [n]) (hrs : ar.Shape = n :: rtail)
    (hrank : ¬ (lpre = [] ∧ rtail = []))
    (hl : ∀ i : Nat, i < al.Shape.prod → al.At (i : Int) = .ok (lv i))
    (hr : ∀ i : Nat, i < ar.Shape.prod → ar.At (i : Int) = .ok (rv i)) :
    inner env f g (.array al) (.array ar)
      = match collect ((List.range (lpre ++ rtail).prod).map (fun i =>
            innerSpecElement f g env.nilValue lv rv lpre n rtail
              ((unravel (lpre ++ rtail) i).take lpre.length)
              ((unravel (lpre ++ rtail) i).drop lpre.length))) with
        | .ok vals => .ok (.array (lpre ++ rtail) vals)
        | .error e => .err (.other e) := by
  have h0 : ¬ (al.Shape.length = 0 ∨ ar.Shape.length = 0) := by
    rw [hls, hrs]; simp
  have hlast : al.Shape.getLastD 0 = n := by rw [hls]; simp
  have hhead : ar.Shape.headD 0 = n := by rw [hrs]; simp
  have hvec : ¬ (al.Shape.length = 1 ∧ ar.Shape.length = 1) := by
    rw [hls, hrs]
    rintro ⟨h1, h2⟩
    apply hrank
    constructor
    · apply List.length_eq_zero.1
      rw [List.length_append, List.length_singleton] at h1
      omega
    · apply List.length_eq_zero.1
      rw [List.length_cons] at h2
      omega
  have hdrop : al.Shape.dropLast = lpre := by rw [hls]; simp
  have htail : ar.Shape.tail = rtail := by rw [hrs]; simp
  have hsplit : al.Shape.length - 1 = lpre.length := by rw [hls]; simp
  have hmap : (List.range (lpre ++ rtail).prod).map
        (innerElement env f g al ar (lpre ++ rtail) lpre.length n)
      = (List.range (lpre ++ rtail).prod).map (fun i =>
          innerSpecElement f g env.nilValue lv rv lpre n rtail
            ((unravel (lpre ++ rtail) i).take lpre.length)
            ((unravel (lpre ++ rtail) i).drop lpre.length)) := by
    apply List.map_congr_left
    intro i hi
    exact innerElement_eq env f g al ar lpre rtail n lv rv hls hrs hl hr i
      (List.mem_range.1 hi)
  simp only [inner, innerArrays, if_neg h0, hlast, hhead, ne_eq, not_true_eq_false,
    if_false, if_neg hvec, hdrop, htail, hsplit, ArraySize, hmap]
  cases collect ((List.range (lpre ++ rtail).prod).map (fun i =>
      innerSpecElement f g env.nilValue lv rv lpre n rtail
        ((unravel (lpre ++ rtail) i).take lpre.length)
        ((unravel (lpre ++ rtail) i).drop lpre.length))) <;> rfl

/-- C14: `inner` on arrays with matching inner dimension `n` that are not both
vectors returns an array whose shape is the left shape without its last axis
followed by the right shape without its first axis, and whose element at the
outer indices `(I, J)` is the right-to-left fold with `f` of
`g(L[I, k], R[k, J])` over `k`; for two integer matrices with `+` and `×` this is
the matrix product. -/
theorem inner_arrays :
    (∀ (V E Ty : Type) (env : DotEnv V E Ty) (f g : V → V → Except E V)
      (al ar : DArray V E) (lpre rtail : List Nat) (n : Nat) (lv rv : Nat → V),
      al.Shape = lpre ++ [n] → ar.Shape = n :: rtail → ¬ (lpre = [] ∧ rtail = []) →
      1 ≤ n →
      (∀ i : Nat, i < al.Shape.prod → al.At (i : Int) = .ok (lv i)) →
      (∀ i : Nat, i < ar.Shape.prod → ar.At (i : Int) = .ok (rv i)) →
      (inner env f g (.array al) (.array ar)
        = match collect ((List.range (lpre ++ rtail).prod).map (fun i =>
              innerSpecElement f g env.nilValue lv rv lpre n rtail
                ((unravel (lpre ++ rtail) i).take lpre.length)
                ((unravel (lpre ++ rtail) i).drop lpre.length))) with
          | .ok vals => .ok (.array (lpre ++ rtail) vals)
          | .error e => .err (.other e)) ∧
      (∀ (dims : List Nat) (vals : List V),
        inner env f g (.array al) (.array ar) = .ok (.array dims vals) →
        dims = lpre ++ rtail ∧ vals.length = (lpre ++ rtail).prod ∧
        ∀ I J : List Nat, List.Forall₂ (fun x s => x < s) I lpre →
          List.Forall₂ (fun x s => x < s) J rtail →
          ∃ v, vals[ravel (lpre ++ rtail) (I ++ J)]? = some v ∧
            innerSpecElement f g env.nilValue lv rv lpre n rtail I J = .ok v)) ∧
    (∀ (m n p : Nat) (lvals rvals : List Int),
      lvals.length = m * n → rvals.length = n * p → 1 ≤ n →
      inner intEnv intAdd intMul
          (.array (GeneralArray.toArray () ⟨[m, n], lvals⟩))
          (.array (GeneralArray.toArray () ⟨[n, p], rvals⟩))
        = .ok (.array [m, p] ((List.range (m * p)).map (fun i =>
            ((List.range n).map (fun k =>
              lvals.getD ((i / p) * n + k) 0 * rvals.getD (k * p + i % p) 0)).sum)))) := by
  constructor
  · intro V E Ty env f g al ar lpre rtail n lv rv hls hrs hrank _ hl hr
    have hmain := innerArrays_eq env f g al ar lpre rtail n lv rv hls hrs hrank hl hr
    refine ⟨hmain, ?_⟩
    intro dims vals hres
    rw [hmain] at hres
    cases hc : collect ((List.range (lpre ++ rtail).prod).map (fun i =>
        innerSpecElement f g env.nilValue lv rv lpre n rtail
          ((unravel (lpre ++ rtail) i).take lpre.length)
          ((unravel (lpre ++ rtail) i).drop lpre.length))) with
    | error e => rw [hc] at hres; cases hres
    | ok vs =>
      rw [hc] at hres
      simp only [Outcome.ok.injEq, InnerResult.array.injEq] at hres
      obtain ⟨hd, hv⟩ := hres
      subst hd hv
      have hxs := collect_eq_ok _ _ hc
      have hlen : vs.length = (lpre ++ rtail).prod := by
        have := congrArg List.length hxs
        rw [List.length_map, List.length_map, List.length_range] at this
        exact this.symm
      refine ⟨rfl, hlen, ?_⟩
      intro I J hI hJ
      have hIJ : List.Forall₂ (fun x s => x < s) (I ++ J) (lpre ++ rtail) :=
        List.rel_append hI hJ
      have hlt := ravel_lt hIJ
      have hun := unravel_ravel hIJ
      have hget := congrArg (fun l => l[ravel (lpre ++ rtail) (I ++ J)]?) hxs
      simp only [List.getElem?_map, List.getElem?_range hlt, Option.map_some', hun] at hget
      have hIlen : I.length = lpre.length := hI.length_eq
      rw [← hIlen, List.take_left, List.drop_left] at hget
      cases hv : vs[ravel (lpre ++ rtail) (I ++ J)]? with
      | none => rw [hv] at hget; cases hget
      | some v =>
        rw [hv] at hget
        simp only [Option.map_some', Option.some.injEq] at hget
        exact ⟨v, rfl, hget⟩
  · intro m n p lvals rvals hlv hrv _
    have hmain := innerArrays_eq intEnv intAdd intMul
      (GeneralArray.toArray () ⟨[m, n], lvals⟩) (GeneralArray.toArray () ⟨[n, p], rvals⟩)
      [m] [p] n (fun i => lvals.getD i 0) (fun i => rvals.getD i 0) rfl rfl (by simp)
      (fun i hi => toArray_At () ⟨[m, n], lvals⟩ 0 i (by
        have : (GeneralArray.toArray () ⟨[m, n], lvals⟩ : DArray Int Unit).Shape = [m, n] := rfl
        rw [this] at hi
        simp at hi
        simp [hlv]; exact hi))
      (fun i hi => toArray_At () ⟨[n, p], rvals⟩ 0 i (by
        have : (GeneralArray.toArray () ⟨[n, p], rvals⟩ : DArray Int Unit).Shape = [n, p] := rfl
        rw [this] at hi
        simp at hi
        simp [hrv]; exact hi))
    rw [hmain]
    have hnil : intEnv.nilValue = 0 := rfl
    simp only [innerSpecElement, hnil, foldPairs_add_mul]
    rw [collect_map_ok]
    simp only [unravel, ravel, List.cons_append, List.nil_append, List.prod_cons,
      List.prod_nil, Nat.mul_one, Nat.div_one, List.length_singleton, List.take_succ_cons,
      List.take_zero, List.drop_succ_cons, List.drop_zero, Nat.add_zero, List.map_map]
    simp only [List.append_eq, List.nil_append, List.prod_cons, List.prod_nil, Nat.mul_one]
    rfl

/-- Instance of C14: the product of the integer matrices `[[1,2],[3,4]]` and
`[[5,6],[7,8]]`. -/
theorem inner_arrays_witness :
    inner intEnv intAdd intMul
      (.array (GeneralArray.toArray () ⟨[2, 2], [1, 2, 3, 4]⟩))
      (.array (GeneralArray.toArray () ⟨[2, 2], [5, 6, 7, 8]⟩))
      = .ok (.array [2, 2] [19, 22, 43, 50]) :=
  inner_arrays.2 2 2 2 [1, 2, 3, 4] [5, 6, 7, 8] rfl rfl (by decide)

/-- The left scalar of `inner` is broadcast to the vector of `n` copies, `n`
being the length of the first axis of the right operand. -/
theorem inner_left_scalar {V E Ty : Type} (env : DotEnv V E Ty)
    (f g : V → V → Except E V) (lv : V) (ar : DArray V E) (n : Nat) (rest : List Nat)
    (h : ar.Shape = n :: rest) (hn : 0 < n) :
    inner env f g (.scalar lv) (.array ar)
      = inner env f g (.array (vectorArray env.rangeError (List.replicate n lv)))
          (.array ar) := by
  have hne : ¬ n = 0 := by omega
  simp only [inner, h, if_neg hne, vectorArray, List.length_replicate]

/-- C15 (evaluation at the failing inputs): for the left operand of shape
`[2, 3]` and the right scalar 10, `inner` works on a broadcast array of shape
`[3]` with only two values and fails, where the vector of three copies gives
`[60, 150]`; for a left operand of shape `[0, 3]` it reports an empty left
array, where the vector of three copies gives the empty result of shape
`[0]`. -/
theorem inner_right_scalar_broadcast :
    inner intEnv intAdd intMul (.array demoMatrix23) (.scalar 10)
      = innerArrays intEnv intAdd intMul demoMatrix23
          (GeneralArray.toArray () ⟨[3], [10, 10]⟩) ∧
    inner intEnv intAdd intMul (.array demoMatrix23) (.scalar 10) = .err (.other ()) ∧
    inner intEnv intAdd intMul (.array demoMatrix23) (.array (vectorArray () [10, 10, 10]))
      = .ok (.array [2] [60, 150]) ∧
    inner intEnv intAdd intMul (.array (GeneralArray.toArray () ⟨[0, 3], []⟩)) (.scalar 10)
      = .err .emptyLhs ∧
    inner intEnv intAdd intMul (.array (GeneralArray.toArray () ⟨[0, 3], []⟩))
      (.array (vectorArray () [10, 10, 10])) = .ok (.array [0] []) :=
  ⟨rfl, by decide, by decide, by decide, by decide⟩

/-! ## Theorems on take and drop -/


/-- The results of `operators.Take` never turn into the rank error of
`takedrop`. -/
theorem liftTake_ne_rank {V T E : Type} (o : Outcome T E) :
    (liftTake o : Outcome (TDResult V T) (TakeError E)) ≠ .err .rank := by
  cases o <;> simp [liftTake]

/-- C18: for a non-empty count vector `L` of length `n` and a non-empty array
`R` of rank `r`, take fails with the rank error iff `n ≠ r`; drop fails with
the rank error iff `n > r`, and for `n ≤ r` it is drop with `L` extended by
`r - n` trailing zeros; an empty count vector returns `R` unchanged; a scalar
`R` becomes an array of shape `[1, ..., 1]` of rank `n`, without rank error. -/
theorem takedrop_rank_rule {V T E : Type} (env : TakeEnv V T E) (ints : List Int)
    (_hn : 1 ≤ ints.length) :
    (∀ A : Arr V,
      take env (.index ⟨[ints.length], ints⟩) (.array A)
        = (if ints.length = A.Shape.length
            then liftTake (env.Take ⟨[ints.length], ints⟩ A) else .err .rank) ∧
      (take env (.index ⟨[ints.length], ints⟩) (.array A) = .err .rank
        ↔ ints.length ≠ A.Shape.length) ∧
      (drop env (.index ⟨[ints.length], ints⟩) (.array A) = .err .rank
        ↔ A.Shape.length < ints.length) ∧
      (ints.length ≤ A.Shape.length →
        drop env (.index ⟨[ints.length], ints⟩) (.array A)
          = drop env (.index ⟨[A.Shape.length],
              ints ++ List.replicate (A.Shape.length - ints.length) 0⟩) (.array A) ∧
        drop env (.index ⟨[ints.length], ints⟩) (.array A)
          = liftTake (dodrop env ⟨[A.Shape.length],
              ints ++ List.replicate (A.Shape.length - ints.length) 0⟩ A)) ∧
      ((∀ (b : IntArray) (R : Arr V), ∃ t, env.Take b R = .ok t) →
        ((∃ e, take env (.index ⟨[ints.length], ints⟩) (.array A) = .err e)
          ↔ ints.length ≠ A.Shape.length) ∧
        ((∃ e, drop env (.index ⟨[ints.length], ints⟩) (.array A) = .err e)
          ↔ A.Shape.length < ints.length))) ∧
    (∀ (R : TDOperand V) (b : Bool), takedrop env .emptyArray R b = .ok (.unchanged R)) ∧
    (∀ v : V,
      take env (.index ⟨[ints.length], ints⟩) (.scalar v)
        = liftTake (env.Take ⟨[ints.length], ints⟩
            ⟨List.replicate ints.length 1, fun _ => v⟩) ∧
      drop env (.index ⟨[ints.length], ints⟩) (.scalar v)
        = liftTake (dodrop env ⟨[ints.length], ints⟩
            ⟨List.replicate ints.length 1, fun _ => v⟩)) := by
  have hdims : ¬ ([ints.length] : List Nat).length > 1 := by simp
  refine ⟨fun A => ?_, fun R b => rfl, fun v => ?_⟩
  · have htake : take env (.index ⟨[ints.length], ints⟩) (.array A)
        = (if ints.length = A.Shape.length
            then liftTake (env.Take ⟨[ints.length], ints⟩ A) else .err .rank) := by
      by_cases h : ints.length = A.Shape.length
      · simp [take, takedrop, TDOperand.isEmptyArray, takedropArray, h]
      · simp [take, takedrop, TDOperand.isEmptyArray, takedropArray, h]
    have hext : ∀ (r : Nat) (zs : List Int), (ints ++ zs).length = r → A.Shape.length = r →
        drop env (.index ⟨[r], ints ++ zs⟩) (.array A)
          = liftTake (dodrop env ⟨[r], ints ++ zs⟩ A) := by
      intro r zs hlen hr
      have h1 : ¬ (r < A.Shape.length) := by omega
      have h2 : ¬ ((ints ++ zs).length = 1 ∧ False) := by simp
      simp [drop, takedrop, TDOperand.isEmptyArray, takedropArray, h1, hr]
    have hdrop : ints.length ≤ A.Shape.length →
        drop env (.index ⟨[ints.length], ints⟩) (.array A)
          = liftTake (dodrop env ⟨[A.Shape.length],
              ints ++ List.replicate (A.Shape.length - ints.length) 0⟩ A) := by
      intro hle
      rcases Nat.lt_or_ge ints.length A.Shape.length with hlt | hge
      · have hsum : ints.length + (A.Shape.length - ints.length) = A.Shape.length := by
          omega
        simp [drop, takedrop, TDOperand.isEmptyArray, takedropArray, hlt, hsum]
      · have heq : ints.length = A.Shape.length := by omega
        have h1 : ¬ (ints.length < A.Shape.length) := by omega
        have hz : A.Shape.length - ints.length = 0 := by omega
        simp [drop, takedrop, TDOperand.isEmptyArray, takedropArray, h1, hz, heq]
    have hdropFail : A.Shape.length < ints.length →
        drop env (.index ⟨[ints.length], ints⟩) (.array A) = .err .rank := by
      intro hlt
      have h1 : ¬ (ints.length < A.Shape.length) := by omega
      have h2 : ¬ ints.length = A.Shape.length := by omega
      simp [drop, takedrop, TDOperand.isEmptyArray, takedropArray, h1, h2]
    refine ⟨htake, ?_, ?_, fun hle => ⟨?_, hdrop hle⟩, fun htot => ⟨?_, ?_⟩⟩
    rotate_left 3
    · rw [htake]
      by_cases h : ints.length = A.Shape.length
      · obtain ⟨t, ht⟩ := htot ⟨[ints.length], ints⟩ A
        rw [if_pos h, ht]
        simp [h, liftTake]
      · simp [if_neg h, h]
    · constructor
      · rintro ⟨e, he⟩
        by_contra hcon
        rw [hdrop (by omega)] at he
        have hlen : (⟨[A.Shape.length],
            ints ++ List.replicate (A.Shape.length - ints.length) 0⟩ : IntArray).Ints.length
            ≤ A.Shape.length := by
          simp
          omega
        obtain ⟨t, ht⟩ := htot ⟨[A.Shape.length], List.zipWith dropCount
          (ints ++ List.replicate (A.Shape.length - ints.length) 0)
          (A.Shape.map Int.ofNat)⟩ A
        simp only [dodrop, if_pos hlen, ht, liftTake] at he
        cases he
      · intro hlt
        exact ⟨_, hdropFail hlt⟩
    · rw [htake]
      by_cases h : ints.length = A.Shape.length
      · simp only [if_pos h, ne_eq, h, not_true_eq_false, iff_false]
        exact liftTake_ne_rank _
      · simp [if_neg h, h]
    · constructor
      · intro hfail
        by_contra hcon
        rw [hdrop (by omega)] at hfail
        exact liftTake_ne_rank _ hfail
      · intro hlt
        have h1 : ¬ (ints.length < A.Shape.length) := by omega
        have h2 : ¬ ints.length = A.Shape.length := by omega
        simp [drop, takedrop, TDOperand.isEmptyArray, takedropArray, h1, h2]
    · rw [hdrop hle]
      exact (hext A.Shape.length _ (by simp; omega) rfl).symm
  · constructor
    · simp [take, takedrop, TDOperand.isEmptyArray, takedropArray]
    · simp [drop, takedrop, TDOperand.isEmptyArray, takedropArray]

/-- Instance of C18: one count for the matrix of shape `[2, 3]`: take fails
with the rank error, drop treats the missing count as 0. -/
theorem takedrop_rank_rule_witness :
    take specTakeEnv (.index ⟨[1], [1]⟩) (.array demoMatrix) = .err .rank ∧
    drop specTakeEnv (.index ⟨[1], [1]⟩) (.array demoMatrix)
      = drop specTakeEnv (.index ⟨[2], [1, 0]⟩) (.array demoMatrix) :=
  ⟨((takedrop_rank_rule specTakeEnv [1] (by decide)).1 demoMatrix).2.1.2 (by decide),
   (((takedrop_rank_rule specTakeEnv [1] (by decide)).1 demoMatrix).2.2.2.1 (by decide)).1⟩

/-- C19: the count `b` that `dodrop` hands to `Take` for the drop count `l` on
an axis of extent `r ≥ 0` is `(l<0)·max(0, l+r) + (l≥0)·min(0, l-r)`: it is
`-(r-l)` for `0 ≤ l < r`, `r+l` for `-r < l < 0`, and 0 for `|l| ≥ r`; always
`|b| = max(0, r-|l|) ≤ r`, so the derived `Take` never overtakes; and `dodrop`
hands exactly these counts to `Take`. -/
theorem dodrop_counts :
    (∀ l r : Int, 0 ≤ r →
      dropCount l r
        = (if l < 0 then max 0 (l + r) else 0) + (if l ≥ 0 then min 0 (l - r) else 0) ∧
      (0 ≤ l → l < r → dropCount l r = -(r - l)) ∧
      (-r < l → l < 0 → dropCount l r = r + l) ∧
      (r ≤ |l| → dropCount l r = 0) ∧
      |dropCount l r| = max 0 (r - |l|) ∧
      |dropCount l r| ≤ r) ∧
    (∀ (V T E : Type) (env : TakeEnv V T E) (L : IntArray) (R : Arr V),
      L.Ints.length ≤ R.Shape.length →
      dodrop env L R
        = env.Take ⟨L.Dims, List.zipWith dropCount L.Ints (R.Shape.map Int.ofNat)⟩ R) := by
  constructor
  · intro l r hr
    have hb : dropCount l r
        = (if l < 0 then max 0 (l + r) else 0) + (if l ≥ 0 then min 0 (l - r) else 0) := by
      unfold dropCount
      by_cases h1 : l < 0
      · have h2 : ¬ l ≥ 0 := by omega
        by_cases h3 : l + r < 0
        · by_cases h4 : l - r > 0
          · simp only [h1, h2, h3, h4, if_true, if_false]; omega
          · simp only [h1, h2, h3, h4, if_true, if_false]; omega
        · by_cases h4 : l - r > 0
          · simp only [h1, h2, h3, h4, if_true, if_false]; omega
          · simp only [h1, h2, h3, h4, if_true, if_false]; omega
      · have h2 : l ≥ 0 := by omega
        by_cases h3 : l + r < 0
        · by_cases h4 : l - r > 0
          · simp only [h1, h2, h3, h4, if_true, if_false]; omega
          · simp only [h1, h2, h3, h4, if_true, if_false]; omega
        · by_cases h4 : l - r > 0
          · simp only [h1, h2, h3, h4, if_true, if_false]; omega
          · simp only [h1, h2, h3, h4, if_true, if_false]; omega
    refine ⟨hb, ?_, ?_, ?_, ?_, ?_⟩
    · intro h0 h1
      rw [hb, if_neg (by omega), if_pos (by omega)]
      omega
    · intro h0 h1
      rw [hb, if_pos h1, if_neg (by omega)]
      omega
    · intro h0
      rw [hb]
      by_cases h1 : l < 0
      · rw [if_pos h1, if_neg (by omega), abs_of_neg h1] at *
        omega
      · rw [if_neg h1, if_pos (by omega)]
        rw [abs_of_nonneg (by omega)] at h0
        omega
    · rw [hb]
      by_cases h1 : l < 0
      · rw [if_pos h1, if_neg (by omega), abs_of_neg h1]
        rw [abs_of_nonneg (by omega)]
        omega
      · rw [if_neg h1, if_pos (by omega), abs_of_nonneg (a := l) (by omega)]
        rw [abs_of_nonpos (by omega)]
        omega
    · rw [hb]
      by_cases h1 : l < 0
      · rw [if_pos h1, if_neg (by omega)]
        rw [abs_of_nonneg (by omega)]
        omega
      · rw [if_neg h1, if_pos (by omega)]
        rw [abs_of_nonpos (by omega)]
        omega
  · intro V T E env L R hlen
    simp only [dodrop, if_pos hlen]

/-- Instance of C19: dropping 2 from an axis of extent 5 takes the last 3. -/
theorem dodrop_counts_witness :
    dropCount 2 5 = -(5 - 2) ∧ |dropCount 2 5| ≤ 5 :=
  ⟨(dodrop_counts.1 2 5 (by decide)).2.1 (by decide) (by decide),
   (dodrop_counts.1 2 5 (by decide)).2.2.2.2.2⟩

/-- The modelled `Take` on a vector: one count `c`, positions `0 .. |c|-1`. -/
theorem TakeSpec_vector {V E : Type} (zero : V) (dims : List Nat) (c : Int) (A : Arr V)
    (n : Nat) (hA : A.Shape = [n]) :
    (TakeSpec zero ⟨dims, [c]⟩ A : Outcome (GeneralArray V) E)
      = .ok ⟨[c.natAbs], (List.range c.natAbs).map (fun j =>
          if 0 ≤ takeSource c n j ∧ takeSource c n j < (n : Int)
          then A.At (takeSource c n j) else zero)⟩ := by
  simp only [TakeSpec, hA, List.map_cons, List.map_nil, List.prod_cons, List.prod_nil,
    Nat.mul_one, unravel, Nat.div_one, takeIndex, withinShape, Bool.and_true, flatOffset,
    Nat.cast_one, mul_one, add_zero, decide_eq_true_eq]

/-- The count of `dodrop` for a drop count within the extent. -/
theorem dropCount_inside (l r : Int) (hr : 0 ≤ r) :
    (0 ≤ l → l ≤ r → dropCount l r = l - r) ∧ (-r ≤ l → l < 0 → dropCount l r = l + r) := by
  constructor
  · intro h0 h1
    unfold dropCount
    by_cases h2 : l + r < 0
    · omega
    · by_cases h3 : l - r > 0
      · omega
      · simp only [h2, h3, if_false, if_pos h0, if_neg (not_lt.2 h0)]
        omega
  · intro h0 h1
    unfold dropCount
    by_cases h2 : l + r < 0
    · omega
    · by_cases h3 : l - r > 0
      · omega
      · simp only [h2, h3, if_false, if_pos h1, if_neg (not_le.2 h1), ge_iff_le]
        omega

/-- Take of one count on a vector, with `operators.Take` as modelled. -/
theorem take_vector {V E : Type} (env : TakeEnv V (GeneralArray V) E) (zero : V)
    (hTake : env.Take = TakeSpec zero) (A : Arr V) (n : Nat) (hA : A.Shape = [n])
    (N : Int) :
    take env (.index ⟨[1], [N]⟩) (.array A)
      = .ok (.taken ⟨[N.natAbs], (List.range N.natAbs).map (fun j =>
          if 0 ≤ takeSource N n j ∧ takeSource N n j < (n : Int)
          then A.At (takeSource N n j) else zero)⟩) := by
  simp [take, takedrop, TDOperand.isEmptyArray, takedropArray, hA, hTake,
    TakeSpec_vector zero [1] N A n hA, liftTake]

/-- Drop of one count on a vector, with `operators.Take` as modelled. -/
theorem drop_vector {V E : Type} (env : TakeEnv V (GeneralArray V) E) (zero : V)
    (hTake : env.Take = TakeSpec zero) (A : Arr V) (n : Nat) (hA : A.Shape = [n])
    (N : Int) :
    drop env (.index ⟨[1], [N]⟩) (.array A)
      = .ok (.taken ⟨[(dropCount N n).natAbs], (List.range (dropCount N n).natAbs).map
          (fun j =>
            if 0 ≤ takeSource (dropCount N n) n j ∧ takeSource (dropCount N n) n j < (n : Int)
            then A.At (takeSource (dropCount N n) n j) else zero)⟩) := by
  simp [drop, takedrop, TDOperand.isEmptyArray, takedropArray, hA, hTake, dodrop,
    TakeSpec_vector zero [1] (dropCount N n) A n hA, liftTake]

/-- A prefix of the elements followed by the rest is the whole sequence. -/
theorem range_split {V : Type} (h : Int → V) (k n : Nat) (hk : k ≤ n) :
    (List.range k).map (fun (j : Nat) => h (j : Int))
        ++ (List.range (n - k)).map (fun (j : Nat) => h ((j : Int) + (k : Int)))
      = (List.range n).map (fun (i : Nat) => h (i : Int)) := by
  have hn : n = k + (n - k) := by omega
  conv_rhs => rw [hn, List.range_add, List.map_append, List.map_map]
  congr 1
  apply List.map_congr_left
  intro j _
  simp only [Function.comp, Nat.cast_add]
  rw [add_comm]

/-- C20: with `Take` as the spec describes it, for a vector `V` of length `n`
and a count `0 ≤ N ≤ n` the elements of `take(N, V)` followed by those of
`drop(N, V)` are the elements of `V`; for `-n ≤ N < 0` the elements of
`drop(N, V)` followed by those of `take(N, V)` are the elements of `V`; for the
empty array and the count 0 both results are the empty index vector. -/
theorem take_drop_complement {V E : Type} (env : TakeEnv V (GeneralArray V) E) (zero : V)
    (hTake : env.Take = TakeSpec zero) (A : Arr V) (n : Nat) (hA : A.Shape = [n]) :
    (∀ N : Int, 0 ≤ N → N ≤ (n : Int) →
      ∃ t d : GeneralArray V,
        take env (.index ⟨[1], [N]⟩) (.array A) = .ok (.taken t) ∧
        drop env (.index ⟨[1], [N]⟩) (.array A) = .ok (.taken d) ∧
        t.Dims = [N.toNat] ∧ d.Dims = [n - N.toNat] ∧
        t.Values ++ d.Values = (List.range n).map (fun (i : Nat) => A.At (i : Int))) ∧
    (∀ N : Int, -(n : Int) ≤ N → N < 0 →
      ∃ t d : GeneralArray V,
        take env (.index ⟨[1], [N]⟩) (.array A) = .ok (.taken t) ∧
        drop env (.index ⟨[1], [N]⟩) (.array A) = .ok (.taken d) ∧
        t.Dims = [N.natAbs] ∧ d.Dims = [n - N.natAbs] ∧
        d.Values ++ t.Values = (List.range n).map (fun (i : Nat) => A.At (i : Int))) ∧
    (take env (.index ⟨[1], [0]⟩) .emptyArray = .ok (.zeros ⟨[0], []⟩) ∧
      drop env (.index ⟨[1], [0]⟩) .emptyArray = .ok (.zeros ⟨[0], []⟩)) := by
  refine ⟨?_, ?_, rfl, rfl⟩
  · intro N h0 hle
    obtain ⟨k, rfl⟩ := Int.eq_ofNat_of_zero_le h0
    have hk : k ≤ n := by omega
    have hc : dropCount (k : Int) (n : Int) = (k : Int) - (n : Int) :=
      (dropCount_inside k n (by omega)).1 (by omega) hle
    have hcabs : ((k : Int) - (n : Int)).natAbs = n - k := by omega
    refine ⟨_, _, take_vector env zero hTake A n hA k, drop_vector env zero hTake A n hA k,
      by simp, by simp [hc, hcabs], ?_⟩
    simp only [hc, hcabs, Int.natAbs_ofNat]
    rw [← range_split (fun i => A.At i) k n hk]
    congr 1
    · apply List.map_congr_left
      intro j hj
      have hj' : j < k := List.mem_range.1 hj
      have hsrc : takeSource (k : Int) n j = (j : Int) := by simp [takeSource]
      rw [hsrc, if_pos ⟨by omega, by omega⟩]
    · apply List.map_congr_left
      intro j hj
      have hj' : j < n - k := List.mem_range.1 hj
      have hneg : ¬ (0 : Int) ≤ (k : Int) - (n : Int) := by omega
      have hsrc : takeSource ((k : Int) - (n : Int)) n j = (j : Int) + (k : Int) := by
        simp only [takeSource, if_neg hneg, hcabs]
        omega
      rw [hsrc, if_pos ⟨by omega, by omega⟩]
  · intro N hge hneg
    obtain ⟨k, hk⟩ : ∃ k : Nat, N = -(k : Int) := ⟨N.natAbs, by omega⟩
    subst hk
    have hkn : k ≤ n := by omega
    have hkpos : 0 < k := by omega
    have hc : dropCount (-(k : Int)) (n : Int) = -(k : Int) + (n : Int) :=
      (dropCount_inside (-(k : Int)) n (by omega)).2 hge hneg
    have hcabs : (-(k : Int) + (n : Int)).natAbs = n - k := by omega
    have hkabs : (-(k : Int)).natAbs = k := by omega
    refine ⟨_, _, take_vector env zero hTake A n hA _, drop_vector env zero hTake A n hA _,
      by simp, by simp [hc, hcabs], ?_⟩
    simp only [hc, hcabs, hkabs]
    have hsplit := range_split (fun i => A.At i) (n - k) n (by omega)
    have hnk : n - (n - k) = k := by omega
    rw [hnk] at hsplit
    rw [← hsplit]
    congr 1
    · apply List.map_congr_left
      intro j hj
      have hj' : j < n - k := List.mem_range.1 hj
      have hpos : (0 : Int) ≤ -(k : Int) + (n : Int) := by omega
      have hsrc : takeSource (-(k : Int) + (n : Int)) n j = (j : Int) := by
        simp only [takeSource, if_pos hpos]
      rw [hsrc, if_pos ⟨by omega, by omega⟩]
    · apply List.map_congr_left
      intro j hj
      have hj' : j < k := List.mem_range.1 hj
      have hneg' : ¬ (0 : Int) ≤ -(k : Int) := by omega
      have hsrc : takeSource (-(k : Int)) n j = (j : Int) + ((n - k : Nat) : Int) := by
        simp only [takeSource, if_neg hneg', hkabs]
        omega
      rw [hsrc, if_pos ⟨by omega, by omega⟩]

/-- Instance of C20: the first two and the remaining three elements of the
vector `10, ..., 14`. -/
theorem take_drop_complement_witness :
    ∃ t d : GeneralArray Int,
      take specTakeEnv (.index ⟨[1], [2]⟩) (.array demoVector) = .ok (.taken t) ∧
      drop specTakeEnv (.index ⟨[1], [2]⟩) (.array demoVector) = .ok (.taken d) ∧
      t.Values ++ d.Values = [10, 11, 12, 13, 14] := by
  obtain ⟨t, d, h1, h2, -, -, h3⟩ :=
    (take_drop_complement specTakeEnv 0 rfl demoVector 5 rfl).1 2 (by decide) (by decide)
  exact ⟨t, d, h1, h2, by rw [h3]; rfl⟩


/-! ### Drop and the number of elements -/

/-- The extent that `dodrop` asks of `Take` on an axis of extent `r` for the
drop count `l` is `max(0, r - |l|)`. -/
theorem dropCount_natAbs (l : Int) (r : Nat) :
    (dropCount l (r : Int)).natAbs = r - l.natAbs := by
  unfold dropCount
  simp only
  split_ifs <;> omega

/-- The extents of the counts of `dodrop`, axis by axis. -/
theorem dropCount_extents (ints : List Int) (shape : List Nat) :
    (List.zipWith dropCount ints (shape.map Int.ofNat)).map Int.natAbs
      = List.zipWith (fun l r => r - l.natAbs) ints shape := by
  induction ints generalizing shape with
  | nil => simp
  | cons l ls ih =>
    cases shape with
    | nil => simp
    | cons r rs =>
      simp only [List.map_cons, List.zipWith_cons_cons, ih rs]
      rw [show Int.ofNat r = (r : Int) from rfl, dropCount_natAbs]

/-- Extents reduced axis by axis have a product that is no larger. -/
theorem prod_zipWith_sub_le (ints : List Int) (shape : List Nat)
    (hlen : ints.length = shape.length) :
    (List.zipWith (fun l r => r - l.natAbs) ints shape).prod ≤ shape.prod := by
  induction ints generalizing shape with
  | nil =>
    cases shape with
    | nil => simp
    | cons r rs => simp at hlen
  | cons l ls ih =>
    cases shape with
    | nil => simp at hlen
    | cons r rs =>
      simp only [List.zipWith_cons_cons, List.prod_cons]
      exact Nat.mul_le_mul (Nat.sub_le _ _) (ih rs (by simpa using hlen))

/-- On an array that is not the empty array, with one count per axis and
`Take` as the spec describes it, drop returns an array of extent
`max(0, extent_i - |L_i|)` on each axis, with at most as many elements as the
argument. -/
theorem drop_extents {V E : Type} (zero : V) (env : TakeEnv V (GeneralArray V) E)
    (hTake : env.Take = TakeSpec zero) (ints : List Int) (A : Arr V)
    (hlen : ints.length = A.Shape.length) :
    ∃ t, drop env (.index ⟨[ints.length], ints⟩) (.array A) = .ok (.taken t) ∧
      t.Dims = List.zipWith (fun l r => r - l.natAbs) ints A.Shape ∧
      t.Values.length = t.Dims.prod ∧
      t.Dims.prod ≤ A.Shape.prod := by
  have hd : drop env (.index ⟨[ints.length], ints⟩) (.array A)
      = liftTake (TakeSpec zero
          ⟨[ints.length], List.zipWith dropCount ints (A.Shape.map Int.ofNat)⟩ A) := by
    simp [drop, takedrop, TDOperand.isEmptyArray, takedropArray, hlen, dodrop, hTake]
  rw [hd]
  simp only [TakeSpec, liftTake]
  refine ⟨_, rfl, ?_, ?_, ?_⟩
  · exact dropCount_extents ints A.Shape
  · simp
  · simp only [dropCount_extents]
    exact prod_zipWith_sub_le ints A.Shape hlen

/-- C21 (the code departs from the claim): drop with the single count 3 on the
empty array returns the index vector `0 0 0`, three fill elements, where the
claim has an empty result; for every single count `N` the result of drop on the
empty array is the vector of `|N|` zeros that take returns as well. -/
theorem drop_empty_array_zero_fill :
    drop specTakeEnv (.index ⟨[1], [3]⟩) .emptyArray = .ok (.zeros ⟨[3], [0, 0, 0]⟩) ∧
    (∀ (V T E : Type) (env : TakeEnv V T E) (N : Int),
      drop env (.index ⟨[1], [N]⟩) .emptyArray
        = .ok (.zeros ⟨[N.natAbs], List.replicate N.natAbs 0⟩) ∧
      drop env (.index ⟨[1], [N]⟩) .emptyArray = take env (.index ⟨[1], [N]⟩) .emptyArray) :=
  ⟨rfl, fun _ _ _ _ _ => ⟨rfl, rfl⟩⟩


/-! ## Theorems on the domain of numbers -/

/-- `IsNumber` rejects every array and returns it unchanged. -/
theorem IsNumber_array {V Ty : Type} (env : NumberEnv V Ty) (V0 : V) (ar : Arr V)
    (h : env.asArray V0 = some ar) : IsNumber env V0 = (V0, false) := by
  simp [IsNumber, numberTo, h]

/-- Every value that `number.To` rejects is returned unchanged. -/
theorem numberTo_rejected {V Ty : Type} (env : NumberEnv V Ty) (convert : Bool) (V0 : V)
    (h : (numberTo env convert V0).2 = false) : (numberTo env convert V0).1 = V0 := by
  have hrest : ∀ v : V,
      (match env.asBool V0 with
        | some b => (env.FromBool b, true)
        | none =>
          match env.asIndex V0 with
          | some i => (env.FromIndex i, true)
          | none => if env.Numbers (env.typeOf v) then (v, true) else (V0, false)).2 = false →
      (match env.asBool V0 with
        | some b => (env.FromBool b, true)
        | none =>
          match env.asIndex V0 with
          | some i => (env.FromIndex i, true)
          | none => if env.Numbers (env.typeOf v) then (v, true) else (V0, false)).1 = V0 := by
    intro v hv
    cases hb : env.asBool V0 with
    | some b => simp [hb] at hv
    | none =>
      cases hi : env.asIndex V0 with
      | some i => simp [hb, hi] at hv
      | none =>
        cases hn : env.Numbers (env.typeOf v) with
        | true => simp [hb, hi, hn] at hv
        | false => simp [hn]
  unfold numberTo at h ⊢
  cases ha : env.asArray V0 with
  | none =>
    simp only [ha] at h ⊢
    exact hrest V0 h
  | some ar =>
    simp only [ha] at h ⊢
    by_cases hc : convert = false
    · simp [hc]
    · by_cases hs : ArraySize ar.Shape ≠ 1
      · simp [hc, hs]
      · simp only [if_neg hc, if_neg hs] at h ⊢
        exact hrest _ h

/-- A scalar that is a boolean, an index or of a registered type is accepted by
`ToNumber` and by `IsNumber`. -/
theorem numberTo_scalar {V Ty : Type} (env : NumberEnv V Ty) (convert : Bool) (V0 : V)
    (h : env.asArray V0 = none) :
    numberTo env convert V0
      = (match env.asBool V0 with
        | some b => (env.FromBool b, true)
        | none =>
          match env.asIndex V0 with
          | some i => (env.FromIndex i, true)
          | none => if env.Numbers (env.typeOf V0) then (V0, true) else (V0, false)) := by
  simp [numberTo, h]

/-- An array of size 1 whose argument is neither `apl.Bool` nor `apl.Index`
(as every array is) is accepted by `ToNumber` iff the type of its element is
registered in the tower, whatever the element is. -/
theorem ToNumber_array_one {V Ty : Type} (env : NumberEnv V Ty) (V0 : V) (ar : Arr V)
    (h : env.asArray V0 = some ar) (hsize : ArraySize ar.Shape = 1)
    (hb : env.asBool V0 = none) (hi : env.asIndex V0 = none) :
    ToNumber env V0
      = (if env.Numbers (env.typeOf (ar.At 0)) then (ar.At 0, true) else (V0, false)) := by
  simp [ToNumber, numberTo, h, hsize, hb, hi]

/-- C30 (the code departs from the claim): `ToNumber` rejects the one-element
vector holding the boolean 1, and the one holding the index 3, where the claim
has them accepted and converted into the tower; the scalars 1 and 3 and the
one-element vector holding an integer of the tower are accepted. -/
theorem ToNumber_rejects_boxed_bool :
    ToNumber demoNumberEnv (.bools [true]) = (.bools [true], false) ∧
    ToNumber demoNumberEnv (.indexes [3]) = (.indexes [3], false) ∧
    ToNumber demoNumberEnv (.bool true) = (.integer 1, true) ∧
    ToNumber demoNumberEnv (.index 3) = (.integer 3, true) ∧
    ToNumber demoNumberEnv (.integers [5]) = (.integer 5, true) := by
  decide


/-! ## Theorems on shape and reshape -/

/-- C23: `rho1` never fails; for an array that is not the empty array it
returns the integer vector of length rank whose entries are the shape in order;
for the empty array the vector `[0]`; for a value that is no array, object or
table the empty array; for a table the vector `[rows, number of columns]`; and
for any other object the vector `[number of keys]`. -/
theorem rho1_shape {T : Type} (R : RhoValue T) :
    (∃ v, rho1 R = .ok v) ∧
    (R.table = none → R.object = none →
      (∀ shape, R.array = some shape → R.emptyArray = false →
        rho1 R = .ok (.ints ⟨[shape.length], shape.map Int.ofNat⟩)) ∧
      (∀ shape, R.array = some shape → R.emptyArray = true →
        rho1 R = .ok (.ints ⟨[1], [0]⟩)) ∧
      (R.array = none → rho1 R = .ok .emptyArray)) ∧
    (∀ rows cols, R.table = some (rows, cols) →
      rho1 R = .ok (.ints ⟨[2], [rows, (cols : Int)]⟩)) ∧
    (R.table = none → ∀ n, R.object = some n → rho1 R = .ok (.ints ⟨[1], [(n : Int)]⟩)) := by
  refine ⟨?_, fun ht ho => ⟨fun shape ha he => ?_, fun shape ha he => ?_, fun ha => ?_⟩,
    fun rows cols ht => ?_, fun ht n ho => ?_⟩
  · unfold rho1
    cases R.table with
    | some p => exact ⟨_, rfl⟩
    | none =>
      cases R.object with
      | some n => exact ⟨_, rfl⟩
      | none =>
        cases R.array with
        | none => exact ⟨_, rfl⟩
        | some shape =>
          cases R.emptyArray with
          | true => exact ⟨_, rfl⟩
          | false => exact ⟨_, rfl⟩
  · simp [rho1, ht, ho, ha, he]
  · simp [rho1, ht, ho, ha, he]
  · simp [rho1, ht, ho, ha]
  · simp [rho1, ht]
  · simp [rho1, ht, ho]

/-- Instance of C23: the shape of a `2 × 3` array, and of a table of 4 rows
and 2 columns. -/
theorem rho1_shape_witness :
    rho1 (GeneralArray.rhoValue ⟨[2, 3], [1, 2, 3, 4, 5, (6 : Int)]⟩)
      = .ok (.ints ⟨[2], [2, 3]⟩) ∧
    rho1 demoTableRho = .ok (.ints ⟨[2], [4, 2]⟩) :=
  ⟨((rho1_shape (GeneralArray.rhoValue ⟨[2, 3], [1, 2, 3, 4, 5, (6 : Int)]⟩)).2.1
      rfl rfl).1 [2, 3] rfl rfl,
   (rho1_shape demoTableRho).2.2.1 4 2 rfl⟩

/-- Reading a list at each of its positions gives the list back. -/
theorem filterMap_range_getElem {V : Type} (l : List V) :
    (List.range l.length).filterMap (fun (i : Nat) => l[i % l.length]?) = l := by
  have h : ∀ (n : Nat), n ≤ l.length →
      (List.range n).filterMap (fun (i : Nat) => l[i % l.length]?) = l.take n := by
    intro n
    induction n with
    | zero => intro _; simp
    | succ n ih =>
      intro hn
      have hlt : n < l.length := by omega
      rw [List.range_succ, List.filterMap_append, ih (by omega)]
      simp only [List.filterMap_cons, List.filterMap_nil, Nat.mod_eq_of_lt hlt,
        List.getElem?_eq_getElem hlt]
      rw [List.take_succ, List.getElem?_eq_getElem hlt]
      rfl
  rw [h l.length (Nat.le_refl _), List.take_length]

/-- C24: for an array `A` of rank at least 1 that is not the empty array and
reshapes by cycling its elements in row-major order, `rho2` on the result of
`rho1` succeeds with an array of the same shape and the same elements as `A`;
`rho2` hands to `Reshape` exactly the shape of its right argument; for an empty
left argument `rho2` returns the empty array; and for a left argument that is
not empty, an object and a value without `Reshape` fail with
`cannot reshape`. -/
theorem rho2_rho1_identity :
    (∀ (V : Type) (A : GeneralArray V), A.Dims ≠ [] → A.Values.length = A.Dims.prod →
      ∃ L, rho1 A.rhoValue = .ok L ∧ rho2 L A.rhoValue = .ok (.reshaped A)) ∧
    (∀ (T : Type) (R : RhoValue T) (shape : List Nat) (reshape : List Int → T),
      R.table = none → R.object = none → R.array = some shape → R.emptyArray = false →
      shape ≠ [] → R.reshaper = some reshape →
      ∃ L, rho1 R = .ok L ∧ rho2 L R = .ok (.reshaped (reshape (shape.map Int.ofNat)))) ∧
    (∀ (T : Type) (L : ShapeValue) (R : RhoValue T), L.size = 0 →
      rho2 L R = .ok .emptyArray) ∧
    (∀ (T : Type) (R : RhoValue T), rho2 .emptyArray R = .ok .emptyArray) ∧
    (∀ (T : Type) (L : ShapeValue) (R : RhoValue T), L.size ≠ 0 →
      (R.object.isSome = true ∨ R.reshaper = none) → rho2 L R = .err .cannotReshape) := by
  have hpass : ∀ (T : Type) (R : RhoValue T) (shape : List Nat) (reshape : List Int → T),
      R.table = none → R.object = none → R.array = some shape → R.emptyArray = false →
      shape ≠ [] → R.reshaper = some reshape →
      ∃ L, rho1 R = .ok L ∧ rho2 L R = .ok (.reshaped (reshape (shape.map Int.ofNat))) := by
    intro T R shape reshape ht ho ha he hne hr
    refine ⟨.ints ⟨[shape.length], shape.map Int.ofNat⟩, ?_, ?_⟩
    · simp [rho1, ht, ho, ha, he]
    · have hlen : shape.length ≠ 0 := fun h => hne (List.length_eq_zero.1 h)
      simp [rho2, ShapeValue.size, ArraySize, hlen, ho, hr]
  refine ⟨fun V A hne hsize => ?_, hpass, fun T L R h => ?_, fun T R => ?_,
    fun T L R hs h => ?_⟩
  · obtain ⟨L, h1, h2⟩ := hpass (GeneralArray V) A.rhoValue A.Dims (reshapeSpec A)
      rfl rfl rfl rfl hne rfl
    refine ⟨L, h1, ?_⟩
    rw [h2]
    have hmap : (A.Dims.map Int.ofNat).map Int.toNat = A.Dims := by
      rw [List.map_map]
      conv_rhs => rw [← List.map_id A.Dims]
      exact List.map_congr_left (fun a _ => rfl)
    have hvals : (List.range A.Dims.prod).filterMap
        (fun (i : Nat) => A.Values[i % A.Values.length]?) = A.Values := by
      rw [← hsize]
      exact filterMap_range_getElem A.Values
    simp only [reshapeSpec, hmap, hvals]
  · simp [rho2, h]
  · simp [rho2, ShapeValue.size]
  · rcases h with h | h
    · simp [rho2, hs, h]
    · cases L with
      | emptyArray => simp [ShapeValue.size] at hs
      | ints l =>
        by_cases ho : R.object.isSome
        · simp [rho2, hs, ho]
        · simp [rho2, hs, ho, h]

/-- Instance of C24: reshaping the `2 × 3` array of 1, ..., 6 to its own shape
gives it back. -/
theorem rho2_rho1_identity_witness :
    ∃ L, rho1 (GeneralArray.rhoValue ⟨[2, 3], [1, 2, 3, 4, 5, (6 : Int)]⟩) = .ok L ∧
      rho2 L (GeneralArray.rhoValue ⟨[2, 3], [1, 2, 3, 4, 5, (6 : Int)]⟩)
        = .ok (.reshaped ⟨[2, 3], [1, 2, 3, 4, 5, 6]⟩) :=
  rho2_rho1_identity.1 Int ⟨[2, 3], [1, 2, 3, 4, 5, 6]⟩ (by decide) (by decide)


/-! ## Theorems on lists -/

/-- The first loop of `listSelection` on single integers: every integer
relative to the origin. -/
theorem listInts_single {S : Type} (env : ListEnv S) (spec : List S) (is : List Int)
    (hconv : spec.map env.ToIndexArray
      = is.map (fun i => some (ShapeValue.ints ⟨[1], [i]⟩))) :
    listInts env spec = .ok (is.map (fun i => i - env.Origin)) := by
  induction spec generalizing is with
  | nil =>
    cases is with
    | nil => rfl
    | cons i is => simp at hconv
  | cons s rest ih =>
    cases is with
    | nil => simp at hconv
    | cons i is =>
      simp only [List.map_cons, List.cons.injEq] at hconv
      simp [listInts, hconv.1, ih is hconv.2]

/-- A path has one normalized index for every index. -/
theorem ListPath_length {α : Type} {lst : List (LValue α)} {ks ns : List Int}
    {v : LValue α} (h : ListPath lst ks ns v) : ns.length = ks.length := by
  induction h with
  | nil lst => rfl
  | last lst k v _ _ _ => rfl
  | step lst l k ks ns v _ _ _ _ _ ih => simp [ih]

/-- The normalized indexes of a path are not negative. -/
theorem ListPath_nonneg {α : Type} {lst : List (LValue α)} {ks ns : List Int}
    {v : LValue α} (h : ListPath lst ks ns v) : ∀ n ∈ ns, 0 ≤ n := by
  induction h with
  | nil lst => simp
  | last lst k v h0 _ _ => simpa using h0
  | step lst l k ks ns v _ h0 _ _ _ ih =>
    intro n hn
    rcases List.mem_cons.1 hn with rfl | hn
    · exact h0
    · exact ih n hn

/-- The second loop of `listSelection` never reads outside a list. -/
theorem listWalk_ne_crash {α : Type} (ks : List Int) (lst : List (LValue α)) :
    listWalk ks lst ≠ .crash := by
  induction ks generalizing lst with
  | nil => simp [listWalk]
  | cons k ks ih =>
    unfold listWalk
    simp only
    have hnorm : (if k < 0 then (lst.length : Int) + k else k) = normIndex k lst.length := rfl
    rw [hnorm]
    by_cases hr : normIndex k lst.length < 0 ∨ normIndex k lst.length ≥ (lst.length : Int)
    · rw [if_pos hr]
      simp
    · rw [if_neg hr]
      by_cases he : ks.isEmpty = true
      · rw [if_pos he]
        simp
      · rw [if_neg he]
        have hlt : (normIndex k lst.length).toNat < lst.length := by omega
        rw [List.getElem?_eq_getElem hlt]
        cases hv : lst[(normIndex k lst.length).toNat] with
        | atom a => simp
        | list l =>
          simp only
          cases hw : listWalk ks l with
          | ok r => simp
          | err e => simp
          | crash => exact absurd hw (ih l)

/-- The second loop of `listSelection` succeeds exactly on the paths, with the
normalized indexes. -/
theorem listWalk_ok_iff {α : Type} (ks : List Int) (lst : List (LValue α))
    (ns : List Int) :
    listWalk ks lst = .ok ns ↔ ∃ v, ListPath lst ks ns v := by
  induction ks generalizing lst ns with
  | nil =>
    constructor
    · intro h
      simp only [listWalk, Outcome.ok.injEq] at h
      subst h
      exact ⟨_, ListPath.nil lst⟩
    · rintro ⟨v, hp⟩
      cases hp
      rfl
  | cons k ks ih =>
    unfold listWalk
    simp only
    have hnorm : (if k < 0 then (lst.length : Int) + k else k) = normIndex k lst.length := rfl
    rw [hnorm]
    by_cases hr : normIndex k lst.length < 0 ∨ normIndex k lst.length ≥ (lst.length : Int)
    · rw [if_pos hr]
      constructor
      · intro h
        cases h
      · rintro ⟨v, hp⟩
        cases hp with
        | last _ _ _ h0 h1 _ => omega
        | step _ _ _ _ _ _ _ h0 h1 _ _ => omega
    · rw [if_neg hr]
      have hlt : (normIndex k lst.length).toNat < lst.length := by omega
      cases ks with
      | nil =>
        simp only [List.isEmpty_nil, if_true]
        constructor
        · intro h
          simp only [Outcome.ok.injEq] at h
          subst h
          exact ⟨lst[(normIndex k lst.length).toNat], ListPath.last lst k _ (by omega)
            (by omega) (List.getElem?_eq_getElem hlt)⟩
        · rintro ⟨v, hp⟩
          cases hp with
          | last _ _ _ h0 h1 _ => rfl
          | step _ _ _ _ _ _ hne _ _ _ _ => exact absurd rfl hne
      | cons k2 ks2 =>
        simp only [List.isEmpty_cons, Bool.false_eq_true, if_false]
        rw [List.getElem?_eq_getElem hlt]
        cases hv : lst[(normIndex k lst.length).toNat] with
        | atom a =>
          simp only
          constructor
          · intro h
            cases h
          · rintro ⟨v, hp⟩
            cases hp with
            | step _ l _ _ _ _ _ _ _ hl _ =>
              rw [List.getElem?_eq_getElem hlt, hv] at hl
              cases hl
        | list l =>
          simp only
          constructor
          · intro h
            cases hw : listWalk (k2 :: ks2) l with
            | ok r =>
              rw [hw] at h
              simp only [Outcome.ok.injEq] at h
              subst h
              obtain ⟨v, hp⟩ := (ih l r).1 hw
              exact ⟨v, ListPath.step lst l k _ r v (by simp) (by omega) (by omega)
                (by rw [List.getElem?_eq_getElem hlt, hv]) hp⟩
            | err e =>
              rw [hw] at h
              cases h
            | crash =>
              rw [hw] at h
              cases h
          · rintro ⟨v, hp⟩
            cases hp with
            | step _ l2 _ _ ns2 _ _ _ _ hl hp2 =>
              rw [List.getElem?_eq_getElem hlt, hv] at hl
              simp only [Option.some.injEq, LValue.list.injEq] at hl
              subst hl
              rw [(ih l ns2).2 ⟨v, hp2⟩]

/-- Following the normalized indexes of a path reaches its element, without
reading outside a list and without taking a value that is no list for one. -/
theorem listFollow_path {α : Type} {lst : List (LValue α)} {ks ns : List Int}
    {v : LValue α} (h : ListPath lst ks ns v) : listFollow ns lst = .ok v := by
  induction h with
  | nil lst => rfl
  | last lst k v h0 h1 hv =>
    have hneg : ¬ normIndex k lst.length < 0 := by omega
    simp [listFollow, hneg, hv]
  | step lst l k ks ns v hne h0 h1 hl hp ih =>
    have hneg : ¬ normIndex k lst.length < 0 := by omega
    have hns : ns ≠ [] := by
      intro hnil
      have := ListPath_length hp
      rw [hnil] at this
      exact hne (List.length_eq_zero.1 this.symm)
    have hemp : ns.isEmpty = false := by
      cases ns with
      | nil => exact absurd rfl hns
      | cons _ _ => rfl
    simp [listFollow, hneg, hl, hemp, ih]


/-- C29: for a list and a spec of `d` single integers, none of them a list,
`listSelection` succeeds iff the indexes relative to the origin, counted from
the end when negative, form a path: each lies within the list at its depth
and each element on the path except the last is a list; it then returns the
`d` normalized indexes, none negative, and `listIndex` returns the element
the path reaches; neither of them reads outside a list or takes a value that
is no list for one, and `listIndex` fails as `listSelection` does. -/
theorem listSelection_depth {S α : Type} (env : ListEnv S) (spec : List S) (is : List Int)
    (lst : List (LValue α))
    (hconv : spec.map env.ToIndexArray
      = is.map (fun i => some (ShapeValue.ints ⟨[1], [i]⟩)))
    (hlist : ∀ s ∈ spec, env.isList s = false) :
    (∀ ai, listSelection env spec lst = .ok ai ↔
      ai.Dims = [is.length] ∧
      ∃ v, ListPath lst (is.map (fun i => i - env.Origin)) ai.Ints v) ∧
    listSelection env spec lst ≠ .crash ∧
    listIndex env spec lst ≠ .crash ∧
    (∀ ns v, ListPath lst (is.map (fun i => i - env.Origin)) ns v →
      listSelection env spec lst = .ok ⟨[is.length], ns⟩ ∧
      ns.length = is.length ∧ (∀ n ∈ ns, 0 ≤ n) ∧
      listIndex env spec lst = .ok v) ∧
    (∀ e, listSelection env spec lst = .err e → listIndex env spec lst = .err e) := by
  have hguard : ¬ (spec.length = 1 ∧ spec.head?.map env.isList = some true) := by
    rintro ⟨_, h⟩
    cases spec with
    | nil => simp at h
    | cons s rest =>
      simp only [List.head?_cons, Option.map_some', Option.some.injEq] at h
      rw [hlist s (List.mem_cons_self _ _)] at h
      cases h
  have hsel : listSelection env spec lst
      = (match listWalk (is.map (fun i => i - env.Origin)) lst with
        | .err e => .err e
        | .crash => .crash
        | .ok r => .ok ⟨[is.length], r⟩) := by
    simp only [listSelection, if_neg hguard, listInts_single env spec is hconv,
      List.length_map]
  have hpath : ∀ ns v, ListPath lst (is.map (fun i => i - env.Origin)) ns v →
      listSelection env spec lst = .ok ⟨[is.length], ns⟩ := by
    intro ns v hp
    rw [hsel, (listWalk_ok_iff _ lst ns).2 ⟨v, hp⟩]
  have hnc : listSelection env spec lst ≠ .crash := by
    rw [hsel]
    cases hw : listWalk (is.map (fun i => i - env.Origin)) lst with
    | ok r => simp
    | err e => simp
    | crash => exact absurd hw (listWalk_ne_crash _ lst)
  refine ⟨fun ai => ⟨fun h => ?_, fun h => ?_⟩, hnc, ?_, fun ns v hp => ?_, fun e he => ?_⟩
  · rw [hsel] at h
    cases hw : listWalk (is.map (fun i => i - env.Origin)) lst with
    | ok r =>
      rw [hw] at h
      simp only [Outcome.ok.injEq] at h
      subst h
      exact ⟨rfl, (listWalk_ok_iff _ lst r).1 hw⟩
    | err e =>
      rw [hw] at h
      cases h
    | crash =>
      rw [hw] at h
      cases h
  · obtain ⟨hd, v, hp⟩ := h
    rw [hpath ai.Ints v hp, ← hd]
  · unfold listIndex
    cases hs : listSelection env spec lst with
    | err e => simp
    | crash => exact absurd hs hnc
    | ok ai =>
      simp only
      rw [hsel] at hs
      cases hw : listWalk (is.map (fun i => i - env.Origin)) lst with
      | ok r =>
        rw [hw] at hs
        simp only [Outcome.ok.injEq] at hs
        subst hs
        obtain ⟨v, hp⟩ := (listWalk_ok_iff _ lst r).1 hw
        rw [listFollow_path hp]
        simp
      | err e =>
        rw [hw] at hs
        cases hs
      | crash =>
        rw [hw] at hs
        cases hs
  · refine ⟨hpath ns v hp, ?_, ListPath_nonneg hp, ?_⟩
    · rw [ListPath_length hp, List.length_map]
    · simp only [listIndex, hpath ns v hp]
      exact listFollow_path hp
  · simp [listIndex, he]

/-- Instance of C29: with origin 1, the spec `2; 0` on the list `(1; (2; 3); 4)`
selects the positions 1 and 1 and reaches the 3; the index 0 counts from the
end. -/
theorem listSelection_depth_witness :
    listSelection demoListEnv [2, 0] demoList = .ok ⟨[2], [1, 1]⟩ ∧
    listIndex demoListEnv [2, 0] demoList = .ok (.atom 3) :=
  have hp : ListPath demoList [1, -1] [1, 1] (.atom 3) :=
    ListPath.step demoList [.atom 2, .atom 3] 1 [-1] [1] (.atom 3) (by decide) (by decide)
      (by decide) rfl
      (ListPath.last [.atom 2, .atom 3] (-1) (.atom 3) (by decide) (by decide) rfl)
  ⟨((listSelection_depth demoListEnv [2, 0] [2, 0] demoList rfl
      (fun _ _ => rfl)).2.2.2.1 [1, 1] (.atom 3) hp).1,
   ((listSelection_depth demoListEnv [2, 0] [2, 0] demoList rfl
      (fun _ _ => rfl)).2.2.2.1 [1, 1] (.atom 3) hp).2.2.2⟩


/-! ## Theorems on objects -/

/-- Reading a map after writing it. -/
theorem mapGet_mapSet {K V : Type} [DecidableEq K] (m : List (K × V)) (k : K) (v : V)
    (k2 : K) : mapGet (mapSet m k v) k2 = if k = k2 then some v else mapGet m k2 := by
  induction m with
  | nil => simp [mapSet, mapGet]
  | cons p m ih =>
    obtain ⟨k1, v1⟩ := p
    by_cases h1 : k1 = k
    · subst h1
      by_cases h2 : k1 = k2
      · simp [mapSet, mapGet, h2]
      · simp [mapSet, mapGet, h2]
    · by_cases h2 : k1 = k2
      · subst h2
        have h3 : ¬ k = k1 := fun h => h1 h.symm
        simp [mapSet, mapGet, h1, h3]
      · simp [mapSet, mapGet, h1, h2, ih]

/-- A key is absent from a map iff it is not among the keys of its entries. -/
theorem mapGet_eq_none_iff {K V : Type} [DecidableEq K] (m : List (K × V)) (k : K) :
    mapGet m k = none ↔ k ∉ m.map Prod.fst := by
  induction m with
  | nil => simp [mapGet]
  | cons p m ih =>
    obtain ⟨k1, v1⟩ := p
    by_cases h1 : k1 = k
    · simp [mapGet, h1]
    · have h2 : ¬ k = k1 := fun h => h1 h.symm
      simp only [mapGet, if_neg h1, ih, List.map_cons, List.mem_cons, not_or]
      exact ⟨fun h => ⟨h2, h⟩, fun h => h.2⟩

/-- Writing a key that the map does not have adds an entry at the end. -/
theorem mapSet_fresh {K V : Type} [DecidableEq K] (m : List (K × V)) (k : K) (v : V)
    (h : mapGet m k = none) : mapSet m k v = m ++ [(k, v)] := by
  induction m with
  | nil => rfl
  | cons p m ih =>
    obtain ⟨k1, v1⟩ := p
    by_cases h1 : k1 = k
    · simp [mapGet, h1] at h
    · simp only [mapGet, if_neg h1] at h
      simp [mapSet, h1, ih h]

/-- The loop of `objIndex` succeeds when the object has all keys; the keys of
the result are the given keys in the given order, after those present before,
and the map holds the value of the object under each of them. -/
theorem objIndexLoop_ok {K V : Type} [DecidableEq K] (At : K → Option V) (keys : List K)
    (d : Dict K V) (h : ∀ k ∈ keys, At k ≠ none) :
    ∃ d1, objIndexLoop At keys d = .ok d1 ∧ d1.K = d.K ++ keys ∧
      ∀ k, mapGet d1.M k = if k ∈ keys then At k else mapGet d.M k := by
  induction keys generalizing d with
  | nil => exact ⟨d, rfl, by simp, by simp⟩
  | cons key rest ih =>
    cases hv : At key with
    | none => exact absurd hv (h key (List.mem_cons_self _ _))
    | some v =>
      obtain ⟨d1, h1, h2, h3⟩ := ih ⟨d.K ++ [key], mapSet d.M key v⟩
        (fun k hk => h k (List.mem_cons_of_mem _ hk))
      refine ⟨d1, ?_, ?_, fun k => ?_⟩
      · simp only [objIndexLoop, hv]
        exact h1
      · rw [h2]
        simp
      · rw [h3 k, mapGet_mapSet]
        by_cases hk : k ∈ rest
        · simp [hk]
        · by_cases hkey : key = k
          · subst hkey
            simp [hk, hv]
          · have hkey2 : ¬ k = key := fun h => hkey h.symm
            simp [hk, hkey, hkey2]

/-- The loop of `objIndex` fails with `key does not exist` when the object
lacks one of the keys. -/
theorem objIndexLoop_err {K V : Type} [DecidableEq K] (At : K → Option V) (keys : List K)
    (d : Dict K V) (h : ∃ k ∈ keys, At k = none) :
    objIndexLoop At keys d = .err .keyMissing := by
  induction keys generalizing d with
  | nil =>
    obtain ⟨k, hk, _⟩ := h
    cases hk
  | cons key rest ih =>
    cases hv : At key with
    | none => simp [objIndexLoop, hv]
    | some v =>
      simp only [objIndexLoop, hv]
      apply ih
      obtain ⟨k, hk, hn⟩ := h
      rcases List.mem_cons.1 hk with rfl | hk
      · rw [hv] at hn
        cases hn
      · exact ⟨k, hk, hn⟩

/-- C25: `objIndex` fails unless the spec has exactly one entry; for a single
key that is no array it returns the value stored under the key, and fails
with `key does not exist` iff the object has no such key; for a vector of
keys it returns a dictionary whose keys are the given keys in the given order
and whose map holds the value of the object under each of them and nothing
else, and it fails, with `key does not exist`, iff one of the keys is
missing. -/
theorem objIndex_keys {K V : Type} [DecidableEq K] (asArray : K → Option (Arr K))
    (obj : ObjectValue K V) :
    (∀ spec : List K, spec.length ≠ 1 → objIndex asArray obj spec = .err .specLength) ∧
    (∀ s : K, asArray s = none →
      (∀ v, obj.At s = some v → objIndex asArray obj [s] = .ok (.value v)) ∧
      (objIndex asArray obj [s] = .err .keyMissing ↔ obj.At s = none) ∧
      ((∃ e, objIndex asArray obj [s] = .err e) ↔ obj.At s = none)) ∧
    (∀ (s : K) (sv : Arr K) (n : Nat), asArray s = some sv → sv.Shape = [n] →
      ((∀ k ∈ arrayElements sv n, obj.At k ≠ none) →
        ∃ d, objIndex asArray obj [s] = .ok (.dict d) ∧ d.K = arrayElements sv n ∧
          ∀ k, mapGet d.M k = if k ∈ arrayElements sv n then obj.At k else none) ∧
      ((∃ e, objIndex asArray obj [s] = .err e) ↔ ∃ k ∈ arrayElements sv n, obj.At k = none) ∧
      (objIndex asArray obj [s] = .err .keyMissing
        ↔ ∃ k ∈ arrayElements sv n, obj.At k = none)) := by
  refine ⟨fun spec h => ?_, fun s ha => ⟨fun v hv => ?_, ?_, ?_⟩,
    fun s sv n ha hs => ?_⟩
  · match spec, h with
    | [], _ => rfl
    | [_], h => exact absurd rfl h
    | _ :: _ :: _, _ => rfl
  · simp [objIndex, ha, hv]
  · cases hv : obj.At s with
    | none => simp [objIndex, ha, hv]
    | some v => simp [objIndex, ha, hv]
  · cases hv : obj.At s with
    | none => simp [objIndex, ha, hv]
    | some v => simp [objIndex, ha, hv]
  · have hok : (∀ k ∈ arrayElements sv n, obj.At k ≠ none) →
        ∃ d, objIndex asArray obj [s] = .ok (.dict d) ∧ d.K = arrayElements sv n ∧
          ∀ k, mapGet d.M k = if k ∈ arrayElements sv n then obj.At k else none := by
      intro hall
      obtain ⟨d, h1, h2, h3⟩ := objIndexLoop_ok obj.At (arrayElements sv n) ⟨[], []⟩ hall
      refine ⟨d, ?_, by simpa using h2, fun k => ?_⟩
      · simp [objIndex, ha, hs, h1]
      · rw [h3 k]
        simp [mapGet]
    have herr : (∃ k ∈ arrayElements sv n, obj.At k = none) →
        objIndex asArray obj [s] = .err .keyMissing := by
      intro hex
      simp [objIndex, ha, hs, objIndexLoop_err obj.At _ ⟨[], []⟩ hex]
    refine ⟨hok, ⟨fun hfail => ?_, fun hex => ⟨_, herr hex⟩⟩, ⟨fun hfail => ?_, herr⟩⟩
    · by_contra hcon
      obtain ⟨e, he⟩ := hfail
      obtain ⟨d, hd, _⟩ := hok (fun k hk hn => hcon ⟨k, hk, hn⟩)
      rw [hd] at he
      cases he
    · by_contra hcon
      obtain ⟨d, hd, _⟩ := hok (fun k hk hn => hcon ⟨k, hk, hn⟩)
      rw [hd] at hfail
      cases hfail

/-- Instance of C25: the key vector `b a` on the dictionary with the keys `a`
and `b` returns the dictionary with the keys `b` and `a`. -/
theorem objIndex_keys_witness :
    ∃ d, objIndex demoAsArray demoObject [.strs ["b", "a"]] = .ok (.dict d) ∧
      d.K = [.str "b", .str "a"] ∧
      ∀ k, mapGet d.M k
        = if k ∈ [ObjValue.str "b", ObjValue.str "a"] then demoObject.At k else none :=
  ((objIndex_keys demoAsArray demoObject).2.2 (.strs ["b", "a"])
    ⟨[2], fun i => .str (["b", "a"].getD i.toNat "")⟩ 2 rfl rfl).1 (by decide)


/-- With keys that are pairwise different and new, the loop of `objIndex`
keeps the keys of the map equal to the key list. -/
theorem objIndexLoop_synchronized {K V : Type} [DecidableEq K] (At : K → Option V)
    (keys : List K) (d d1 : Dict K V) (hsync : d.M.map Prod.fst = d.K)
    (hnodup : (d.K ++ keys).Nodup) (h : objIndexLoop At keys d = .ok d1) :
    d1.M.map Prod.fst = d1.K ∧ d1.K = d.K ++ keys := by
  induction keys generalizing d with
  | nil =>
    simp only [objIndexLoop, Outcome.ok.injEq] at h
    subst h
    exact ⟨hsync, by simp⟩
  | cons key rest ih =>
    cases hv : At key with
    | none => simp [objIndexLoop, hv] at h
    | some v =>
      simp only [objIndexLoop, hv] at h
      have hfresh : mapGet d.M key = none := by
        rw [mapGet_eq_none_iff, hsync]
        intro hmem
        have := List.disjoint_of_nodup_append hnodup hmem
        exact this (List.mem_cons_self _ _)
      have hn : ((d.K ++ [key]) ++ rest).Nodup := by
        rw [List.append_assoc]
        exact hnodup
      obtain ⟨h1, h2⟩ := ih ⟨d.K ++ [key], mapSet d.M key v⟩
        (by simp [mapSet_fresh _ _ _ hfresh, hsync]) hn h
      exact ⟨h1, by rw [h2]; simp⟩

/-- For a key vector without repeated keys on which `objIndex` succeeds, the
dictionary has unique keys, and key list and map are synchronized. -/
theorem objIndex_synchronized {K V : Type} [DecidableEq K] (asArray : K → Option (Arr K))
    (obj : ObjectValue K V) (s : K) (sv : Arr K) (n : Nat) (d : Dict K V)
    (ha : asArray s = some sv) (hs : sv.Shape = [n])
    (hnodup : (arrayElements sv n).Nodup)
    (h : objIndex asArray obj [s] = .ok (.dict d)) :
    d.K.Nodup ∧ d.M.map Prod.fst = d.K ∧ d.M.length = d.K.length := by
  simp only [objIndex, ha, hs] at h
  cases hl : objIndexLoop obj.At (arrayElements sv n) ⟨[], []⟩ with
  | err e => simp [hl] at h
  | crash => simp [hl] at h
  | ok d1 =>
    simp only [hl, Outcome.ok.injEq, ObjResult.dict.injEq] at h
    subst h
    obtain ⟨h1, h2⟩ := objIndexLoop_synchronized obj.At _ ⟨[], []⟩ d1 rfl
      (by simpa using hnodup) hl
    refine ⟨?_, h1, ?_⟩
    · rw [h2]
      simpa using hnodup
    · rw [← h1, List.length_map]

/-- C27 (the code departs from the claim): on the key vector `a a`, which
repeats a key of the object, `objIndex` succeeds with a dictionary whose key
list is `a a`, with a repeated key, and whose map has the single entry of `a`:
the keys are not unique, and the key list has two entries where the map has
one. -/
theorem objIndex_repeated_key :
    objIndex demoAsArray demoObject [.strs ["a", "a"]]
      = .ok (.dict ⟨[.str "a", .str "a"], [(.str "a", .num 1)]⟩) ∧
    ¬ ([ObjValue.str "a", ObjValue.str "a"]).Nodup ∧
    ([ObjValue.str "a", ObjValue.str "a"]).length
      ≠ ([(ObjValue.str "a", ObjValue.num 1)]).length := by
  decide


/-! ### Positions of keys -/

/-- Writing a new key with the position after the last one keeps the map in
agreement with the keys. -/
theorem KeysAgree_append {K : Type} [DecidableEq K] (origin : Int) (keys : List (K × Int))
    (P : List K) (k : K) (h : KeysAgree origin keys P) (hk : k ∉ P) :
    KeysAgree origin (mapSet keys k ((P.length : Int) + origin)) (P ++ [k]) := by
  obtain ⟨hlen, hget⟩ := h
  have hfresh : mapGet keys k = none := by
    rw [hget k, if_neg hk]
  refine ⟨?_, fun k2 => ?_⟩
  · rw [mapSet_fresh _ _ _ hfresh]
    simp [hlen]
  · rw [mapGet_mapSet, hget k2]
    by_cases h1 : k = k2
    · subst h1
      have hidx : List.indexOf k (P ++ [k]) = P.length := by
        rw [List.indexOf_append_of_not_mem hk, List.indexOf_cons_self]
        rfl
      simp [hidx]
    · have h2 : ¬ k2 = k := fun h => h1 h.symm
      by_cases h3 : k2 ∈ P
      · simp [h1, h2, h3, List.indexOf_append_of_mem h3]
      · simp [h1, h2, h3]

/-- The first loop of `objSelection` on keys without repetition. -/
theorem keyPositions_agree {K : Type} [DecidableEq K] (origin : Int) (ks P : List K)
    (m : List (K × Int)) (h : KeysAgree origin m P) (hnodup : (P ++ ks).Nodup) :
    KeysAgree origin (keyPositions origin ks P.length m) (P ++ ks) := by
  induction ks generalizing P m with
  | nil => simpa [keyPositions] using h
  | cons k ks ih =>
    have hk : k ∉ P := fun hmem =>
      List.disjoint_of_nodup_append hnodup hmem (List.mem_cons_self _ _)
    have hn : ((P ++ [k]) ++ ks).Nodup := by
      rw [List.append_assoc]
      exact hnodup
    have := ih (P ++ [k]) _ (KeysAgree_append origin m P k h hk) hn
    simp only [List.length_append, List.length_singleton, List.append_assoc,
      List.singleton_append] at this
    exact this

/-- The map `keys` of `objSelection` for an object with unique keys. -/
theorem keyPositions_init {K : Type} [DecidableEq K] (origin : Int) (ks : List K)
    (hnodup : ks.Nodup) : KeysAgree origin (keyPositions origin ks 0 []) ks := by
  have h0 : KeysAgree origin ([] : List (K × Int)) ([] : List K) :=
    ⟨rfl, fun k => by simp [mapGet]⟩
  have := keyPositions_agree origin ks [] [] h0 (by simpa using hnodup)
  simpa using this

/-- New keys are added after the existing ones. -/
theorem addNewKeys_prefix {K : Type} [DecidableEq K] (keys ks : List K) :
    ∃ extra, addNewKeys keys ks = keys ++ extra := by
  induction ks generalizing keys with
  | nil => exact ⟨[], by simp [addNewKeys]⟩
  | cons k ks ih =>
    by_cases hk : k ∈ keys
    · obtain ⟨extra, he⟩ := ih keys
      refine ⟨extra, ?_⟩
      simp only [addNewKeys, List.foldl_cons, if_pos hk] at he ⊢
      exact he
    · obtain ⟨extra, he⟩ := ih (keys ++ [k])
      refine ⟨k :: extra, ?_⟩
      simp only [addNewKeys, List.foldl_cons, if_neg hk] at he ⊢
      rw [he]
      simp

/-- Keys that are new and pairwise different are added as they stand. -/
theorem addNewKeys_fresh {K : Type} [DecidableEq K] (keys ks : List K)
    (hnodup : ks.Nodup) (hnew : ∀ k ∈ ks, k ∉ keys) : addNewKeys keys ks = keys ++ ks := by
  induction ks generalizing keys with
  | nil => simp [addNewKeys]
  | cons k ks ih =>
    have hk : k ∉ keys := hnew k (List.mem_cons_self _ _)
    have hnd := List.nodup_cons.1 hnodup
    have := ih (keys ++ [k]) hnd.2 (fun k2 hk2 hmem => by
      rcases List.mem_append.1 hmem with h | h
      · exact hnew k2 (List.mem_cons_of_mem _ hk2) h
      · have : k2 = k := by simpa using h
        subst this
        exact hnd.1 hk2)
    simp only [addNewKeys, List.foldl_cons, if_neg hk] at this ⊢
    rw [this]
    simp


/-- The second loop of `objSelection` on keys that all exist: their positions
plus the origin, the object as it was. -/
theorem objSelectionLoop_found {K V : Type} [DecidableEq K] (origin : Int) (emptyArray : V)
    (ks : List K) (keys : List (K × Int)) (P : List K) (t : ObjTarget K V)
    (h : KeysAgree origin keys P) (hall : ∀ k ∈ ks, k ∈ P) :
    objSelectionLoop origin emptyArray ks keys t
      = .ok (ks.map (fun k => (P.indexOf k : Int) + origin), t) := by
  induction ks with
  | nil => rfl
  | cons k ks ih =>
    have hk : k ∈ P := hall k (List.mem_cons_self _ _)
    simp only [objSelectionLoop, h.2 k, if_pos hk,
      ih (fun k2 hk2 => hall k2 (List.mem_cons_of_mem _ hk2)), List.map_cons]

/-- The second loop of `objSelection` on an object that is no dictionary
fails when a key is missing. -/
theorem objSelectionLoop_other {K V : Type} [DecidableEq K] (origin : Int) (emptyArray : V)
    (ks : List K) (keys : List (K × Int)) (P Ks : List K)
    (h : KeysAgree origin keys P) (hmiss : ∃ k ∈ ks, k ∉ P) :
    objSelectionLoop origin emptyArray ks keys (ObjTarget.other Ks : ObjTarget K V)
      = .err .keyMissing := by
  induction ks with
  | nil =>
    obtain ⟨k, hk, _⟩ := hmiss
    cases hk
  | cons k ks ih =>
    by_cases hk : k ∈ P
    · have hrest : ∃ k2 ∈ ks, k2 ∉ P := by
        obtain ⟨k2, hk2, hn⟩ := hmiss
        rcases List.mem_cons.1 hk2 with rfl | hk2
        · exact absurd hk hn
        · exact ⟨k2, hk2, hn⟩
      simp only [objSelectionLoop, h.2 k, if_pos hk, ih hrest]
    · simp only [objSelectionLoop, h.2 k, if_neg hk]

/-- The second loop of `objSelection` on a dictionary: every key of the key
vector receives its position among the keys of the dictionary after the call
plus the origin; the new keys are added once each, in the order of their
first occurrence, with the empty array as value. -/
theorem objSelectionLoop_dict {K V : Type} [DecidableEq K] (origin : Int) (emptyArray : V)
    (ks : List K) (keys : List (K × Int)) (d : Dict K V)
    (h : KeysAgree origin keys d.K) (hnodup : d.K.Nodup) :
    ∃ d1, objSelectionLoop origin emptyArray ks keys (.dict d)
        = .ok (ks.map (fun k => (d1.K.indexOf k : Int) + origin), .dict d1) ∧
      d1.K = addNewKeys d.K ks ∧ d1.K.Nodup ∧
      ∀ k, mapGet d1.M k
        = if k ∈ ks ∧ k ∉ d.K then some emptyArray else mapGet d.M k := by
  induction ks generalizing keys d with
  | nil => exact ⟨d, rfl, rfl, hnodup, fun k => by simp⟩
  | cons key rest ih =>
    by_cases hk : key ∈ d.K
    · obtain ⟨d1, h1, h2, h3, h4⟩ := ih keys d h hnodup
      obtain ⟨extra, he⟩ := addNewKeys_prefix d.K rest
      refine ⟨d1, ?_, ?_, h3, fun k => ?_⟩
      · simp only [objSelectionLoop, h.2 key, if_pos hk, h1, List.map_cons]
        rw [h2, he, List.indexOf_append_of_mem hk]
      · rw [h2]
        simp [addNewKeys, hk]
      · rw [h4 k]
        by_cases hkd : k ∈ d.K
        · simp [hkd]
        · have hne : ¬ k = key := fun heq => hkd (heq ▸ hk)
          simp [hkd, hne]
    · have hset : d.set key emptyArray = ⟨d.K ++ [key], mapSet d.M key emptyArray⟩ := by
        simp [Dict.set, hk]
      have hagree := KeysAgree_append origin keys d.K key h hk
      have hnd : (d.K ++ [key]).Nodup := by
        rw [List.nodup_append]
        refine ⟨hnodup, List.nodup_singleton _, ?_⟩
        intro a ha hb
        have : a = key := by simpa using hb
        subst this
        exact hk ha
      obtain ⟨d1, h1, h2, h3, h4⟩ := ih (mapSet keys key ((d.K.length : Int) + origin))
        ⟨d.K ++ [key], mapSet d.M key emptyArray⟩ hagree hnd
      obtain ⟨extra, he⟩ := addNewKeys_prefix (d.K ++ [key]) rest
      refine ⟨d1, ?_, ?_, h3, fun k => ?_⟩
      · simp only [objSelectionLoop, h.2 key, if_neg hk, hset, h.1, h1, List.map_cons]
        have hidx : List.indexOf key d1.K = d.K.length := by
          rw [h2]
          rw [he, List.indexOf_append_of_mem (by simp),
            List.indexOf_append_of_not_mem hk, List.indexOf_cons_self]
          rfl
        rw [hidx]
      · rw [h2]
        simp [addNewKeys, hk]
      · rw [h4 k, mapGet_mapSet]
        by_cases hkey : key = k
        · subst hkey
          simp [hk]
        · have hne : ¬ k = key := fun heq => hkey heq.symm
          simp [hkey, hne]


/-- The positions of new, pairwise different keys after `n` existing ones are
consecutive. -/
theorem indexOf_new_keys {K : Type} [DecidableEq K] (origin : Int) (P ks : List K)
    (hnodup : ks.Nodup) (hnew : ∀ k ∈ ks, k ∉ P) :
    ks.map (fun k => ((P ++ ks).indexOf k : Int) + origin)
      = (List.range ks.length).map (fun (j : Nat) => (P.length : Int) + origin + (j : Int)) := by
  apply List.ext_getElem
  · simp
  · intro j h1 h2
    have hj : j < ks.length := by simpa using h1
    simp only [List.getElem_map, List.getElem_range]
    rw [List.indexOf_append_of_not_mem (hnew _ (List.getElem_mem hj)),
      List.indexOf_getElem hnodup j hj]
    push_cast
    ring

/-- C26: for an object with `n` unique keys and origin `o`, selecting an
existing key returns its position in `Keys()` plus `o` and leaves the object
as it was; selecting a missing key on a dictionary returns `n + o` and adds
the key after the existing ones with the empty array as value; a key vector
on a dictionary returns for every key its position among the keys after the
call plus `o`, the new keys being added once each in the order of their first
occurrence, so that new keys that are pairwise different receive
`n + o, n + o + 1, ...`; and a missing key on an object that is no dictionary
fails with `key does not exist`. -/
theorem objSelection_positions {K V : Type} [DecidableEq K] (asArray : K → Option (Arr K))
    (origin : Int) (emptyArray : V) :
    (∀ (R : ObjTarget K V) (s : K) (i : Nat), R.Keys.Nodup → asArray s = none →
      R.Keys[i]? = some s →
      objSelection asArray origin emptyArray R [s] = .ok (⟨[1], [(i : Int) + origin]⟩, R)) ∧
    (∀ (d : Dict K V) (s : K), d.K.Nodup → asArray s = none → s ∉ d.K →
      objSelection asArray origin emptyArray (.dict d) [s]
        = .ok (⟨[1], [(d.K.length : Int) + origin]⟩, .dict (d.set s emptyArray)) ∧
      (d.set s emptyArray).K = d.K ++ [s] ∧
      (d.set s emptyArray).K[d.K.length]? = some s ∧
      mapGet (d.set s emptyArray).M s = some emptyArray) ∧
    (∀ (d : Dict K V) (s : K) (as : Arr K), d.K.Nodup → asArray s = some as →
      ∃ d1, objSelection asArray origin emptyArray (.dict d) [s]
          = .ok (⟨[ArraySize as.Shape],
              (arrayElements as (ArraySize as.Shape)).map
                (fun k => (d1.K.indexOf k : Int) + origin)⟩, .dict d1) ∧
        d1.K = addNewKeys d.K (arrayElements as (ArraySize as.Shape)) ∧ d1.K.Nodup ∧
        (∀ k, mapGet d1.M k
          = if k ∈ arrayElements as (ArraySize as.Shape) ∧ k ∉ d.K then some emptyArray
            else mapGet d.M k) ∧
        ((arrayElements as (ArraySize as.Shape)).Nodup →
          (∀ k ∈ arrayElements as (ArraySize as.Shape), k ∉ d.K) →
          d1.K = d.K ++ arrayElements as (ArraySize as.Shape) ∧
          objSelection asArray origin emptyArray (.dict d) [s]
            = .ok (⟨[ArraySize as.Shape],
                (List.range (arrayElements as (ArraySize as.Shape)).length).map
                  (fun (j : Nat) => (d.K.length : Int) + origin + (j : Int))⟩, .dict d1))) ∧
    (∀ (Ks : List K) (s : K), Ks.Nodup → asArray s = none → s ∉ Ks →
      objSelection asArray origin emptyArray (ObjTarget.other Ks : ObjTarget K V) [s]
        = .err .keyMissing) ∧
    (∀ (Ks : List K) (s : K) (as : Arr K), Ks.Nodup → asArray s = some as →
      (∃ k ∈ arrayElements as (ArraySize as.Shape), k ∉ Ks) →
      objSelection asArray origin emptyArray (ObjTarget.other Ks : ObjTarget K V) [s]
        = .err .keyMissing) ∧
    (∀ (R : ObjTarget K V) (s : K) (as : Arr K), R.Keys.Nodup → asArray s = some as →
      (∀ k ∈ arrayElements as (ArraySize as.Shape), k ∈ R.Keys) →
      objSelection asArray origin emptyArray R [s]
        = .ok (⟨[ArraySize as.Shape],
            (arrayElements as (ArraySize as.Shape)).map
              (fun k => (R.Keys.indexOf k : Int) + origin)⟩, R)) := by
  refine ⟨fun R s i hnd ha hi => ?_, fun d s hnd ha hs => ?_, fun d s as hnd ha => ?_,
    fun Ks s hnd ha hs => ?_, fun Ks s as hnd ha hmiss => ?_,
    fun R s as hnd ha hall => ?_⟩
  · have hagree := keyPositions_init origin R.Keys hnd
    have hlt : i < R.Keys.length := by
      rcases Nat.lt_or_ge i R.Keys.length with h | h
      · exact h
      · rw [List.getElem?_eq_none h] at hi
        cases hi
    have hget : R.Keys[i] = s := by
      rw [List.getElem?_eq_getElem hlt] at hi
      exact Option.some.inj hi
    have hmem : s ∈ R.Keys := hget ▸ List.getElem_mem hlt
    have hidx : List.indexOf s R.Keys = i := by
      rw [← hget]
      exact List.indexOf_getElem hnd i hlt
    simp only [objSelection, ha, hagree.2 s, if_pos hmem, hidx]
  · have hagree := keyPositions_init origin d.K hnd
    have hset : d.set s emptyArray = ⟨d.K ++ [s], mapSet d.M s emptyArray⟩ := by
      simp [Dict.set, hs]
    refine ⟨?_, ?_, ?_, ?_⟩
    · simp only [objSelection, ObjTarget.Keys, ha, hagree.2 s, if_neg hs, hagree.1]
    · rw [hset]
    · rw [hset]
      simp
    · rw [hset]
      simp [mapGet_mapSet]
  · have hagree := keyPositions_init origin d.K hnd
    obtain ⟨d1, h1, h2, h3, h4⟩ := objSelectionLoop_dict origin emptyArray
      (arrayElements as (ArraySize as.Shape)) _ d hagree hnd
    have hsel : objSelection asArray origin emptyArray (.dict d) [s]
        = .ok (⟨[ArraySize as.Shape],
            (arrayElements as (ArraySize as.Shape)).map
              (fun k => (d1.K.indexOf k : Int) + origin)⟩, .dict d1) := by
      simp only [objSelection, ObjTarget.Keys, ha, h1]
    refine ⟨d1, hsel, h2, h3, h4, fun hks hnew => ?_⟩
    have hK : d1.K = d.K ++ arrayElements as (ArraySize as.Shape) := by
      rw [h2, addNewKeys_fresh _ _ hks hnew]
    refine ⟨hK, ?_⟩
    rw [hsel, hK, indexOf_new_keys origin d.K _ hks hnew]
  · have hagree := keyPositions_init origin Ks hnd
    simp only [objSelection, ObjTarget.Keys, ha, hagree.2 s, if_neg hs]
  · have hagree := keyPositions_init origin Ks hnd
    simp only [objSelection, ObjTarget.Keys, ha,
      objSelectionLoop_other origin emptyArray _ _ Ks Ks hagree hmiss]
  · have hagree := keyPositions_init origin R.Keys hnd
    simp only [objSelection, ha,
      objSelectionLoop_found origin emptyArray _ _ R.Keys R hagree hall]

/-- Instance of C26: with origin 1, the key vector `c a c d` on the dictionary
with the keys `a` and `b` returns the positions `3 1 3 4` and leaves the keys
`a b c d`; the repeated new key `c` is created once. -/
theorem objSelection_positions_witness :
    ∃ d1, objSelection demoAsArray 1 ObjValue.emptyArray (.dict demoDict)
        [.strs ["c", "a", "c", "d"]]
        = .ok (⟨[4], [3, 1, 3, 4]⟩, .dict d1) ∧
      d1.K = [.str "a", .str "b", .str "c", .str "d"] := by
  obtain ⟨d1, h1, h2, _, _, _⟩ :=
    (objSelection_positions demoAsArray 1 ObjValue.emptyArray).2.2.1 demoDict
      (.strs ["c", "a", "c", "d"])
      ⟨[4], fun i => .str (["c", "a", "c", "d"].getD i.toNat "")⟩ (by decide) rfl
  have hK : d1.K = [.str "a", .str "b", .str "c", .str "d"] := by
    rw [h2]
    decide
  have hints : (arrayElements
      (⟨[4], fun i => .str (["c", "a", "c", "d"].getD i.toNat "")⟩ : Arr ObjValue)
      (ArraySize [4])).map
        (fun k => ((List.indexOf k
          [ObjValue.str "a", ObjValue.str "b", ObjValue.str "c", ObjValue.str "d"] : Nat) : Int)
          + 1)
      = [3, 1, 3, 4] := by
    decide
  refine ⟨d1, ?_, hK⟩
  rw [h1, hK]
  exact congrArg (fun l => Outcome.ok ((⟨[4], l⟩ : IntArray), ObjTarget.dict d1)) hints


/-! ## Theorems on the selection of take and drop -/

/-- The result of `Take`, as the spec describes it, through the positions of
its elements. -/
theorem TakeSpec_positions {V E : Type} (zero : V) (b : IntArray) (A : Arr V) :
    (TakeSpec zero b A : Outcome (GeneralArray V) E)
      = .ok ⟨b.Ints.map Int.natAbs, (takePositions b.Ints A.Shape).map (elementAt zero A)⟩ := by
  simp only [TakeSpec, takePositions, List.map_map]
  congr 2
  apply List.map_congr_left
  intro i _
  simp only [Function.comp]
  split_ifs <;> rfl

/-- The result of `takedrop` on an array that is not the empty array is the
result of `Take` with the counts of `takedropCounts`. -/
theorem takedrop_counts {V T E : Type} (env : TakeEnv V T E) (ai : IntArray) (A : Arr V)
    (take : Bool) :
    takedrop env (.index ai) (.array A) take
      = (match (takedropCounts ai A.Shape take : Outcome IntArray (TakeError E)) with
        | .ok b => liftTake (env.Take b A)
        | .err e => .err e
        | .crash => .crash) := by
  unfold takedrop takedropCounts
  simp only [TDOperand.isEmptyArray, Bool.false_eq_true, false_and, if_false, takedropArray]
  by_cases h1 : ai.Dims.length > 1
  · simp only [if_pos h1]
  · simp only [if_neg h1]
    cases hd : ai.Dims with
    | nil => rfl
    | cons d0 ds =>
      simp only
      simp only [dodrop]
      split_ifs <;> rfl

/-- The last loop of `takeDropSelection` on positions shifted by one, with 0
for a fill element: it fails iff there is a fill element, and else returns the
positions. -/
theorem decrementAll_positions (shape : List Nat) (ps : List (Option Int))
    (hpos : ∀ p, some p ∈ ps → 0 ≤ p) :
    (none ∈ ps → decrementAll (ps.map (elementAt 0 (selectionSource shape))) = none) ∧
    (∀ os : List Int, ps = os.map some →
      decrementAll (ps.map (elementAt 0 (selectionSource shape))) = some os) := by
  induction ps with
  | nil =>
    refine ⟨fun h => absurd h (List.not_mem_nil _), fun os h => ?_⟩
    cases os with
    | nil => rfl
    | cons o os => simp at h
  | cons p ps ih =>
    obtain ⟨ih1, ih2⟩ := ih (fun q hq => hpos q (List.mem_cons_of_mem _ hq))
    cases p with
    | none =>
      refine ⟨fun _ => ?_, fun os h => ?_⟩
      · simp [decrementAll, elementAt]
      · cases os with
        | nil => simp at h
        | cons o os => simp at h
    | some o =>
      have ho : 0 ≤ o := hpos o (List.mem_cons_self _ _)
      have hneg : ¬ (o + 1 - 1 < 0) := by omega
      have hval : o + 1 - 1 = o := by omega
      have hhead : elementAt 0 (selectionSource shape) (some o) = o + 1 := rfl
      refine ⟨fun h => ?_, fun os h => ?_⟩
      · have hin : none ∈ ps := by
          rcases List.mem_cons.1 h with h | h
          · cases h
          · exact h
        rw [List.map_cons, hhead]
        simp only [decrementAll, if_neg hneg, ih1 hin]
      · cases os with
        | nil => simp at h
        | cons o2 os =>
          simp only [List.map_cons, List.cons.injEq, Option.some.injEq] at h
          obtain ⟨rfl, hps⟩ := h
          rw [List.map_cons, hhead]
          have hneg2 : ¬ o < 0 := by omega
          simp only [decrementAll, ih2 os hps, hval, if_neg hneg2]


/-- A multi-index has one entry per axis. -/
theorem unravel_length_eq (dims : List Nat) (i : Nat) : (unravel dims i).length = dims.length := by
  induction dims generalizing i with
  | nil => rfl
  | cons s ss ih => simp [unravel, ih]

/-- The source multi-index of `Take` has one entry per axis. -/
theorem takeIndex_length_eq (counts : List Int) (shape js : List Nat)
    (h1 : counts.length = shape.length) (h2 : js.length = shape.length) :
    (takeIndex counts shape js).length = shape.length := by
  induction counts generalizing shape js with
  | nil =>
    cases shape with
    | nil => rfl
    | cons e es => simp at h1
  | cons c cs ih =>
    cases shape with
    | nil => simp at h1
    | cons e es =>
      cases js with
      | nil => simp at h2
      | cons j js =>
        simp only [takeIndex, List.length_cons, Nat.add_right_cancel_iff]
        exact ih es js (by simpa using h1) (by simpa using h2)

/-- A multi-index within the shape has a flat position within the array. -/
theorem withinShape_bounds (shape : List Nat) (src : List Int)
    (hlen : src.length = shape.length) (h : withinShape src shape = true) :
    0 ≤ flatOffset shape src ∧ flatOffset shape src < (shape.prod : Int) := by
  induction shape generalizing src with
  | nil =>
    cases src with
    | nil => simp [flatOffset]
    | cons x xs => simp at hlen
  | cons s ss ih =>
    cases src with
    | nil => simp at hlen
    | cons x xs =>
      simp only [withinShape, Bool.and_eq_true, decide_eq_true_eq] at h
      obtain ⟨⟨hx0, hx1⟩, hrest⟩ := h
      obtain ⟨h0, h1⟩ := ih xs (by simpa using hlen) hrest
      simp only [flatOffset, List.prod_cons, Nat.cast_mul]
      have hP : (0 : Int) ≤ (ss.prod : Int) := Int.ofNat_nonneg _
      have hmul : 0 ≤ x * (ss.prod : Int) := Int.mul_nonneg hx0 hP
      have hle : (x + 1) * (ss.prod : Int) ≤ (s : Int) * (ss.prod : Int) :=
        Int.mul_le_mul_of_nonneg_right (by omega) hP
      have hexp : (x + 1) * (ss.prod : Int) = x * (ss.prod : Int) + (ss.prod : Int) := by ring
      constructor
      · omega
      · omega

/-- The positions of the elements of a take lie within the array. -/
theorem takePositions_bounds (counts : List Int) (shape : List Nat)
    (hlen : counts.length = shape.length) :
    ∀ p, some p ∈ takePositions counts shape → 0 ≤ p ∧ p < (shape.prod : Int) := by
  intro p hp
  simp only [takePositions, List.mem_map, List.mem_range] at hp
  obtain ⟨i, _, hi⟩ := hp
  split_ifs at hi with hw
  simp only [Option.some.injEq] at hi
  subst hi
  exact withinShape_bounds shape _
    (takeIndex_length_eq counts shape _ hlen
      (by rw [unravel_length_eq, List.length_map, hlen])) hw

/-- A list of positions without fill element is a list of positions. -/
theorem positions_all_some (ps : List (Option Int)) (h : none ∉ ps) :
    ps = ps.reduceOption.map some := by
  induction ps with
  | nil => rfl
  | cons p ps ih =>
    cases p with
    | none => exact absurd (List.mem_cons_self _ _) h
    | some o =>
      rw [List.reduceOption_cons_of_some, List.map_cons,
        ← ih (fun hn => h (List.mem_cons_of_mem _ hn))]

/-- The counts that `takedrop` hands to `Take` for a count vector are as many
as the array has axes. -/
theorem takedropCounts_length {E : Type} (ints : List Int) (shape : List Nat) (take : Bool)
    (b : IntArray)
    (h : (takedropCounts ⟨[ints.length], ints⟩ shape take : Outcome IntArray (TakeError E))
      = .ok b) :
    b.Ints.length = shape.length := by
  unfold takedropCounts at h
  simp only [List.length_singleton, gt_iff_lt, Nat.lt_irrefl, if_false] at h
  split_ifs at h with h1 h2 h3 h4 h5 h6 h7 <;>
    simp only [Outcome.ok.injEq, reduceCtorEq] at h <;> subst h <;>
    simp_all


/-- On the empty array, which has no axes, the selection with a count vector
of at least one count fails with the rank error of `takedrop`, for take and
for drop: the index array that stands for `R` is not the empty array, so the
special case of `takedrop` for the empty array is not taken. -/
theorem takeDropSelection_empty_rank {V T E : Type} (env : TakeEnv Int T E)
    (conv : TDResult Int T → Option TDCount) (hshape : env.EmptyArray.Shape = [])
    (ints : List Int) (take : Bool) (hlen : 1 ≤ ints.length) :
    takeDropSelection env conv (.index ⟨[ints.length], ints⟩)
        (TDOperand.emptyArray : TDOperand V) take
      = .err (.takedrop .rank) := by
  have hcounts : (takedropCounts ⟨[ints.length], ints⟩ [] take
      : Outcome IntArray (TakeError E)) = .err .rank := by
    have hne : ¬ ints.length = 0 := by omega
    simp [takedropCounts, hne]
  have htd : takedrop env (.index ⟨[ints.length], ints⟩)
      (.array (selectionSource env.EmptyArray.Shape)) take = .err .rank := by
    rw [takedrop_counts]
    have hs : (selectionSource env.EmptyArray.Shape).Shape = [] := hshape
    rw [hs, hcounts]
  simp only [takeDropSelection, htd]

/-- C22 (counterexample): on the empty array with the count 3, take returns
the vector `0 0 0` of three fill elements, and the selection of take fails
with the rank error of `takedrop`, not with the overtake error; and if the
empty array has one axis of extent 0, the selection of drop succeeds with no
position at all, where drop returns the three elements `0 0 0`. -/
theorem takeDropSelection_empty_array :
    take specTakeEnv (.index ⟨[1], [3]⟩) .emptyArray = .ok (.zeros ⟨[3], [0, 0, 0]⟩) ∧
    takeDropSelection specTakeEnv demoToIndexArray (.index ⟨[1], [3]⟩)
        (TDOperand.emptyArray : TDOperand Int) true
      = .err (.takedrop .rank) ∧
    takeDropSelection specTakeEnv demoToIndexArray (.index ⟨[1], [3]⟩)
        (TDOperand.emptyArray : TDOperand Int) true
      ≠ .err .overtake ∧
    drop specTakeEnvZero (.index ⟨[1], [3]⟩) .emptyArray = .ok (.zeros ⟨[3], [0, 0, 0]⟩) ∧
    takeDropSelection specTakeEnvZero demoToIndexArray (.index ⟨[1], [3]⟩)
        (TDOperand.emptyArray : TDOperand Int) false
      = .ok ⟨[0], []⟩ :=
  ⟨rfl, by decide, by decide, rfl, by decide⟩

/-- C22 (amended): with `Take` as the spec describes it and fill 0 on index
arrays, `takeDropSelection` fails on a value that is no array; for an array
`R` other than the empty array, with the empty count vector it returns all
flat positions of `R`; with a count vector it fails as take/drop on `R` fails,
and where take/drop on `R` returns an array `t`, the take/drop on the array
holding `1..size(R)` in the shape of `R` returns the positions of the elements
of `t` plus one, with 0 for a fill element: if `t` has a fill element the
selection fails with the overtake error, and else it returns, in the shape of
`t`, the flat positions in `R` of the elements of `t`, each in `[0, size(R))`;
the empty array is selected from as an array of its shape, so that, having no
axes, it makes the selection with a count vector of at least one count fail
with the rank error. -/
theorem takeDropSelection_positions {V E : Type} (zero : V)
    (envS : TakeEnv Int (GeneralArray Int) E) (env : TakeEnv V (GeneralArray V) E)
    (conv : TDResult Int (GeneralArray Int) → Option TDCount)
    (hS : envS.Take = TakeSpec 0) (hTake : env.Take = TakeSpec zero)
    (hconv : ∀ t, conv (.taken t) = some (.index ⟨t.Dims, t.Values⟩))
    (hsame : ∀ shape, conv (.unchanged (.array (selectionSource shape)))
      = some (.index ⟨shape,
          (List.range (ArraySize shape)).map (fun (i : Nat) => (i : Int) + 1)⟩)) :
    (∀ (L : TDCount) (v : V) (take : Bool),
      takeDropSelection envS conv L (.scalar v) take = .err .notArray) ∧
    (∀ (A : Arr V) (take : Bool),
      takeDropSelection envS conv .emptyArray (.array A) take
        = .ok ⟨A.Shape, (List.range (ArraySize A.Shape)).map (fun (i : Nat) => (i : Int))⟩ ∧
      takedrop env .emptyArray (.array A) take = .ok (.unchanged (.array A))) ∧
    (∀ (ints : List Int) (A : Arr V) (take : Bool),
      (∀ e, takedrop env (.index ⟨[ints.length], ints⟩) (.array A) take = .err e →
        takeDropSelection envS conv (.index ⟨[ints.length], ints⟩) (.array A) take
          = .err (.takedrop e)) ∧
      (∀ t, takedrop env (.index ⟨[ints.length], ints⟩) (.array A) take = .ok (.taken t) →
        ∃ b, (takedropCounts ⟨[ints.length], ints⟩ A.Shape take
            : Outcome IntArray (TakeError E)) = .ok b ∧
          t = ⟨b.Ints.map Int.natAbs,
            (takePositions b.Ints A.Shape).map (elementAt zero A)⟩ ∧
          takedrop envS (.index ⟨[ints.length], ints⟩) (.array (selectionSource A.Shape)) take
            = .ok (.taken ⟨t.Dims, (takePositions b.Ints A.Shape).map
                (fun p => match p with
                  | some o => o + 1
                  | none => 0)⟩) ∧
          (none ∈ takePositions b.Ints A.Shape →
            takeDropSelection envS conv (.index ⟨[ints.length], ints⟩) (.array A) take
              = .err .overtake) ∧
          (none ∉ takePositions b.Ints A.Shape →
            ∃ os, takePositions b.Ints A.Shape = os.map some ∧
              takeDropSelection envS conv (.index ⟨[ints.length], ints⟩) (.array A) take
                = .ok ⟨t.Dims, os⟩ ∧
              t.Values = os.map A.At ∧
              ∀ p ∈ os, 0 ≤ p ∧ p < (ArraySize A.Shape : Int))) ∧
      (∀ sel, takeDropSelection envS conv (.index ⟨[ints.length], ints⟩) (.array A) take
          = .ok sel →
        ∃ t, takedrop env (.index ⟨[ints.length], ints⟩) (.array A) take = .ok (.taken t) ∧
          t.Dims = sel.Dims ∧ t.Values = sel.Ints.map A.At ∧
          ∀ p ∈ sel.Ints, 0 ≤ p ∧ p < (ArraySize A.Shape : Int))) ∧
    (∀ (L : TDCount) (take : Bool),
      takeDropSelection envS conv L (TDOperand.emptyArray : TDOperand V) take
        = takeDropSelection envS conv L (.array envS.EmptyArray) take) ∧
    (envS.EmptyArray.Shape = [] → ∀ (ints : List Int) (take : Bool), 1 ≤ ints.length →
      takeDropSelection envS conv (.index ⟨[ints.length], ints⟩)
          (TDOperand.emptyArray : TDOperand V) take
        = .err (.takedrop .rank)) := by
  refine ⟨fun L v take => rfl, fun A take => ⟨?_, rfl⟩, fun ints A take => ?_,
    fun L take => rfl,
    fun hshape ints take hlen => takeDropSelection_empty_rank envS conv hshape ints take hlen⟩
  · have hdec : ∀ n : Nat,
        decrementAll ((List.range n).map (fun (i : Nat) => (i : Int) + 1))
          = some ((List.range n).map (fun (i : Nat) => (i : Int))) := by
      intro n
      have h := (decrementAll_positions A.Shape
        ((List.range n).map (fun (i : Nat) => some (i : Int)))
        (fun p hp => by
          simp only [List.mem_map, List.mem_range, Option.some.injEq] at hp
          obtain ⟨i, _, rfl⟩ := hp
          exact Int.ofNat_nonneg i)).2
        ((List.range n).map (fun (i : Nat) => (i : Int))) (by simp [List.map_map])
      simp only [List.map_map] at h
      exact h
    simp only [takeDropSelection, takedrop, hsame, hdec]
  · -- the real take/drop and the one on the index array, through the counts
    have hreal := takedrop_counts env ⟨[ints.length], ints⟩ A take
    have hsyn := takedrop_counts envS ⟨[ints.length], ints⟩ (selectionSource A.Shape) take
    have hshape : (selectionSource A.Shape).Shape = A.Shape := rfl
    rw [hshape] at hsyn
    have hmapS : ∀ ps : List (Option Int),
        ps.map (elementAt 0 (selectionSource A.Shape))
          = ps.map (fun p => match p with
              | some o => o + 1
              | none => 0) := by
      intro ps
      apply List.map_congr_left
      intro p _
      cases p <;> rfl
    cases hc : (takedropCounts ⟨[ints.length], ints⟩ A.Shape take
        : Outcome IntArray (TakeError E)) with
    | err e0 =>
      rw [hc] at hreal hsyn
      simp only at hreal hsyn
      refine ⟨fun e he => ?_, fun t ht => ?_, fun sel hsel => ?_⟩
      · rw [hreal] at he
        simp only [Outcome.err.injEq] at he
        subst he
        simp only [takeDropSelection, hsyn]
      · rw [hreal] at ht
        cases ht
      · simp only [takeDropSelection, hsyn] at hsel
        cases hsel
    | crash =>
      rw [hc] at hreal hsyn
      simp only at hreal hsyn
      refine ⟨fun e he => ?_, fun t ht => ?_, fun sel hsel => ?_⟩
      · rw [hreal] at he
        cases he
      · rw [hreal] at ht
        cases ht
      · simp only [takeDropSelection, hsyn] at hsel
        cases hsel
    | ok b =>
      rw [hc] at hreal hsyn
      simp only [hTake, TakeSpec_positions, liftTake] at hreal
      simp only [hS, TakeSpec_positions, liftTake, hshape] at hsyn
      have hblen : b.Ints.length = A.Shape.length := takedropCounts_length ints A.Shape take b hc
      have hbounds := takePositions_bounds b.Ints A.Shape hblen
      have hfill : none ∈ takePositions b.Ints A.Shape →
          takeDropSelection envS conv (.index ⟨[ints.length], ints⟩) (.array A) take
            = .err .overtake := by
        intro hn
        simp only [takeDropSelection, hsyn, hconv,
          (decrementAll_positions A.Shape _ (fun p hp => (hbounds p hp).1)).1 hn]
      have hnofill : none ∉ takePositions b.Ints A.Shape →
          takeDropSelection envS conv (.index ⟨[ints.length], ints⟩) (.array A) take
            = .ok ⟨b.Ints.map Int.natAbs, (takePositions b.Ints A.Shape).reduceOption⟩ := by
        intro hn
        simp only [takeDropSelection, hsyn, hconv,
          (decrementAll_positions A.Shape _ (fun p hp => (hbounds p hp).1)).2 _
            (positions_all_some _ hn)]
      have hvals : none ∉ takePositions b.Ints A.Shape →
          (takePositions b.Ints A.Shape).map (elementAt zero A)
            = (takePositions b.Ints A.Shape).reduceOption.map A.At := by
        intro hn
        conv_lhs => rw [positions_all_some _ hn]
        rw [List.map_map]
        rfl
      have hin : none ∉ takePositions b.Ints A.Shape →
          ∀ p ∈ (takePositions b.Ints A.Shape).reduceOption,
            0 ≤ p ∧ p < (ArraySize A.Shape : Int) := by
        intro hn p hp
        apply hbounds p
        rw [positions_all_some _ hn]
        exact List.mem_map_of_mem _ hp
      refine ⟨fun e he => ?_, fun t ht => ?_, fun sel hsel => ?_⟩
      · rw [hreal] at he
        cases he
      · rw [hreal] at ht
        simp only [Outcome.ok.injEq, TDResult.taken.injEq] at ht
        subst ht
        refine ⟨b, rfl, rfl, ?_, hfill, fun hn => ?_⟩
        · rw [hsyn, hmapS]
        · exact ⟨_, positions_all_some _ hn, hnofill hn, hvals hn, hin hn⟩
      · by_cases hn : none ∈ takePositions b.Ints A.Shape
        · rw [hfill hn] at hsel
          cases hsel
        · rw [hnofill hn] at hsel
          simp only [Outcome.ok.injEq] at hsel
          subst hsel
          exact ⟨_, hreal, rfl, hvals hn, hin hn⟩


/-- Instance of C22: on the vector `10, ..., 14`, taking the last two elements
selects the flat positions 3 and 4, where take returns the elements at these
positions; taking seven elements fails with the overtake error. -/
theorem takeDropSelection_positions_witness :
    (∃ t : GeneralArray Int,
      takedrop specTakeEnv (.index ⟨[1], [-2]⟩) (.array demoVector) true = .ok (.taken t) ∧
      t.Dims = [2] ∧ t.Values = [3, 4].map demoVector.At ∧
      ∀ p ∈ [(3 : Int), 4], 0 ≤ p ∧ p < (ArraySize demoVector.Shape : Int)) ∧
    takeDropSelection specTakeEnv demoToIndexArray (.index ⟨[1], [7]⟩) (.array demoVector) true
      = .err .overtake := by
  have h := takeDropSelection_positions (0 : Int) specTakeEnv specTakeEnv demoToIndexArray
    rfl rfl (fun _ => rfl) (fun _ => rfl)
  refine ⟨(h.2.2.1 [-2] demoVector true).2.2 ⟨[2], [3, 4]⟩ (by decide), ?_⟩
  obtain ⟨b, hb, _, _, hfill, _⟩ := (h.2.2.1 [7] demoVector true).2.1 _ rfl
  have hb2 : b = ⟨[1], [7]⟩ := by
    have hc : (takedropCounts ⟨[1], [7]⟩ demoVector.Shape true
        : Outcome IntArray (TakeError Unit)) = .ok ⟨[1], [7]⟩ := rfl
    rw [show ([7] : List Int).length = 1 from rfl, hc] at hb
    exact (Outcome.ok.inj hb).symm
  subst hb2
  exact hfill (by decide)


/-! ## Theorems on tables -/

/-- Rows within a column are read without panic, in their order. -/
theorem pickRows_ok {V : Type} (col : List V) (js : List Int)
    (h : ∀ j ∈ js, 0 ≤ j ∧ j < (col.length : Int)) :
    ∃ vs, pickRows col js = .ok vs ∧ vs.map some = js.map (fun j => col[j.toNat]?) := by
  induction js with
  | nil => exact ⟨[], rfl, rfl⟩
  | cons j js ih =>
    obtain ⟨vs, h1, h2⟩ := ih (fun j2 hj2 => h j2 (List.mem_cons_of_mem _ hj2))
    obtain ⟨h0, hlt⟩ := h j (List.mem_cons_self _ _)
    have hneg : ¬ j < 0 := by omega
    have hnat : j.toNat < col.length := by omega
    refine ⟨col[j.toNat] :: vs, ?_, ?_⟩
    · simp only [pickRows, if_neg hneg, List.getElem?_eq_getElem hnat, h1]
    · simp only [List.map_cons, h2, List.getElem?_eq_getElem hnat]

/-- The rows relative to the origin, when all of them lie within the table. -/
theorem normRows_ok (origin rows : Int) (rs : List Int)
    (h : ∀ r ∈ rs, 0 ≤ normRow origin rows r ∧ normRow origin rows r < rows) :
    normRows origin rows rs = some (rs.map (normRow origin rows)) := by
  induction rs with
  | nil => rfl
  | cons r rs ih =>
    obtain ⟨h0, h1⟩ := h r (List.mem_cons_self _ _)
    have hr : ¬ (normRow origin rows r < 0 ∨ normRow origin rows r ≥ rows) := by omega
    simp only [normRows, if_neg hr, ih (fun r2 hr2 => h r2 (List.mem_cons_of_mem _ hr2)),
      List.map_cons]

/-- A row outside the table ends the loop over the rows with the error. -/
theorem normRows_none (origin rows : Int) (rs : List Int)
    (h : ∃ r ∈ rs, normRow origin rows r < 0 ∨ rows ≤ normRow origin rows r) :
    normRows origin rows rs = none := by
  induction rs with
  | nil =>
    obtain ⟨r, hr, _⟩ := h
    cases hr
  | cons r rs ih =>
    by_cases hr : normRow origin rows r < 0 ∨ normRow origin rows r ≥ rows
    · simp only [normRows, if_pos hr]
    · have hrest : ∃ r2 ∈ rs, normRow origin rows r2 < 0 ∨ rows ≤ normRow origin rows r2 := by
        obtain ⟨r2, hr2, hout⟩ := h
        rcases List.mem_cons.1 hr2 with rfl | hr2
        · exact absurd (by omega) hr
        · exact ⟨r2, hr2, hout⟩
      simp only [normRows, if_neg hr, ih hrest]

/-- The values of a row, one per key, when every key names a column that has
the row. -/
theorem tableRow_ok {V : Type} (t : Table V) (r : Int) (keys : List String) (h0 : 0 ≤ r)
    (h : ∀ k ∈ keys, ∃ col, mapGet t.M k = some col ∧ r < (col.length : Int)) :
    ∃ vs, tableRow t r keys = .ok vs ∧
      vs.map some = keys.map (fun k => (mapGet t.M k).bind (fun col => col[r.toNat]?)) := by
  induction keys with
  | nil => exact ⟨[], rfl, rfl⟩
  | cons k ks ih =>
    obtain ⟨vs, h1, h2⟩ := ih (fun k2 hk2 => h k2 (List.mem_cons_of_mem _ hk2))
    obtain ⟨col, hc, hlt⟩ := h k (List.mem_cons_self _ _)
    have hneg : ¬ r < 0 := by omega
    have hnat : r.toNat < col.length := by omega
    refine ⟨col[r.toNat] :: vs, ?_, ?_⟩
    · simp only [tableRow, hc, if_neg hneg, List.getElem?_eq_getElem hnat, h1]
    · simp only [List.map_cons, h2, hc, Option.some_bind, List.getElem?_eq_getElem hnat]

/-- The last loop of `tableIndex` when every key names a column that has the
rows: the keys in their order, and under each key its column at the rows. -/
theorem tableColumns_ok {V : Type} (t : Table V) (rows : List Int) (keys : List String)
    (d : Dict String (List V))
    (h : ∀ k ∈ keys, ∃ col, mapGet t.M k = some col ∧
      ∀ j ∈ rows, 0 ≤ j ∧ j < (col.length : Int)) :
    ∃ d1, tableColumns t rows keys d = .ok d1 ∧ d1.K = d.K ++ keys ∧
      ∀ k, mapGet d1.M k = if k ∈ keys then columnAt t rows k else mapGet d.M k := by
  induction keys generalizing d with
  | nil => exact ⟨d, rfl, by simp, by simp⟩
  | cons key rest ih =>
    obtain ⟨col, hc, hin⟩ := h key (List.mem_cons_self _ _)
    obtain ⟨c, hp, _⟩ := pickRows_ok col rows hin
    obtain ⟨d1, h1, h2, h3⟩ := ih ⟨d.K ++ [key], mapSet d.M key c⟩
      (fun k hk => h k (List.mem_cons_of_mem _ hk))
    have hcol : columnAt t rows key = some c := by
      simp only [columnAt, hc, hp]
    refine ⟨d1, ?_, ?_, fun k => ?_⟩
    · simp only [tableColumns, hc, hp]
      exact h1
    · rw [h2]
      simp
    · rw [h3 k, mapGet_mapSet]
      by_cases hk : k ∈ rest
      · simp [hk]
      · by_cases hkey : key = k
        · subst hkey
          simp [hk, hcol]
        · have hkey2 : ¬ k = key := fun h => hkey h.symm
          simp [hk, hkey, hkey2]

/-- The last loop of `tableIndex` fails with `column does not exist` when a
key names no column. -/
theorem tableColumns_missing {V : Type} (t : Table V) (rows : List Int) (keys : List String)
    (d : Dict String (List V))
    (hin : ∀ k col, mapGet t.M k = some col → ∀ j ∈ rows, 0 ≤ j ∧ j < (col.length : Int))
    (h : ∃ k ∈ keys, mapGet t.M k = none) :
    tableColumns t rows keys d = .err .columnMissing := by
  induction keys generalizing d with
  | nil =>
    obtain ⟨k, hk, _⟩ := h
    cases hk
  | cons key rest ih =>
    cases hc : mapGet t.M key with
    | none => simp only [tableColumns, hc]
    | some col =>
      obtain ⟨c, hp, _⟩ := pickRows_ok col rows (hin key col hc)
      simp only [tableColumns, hc, hp]
      apply ih
      obtain ⟨k, hk, hn⟩ := h
      rcases List.mem_cons.1 hk with rfl | hk
      · rw [hc] at hn
        cases hn
      · exact ⟨k, hk, hn⟩


/-- The normalized rows of `tableIndex` when all rows lie within the table. -/
theorem tableIndex_normed (origin rows : Int) (rs : Option (List Int))
    (h : ∀ l, rs = some l → ∀ r ∈ l, 0 ≤ normRow origin rows r ∧ normRow origin rows r < rows) :
    normRowsOpt origin rows rs = some (rs.map (List.map (normRow origin rows))) := by
  cases rs with
  | none => rfl
  | some l => simp only [normRowsOpt, normRows_ok origin rows l (h l rfl), Option.map_some']

/-- A single row together with an explicit empty second field: the list of
the values of the row, one per column, in key order. -/
theorem tableIndex_list {S V : Type} (env : TableEnv S) (t : Table V)
    (hkeys : ∀ k ∈ t.K, mapGet t.M k ≠ none)
    (hcols : ∀ k col, mapGet t.M k = some col → (col.length : Int) = t.Rows)
    (s0 s1 : S) (r : Int) (h1 : env.isEmpty s1 = true) (h0 : env.isEmpty s0 = false)
    (hr : env.toInts s0 = some [r])
    (hlo : 0 ≤ normRow env.Origin t.Rows r) (hhi : normRow env.Origin t.Rows r < t.Rows) :
    ∃ vs, tableIndex env t [s0, s1] = .ok (.list vs) ∧
      vs.map some = t.K.map (fun k =>
        (mapGet t.M k).bind (fun col => col[(normRow env.Origin t.Rows r).toNat]?)) := by
  have hf : tableFields env t [s0, s1] = .ok (true, t.K, some [r]) := by
    simp [tableFields, tableFirstField, h1, h0, hr]
  have hn : normRows env.Origin t.Rows [r] = some [normRow env.Origin t.Rows r] :=
    normRows_ok _ _ [r] (fun r2 hr2 => by
      have : r2 = r := by simpa using hr2
      subst this
      exact ⟨hlo, hhi⟩)
  obtain ⟨vs, hv1, hv2⟩ := tableRow_ok t (normRow env.Origin t.Rows r) t.K hlo
    (fun k hk => by
      cases hc : mapGet t.M k with
      | none => exact absurd hc (hkeys k hk)
      | some col => exact ⟨col, rfl, by rw [hcols k col hc]; exact hhi⟩)
  refine ⟨vs, ?_, hv2⟩
  simp only [tableIndex, hf, normRowsOpt, hn, hv1]

/-- A single row and a single column key: the value of the cell, or the error
`column does not exist`. -/
theorem tableIndex_cell {S V : Type} (env : TableEnv S) (t : Table V)
    (hcols : ∀ k col, mapGet t.M k = some col → (col.length : Int) = t.Rows)
    (s0 s1 : S) (r : Int) (k : String) (h1 : env.isEmpty s1 = false)
    (hk : env.toStrings s1 = some [k]) (h0 : env.isEmpty s0 = false)
    (hr : env.toInts s0 = some [r])
    (hlo : 0 ≤ normRow env.Origin t.Rows r) (hhi : normRow env.Origin t.Rows r < t.Rows) :
    (∀ col, mapGet t.M k = some col →
      ∃ v, tableIndex env t [s0, s1] = .ok (.cell v) ∧
        col[(normRow env.Origin t.Rows r).toNat]? = some v) ∧
    (mapGet t.M k = none → tableIndex env t [s0, s1] = .err .columnMissing) := by
  have hf : tableFields env t [s0, s1] = .ok (false, [k], some [r]) := by
    simp [tableFields, tableFirstField, h1, h0, hr, hk]
  have hn : normRows env.Origin t.Rows [r] = some [normRow env.Origin t.Rows r] :=
    normRows_ok _ _ [r] (fun r2 hr2 => by
      have : r2 = r := by simpa using hr2
      subst this
      exact ⟨hlo, hhi⟩)
  have hneg : ¬ normRow env.Origin t.Rows r < 0 := by omega
  refine ⟨fun col hc => ?_, fun hc => ?_⟩
  · have hnat : (normRow env.Origin t.Rows r).toNat < col.length := by
      have := hcols k col hc
      omega
    refine ⟨col[(normRow env.Origin t.Rows r).toNat], ?_, List.getElem?_eq_getElem hnat⟩
    simp [tableIndex, hf, normRowsOpt, hn, hc, hneg, List.getElem?_eq_getElem hnat]
  · simp [tableIndex, hf, normRowsOpt, hn, hc]


/-- Every case that is neither the single row with an empty second field nor
the single row with a single key: the sub-table of the selected rows of the
selected columns, or the error `column does not exist`. -/
theorem tableIndex_sub {S V : Type} (env : TableEnv S) (t : Table V)
    (hcols : ∀ k col, mapGet t.M k = some col → (col.length : Int) = t.Rows)
    (spec : List S) (ek : Bool) (keys : List String) (rows : Option (List Int))
    (hf : tableFields env t spec = .ok (ek, keys, rows))
    (hin : ∀ rs, rows = some rs →
      ∀ r ∈ rs, 0 ≤ normRow env.Origin t.Rows r ∧ normRow env.Origin t.Rows r < t.Rows)
    (hlist : ¬ (ek = true ∧ ∃ r, rows = some [r]))
    (hcell : ¬ (spec.length = 2 ∧ keys.length = 1 ∧ ∃ r, rows = some [r])) :
    ((∀ k ∈ keys, mapGet t.M k ≠ none) →
      ∃ st, tableIndex env t spec = .ok (.table st) ∧ st.K = keys ∧
        st.Rows = tableRowCount t.Rows rows ∧
        ∀ k ∈ keys, ∃ col sel, mapGet t.M k = some col ∧ mapGet st.M k = some sel ∧
          sel.map some
            = (selectedRows t.Rows (rows.map (List.map (normRow env.Origin t.Rows)))).map
                (fun j => col[j.toNat]?)) ∧
    ((∃ k ∈ keys, mapGet t.M k = none) → tableIndex env t spec = .err .columnMissing) := by
  have hsel : ∀ k col, mapGet t.M k = some col →
      ∀ j ∈ selectedRows t.Rows (rows.map (List.map (normRow env.Origin t.Rows))),
        0 ≤ j ∧ j < (col.length : Int) := by
    intro k col hc j hj
    rw [hcols k col hc]
    cases rows with
    | none =>
      simp only [Option.map_none', selectedRows, List.mem_map, List.mem_range] at hj
      obtain ⟨i, hi, rfl⟩ := hj
      omega
    | some rs =>
      simp only [Option.map_some', selectedRows, List.mem_map] at hj
      obtain ⟨r, hr, rfl⟩ := hj
      exact hin rs rfl r hr
  have hcell2 : ¬ (spec.length = 2 ∧ keys.length = 1 ∧
      ((rows.map (List.map (normRow env.Origin t.Rows))).map List.length) = some 1) := by
    rintro ⟨h1, h2, h3⟩
    apply hcell
    refine ⟨h1, h2, ?_⟩
    cases rows with
    | none => simp at h3
    | some rs =>
      match rs, h3 with
      | [r], _ => exact ⟨r, rfl⟩
  have hrows : tableRowCount t.Rows (rows.map (List.map (normRow env.Origin t.Rows)))
      = tableRowCount t.Rows rows := by
    cases rows with
    | none => rfl
    | some rs => simp [tableRowCount]
  have hbody : tableIndex env t spec
      = (match tableColumns t
            (selectedRows t.Rows (rows.map (List.map (normRow env.Origin t.Rows)))) keys
            ⟨[], []⟩ with
        | .ok d => .ok (.table ⟨tableRowCount t.Rows rows, d.K, d.M⟩)
        | .err e => .err e
        | .crash => .crash) := by
    unfold tableIndex
    simp only [hf, tableIndex_normed env.Origin t.Rows rows hin]
    split
    · rename_i _ _ hrows2
      exfalso
      apply hlist
      refine ⟨rfl, ?_⟩
      cases rows with
      | none => simp at hrows2
      | some rs =>
        simp only [Option.map_some', Option.some.injEq] at hrows2
        match rs, hrows2 with
        | [r0], _ => exact ⟨r0, rfl⟩
    · rw [if_neg hcell2, hrows]
  refine ⟨fun hall => ?_, fun hmiss => ?_⟩
  · obtain ⟨d, hd1, hd2, hd3⟩ := tableColumns_ok t
      (selectedRows t.Rows (rows.map (List.map (normRow env.Origin t.Rows)))) keys ⟨[], []⟩
      (fun k hk => by
        cases hc : mapGet t.M k with
        | none => exact absurd hc (hall k hk)
        | some col => exact ⟨col, rfl, hsel k col hc⟩)
    refine ⟨⟨tableRowCount t.Rows rows, d.K, d.M⟩, ?_, ?_, rfl, fun k hk => ?_⟩
    · rw [hbody, hd1]
    · simpa using hd2
    · cases hc : mapGet t.M k with
      | none => exact absurd hc (hall k hk)
      | some col =>
        obtain ⟨sel, hp1, hp2⟩ := pickRows_ok col _ (hsel k col hc)
        refine ⟨col, sel, rfl, ?_, hp2⟩
        simp only
        rw [hd3 k, if_pos hk]
        simp only [columnAt, hc, hp1]
  · rw [hbody, tableColumns_missing t _ keys ⟨[], []⟩ hsel hmiss]


/-- C28 (counterexample): with two fields and rows within the table, a column
key that names no column makes `tableIndex` fail with `column does not exist`:
for the single row 0 and the single key `c` the result is not the value of a
cell, and for the rows 0 and 1 and the keys `a` and `c` it is not a
sub-table. -/
theorem tableIndex_missing_column :
    ([TableField.rows [0], TableField.keys ["c"]]).length = 2 ∧
    (0 ≤ normRow demoTableEnv.Origin demoTable.Rows 0 ∧
      normRow demoTableEnv.Origin demoTable.Rows 0 < demoTable.Rows) ∧
    tableIndex demoTableEnv demoTable [.rows [0], .keys ["c"]] = .err .columnMissing ∧
    tableIndex demoTableEnv demoTable [.rows [0, 1], .keys ["a", "c"]]
      = .err .columnMissing := by
  decide

/-- C28 (amended): for a table whose keys all name columns of `Rows` values,
a spec with zero or more than two fields fails; a row outside `[0, Rows)`,
after origin conversion and with negative values counting from the end, fails
with `table index out of range`; with rows within the table, a single row
together with an explicit empty second field gives the list of the values of
the row, one per column in key order; a single row and a single column key
give the value of the cell if the key names a column, and the error
`column does not exist` if not; and every other case gives the sub-table of
the selected rows (all rows for an empty row field) of the selected columns
if all keys name columns, and the error `column does not exist` if not. -/
theorem tableIndex_kinds {S V : Type} (env : TableEnv S) (t : Table V)
    (hkeys : ∀ k ∈ t.K, mapGet t.M k ≠ none)
    (hcols : ∀ k col, mapGet t.M k = some col → (col.length : Int) = t.Rows) :
    (∀ spec : List S, spec.length = 0 ∨ 2 < spec.length →
      tableIndex env t spec = .err .fields) ∧
    (∀ (spec : List S) (ek : Bool) (keys : List String) (rs : List Int),
      tableFields env t spec = .ok (ek, keys, some rs) →
      (∃ r ∈ rs, normRow env.Origin t.Rows r < 0 ∨ t.Rows ≤ normRow env.Origin t.Rows r) →
      tableIndex env t spec = .err .outOfRange) ∧
    (∀ (s0 s1 : S) (r : Int), env.isEmpty s1 = true → env.isEmpty s0 = false →
      env.toInts s0 = some [r] →
      0 ≤ normRow env.Origin t.Rows r → normRow env.Origin t.Rows r < t.Rows →
      ∃ vs, tableIndex env t [s0, s1] = .ok (.list vs) ∧
        vs.map some = t.K.map (fun k =>
          (mapGet t.M k).bind (fun col => col[(normRow env.Origin t.Rows r).toNat]?))) ∧
    (∀ (s0 s1 : S) (r : Int) (k : String), env.isEmpty s1 = false →
      env.toStrings s1 = some [k] → env.isEmpty s0 = false → env.toInts s0 = some [r] →
      0 ≤ normRow env.Origin t.Rows r → normRow env.Origin t.Rows r < t.Rows →
      (∀ col, mapGet t.M k = some col →
        ∃ v, tableIndex env t [s0, s1] = .ok (.cell v) ∧
          col[(normRow env.Origin t.Rows r).toNat]? = some v) ∧
      (mapGet t.M k = none → tableIndex env t [s0, s1] = .err .columnMissing)) ∧
    (∀ (spec : List S) (ek : Bool) (keys : List String) (rows : Option (List Int)),
      tableFields env t spec = .ok (ek, keys, rows) →
      (∀ rs, rows = some rs →
        ∀ r ∈ rs, 0 ≤ normRow env.Origin t.Rows r ∧ normRow env.Origin t.Rows r < t.Rows) →
      ¬ (ek = true ∧ ∃ r, rows = some [r]) →
      ¬ (spec.length = 2 ∧ keys.length = 1 ∧ ∃ r, rows = some [r]) →
      ((∀ k ∈ keys, mapGet t.M k ≠ none) →
        ∃ st, tableIndex env t spec = .ok (.table st) ∧ st.K = keys ∧
          st.Rows = tableRowCount t.Rows rows ∧
          ∀ k ∈ keys, ∃ col sel, mapGet t.M k = some col ∧ mapGet st.M k = some sel ∧
            sel.map some
              = (selectedRows t.Rows (rows.map (List.map (normRow env.Origin t.Rows)))).map
                  (fun j => col[j.toNat]?)) ∧
      ((∃ k ∈ keys, mapGet t.M k = none) → tableIndex env t spec = .err .columnMissing)) ∧
    (∀ s0 : S,
      (env.isEmpty s0 = true → tableFields env t [s0] = .ok (true, t.K, none)) ∧
      (∀ rs, env.isEmpty s0 = false → env.toInts s0 = some rs →
        tableFields env t [s0] = .ok (false, t.K, some rs))) ∧
    (∀ s0 s1 : S, env.isEmpty s1 = true →
      (env.isEmpty s0 = true → tableFields env t [s0, s1] = .ok (true, t.K, none)) ∧
      (∀ rs, env.isEmpty s0 = false → env.toInts s0 = some rs →
        tableFields env t [s0, s1] = .ok (true, t.K, some rs))) ∧
    (∀ (s0 s1 : S) (ks : List String), env.isEmpty s1 = false → env.toStrings s1 = some ks →
      (env.isEmpty s0 = true → tableFields env t [s0, s1] = .ok (true, ks, none)) ∧
      (∀ rs, env.isEmpty s0 = false → env.toInts s0 = some rs →
        tableFields env t [s0, s1] = .ok (false, ks, some rs))) := by
  refine ⟨fun spec h => ?_, fun spec ek keys rs hf hout => ?_,
    fun s0 s1 r h1 h0 hr hlo hhi => tableIndex_list env t hkeys hcols s0 s1 r h1 h0 hr hlo hhi,
    fun s0 s1 r k h1 hk h0 hr hlo hhi =>
      tableIndex_cell env t hcols s0 s1 r k h1 hk h0 hr hlo hhi,
    fun spec ek keys rows hf hin hlist hcell =>
      tableIndex_sub env t hcols spec ek keys rows hf hin hlist hcell,
    fun s0 => ⟨fun h0 => ?_, fun rs h0 hr => ?_⟩,
    fun s0 s1 h1 => ⟨fun h0 => ?_, fun rs h0 hr => ?_⟩,
    fun s0 s1 ks h1 hk => ⟨fun h0 => ?_, fun rs h0 hr => ?_⟩⟩
  · have hf : tableFields env t spec = .err .fields := by
      match spec, h with
      | [], _ => rfl
      | [_], h => simp at h
      | [_, _], h => simp at h
      | _ :: _ :: _ :: _, _ => rfl
    simp only [tableIndex, hf]
  · simp only [tableIndex, hf, normRowsOpt, normRows_none env.Origin t.Rows rs hout]
  · simp [tableFields, tableFirstField, h0]
  · simp [tableFields, tableFirstField, h0, hr]
  · simp [tableFields, tableFirstField, h1, h0]
  · simp [tableFields, tableFirstField, h1, h0, hr]
  · simp [tableFields, tableFirstField, h1, hk, h0]
  · simp [tableFields, tableFirstField, h1, hk, h0, hr]

/-- Instance of C28: in the table with the columns `a` and `b` and three
rows, with origin 0, the row 1 with an empty second field gives a list with
the values of the two columns at row 1. -/
theorem tableIndex_kinds_witness :
    ∃ vs, tableIndex demoTableEnv demoTable [.rows [1], .empty] = .ok (.list vs) ∧
      vs.map some = demoTable.K.map (fun k =>
        (mapGet demoTable.M k).bind
          (fun col => col[(normRow demoTableEnv.Origin demoTable.Rows 1).toNat]?)) := by
  have hcols : ∀ k col, mapGet demoTable.M k = some col →
      (col.length : Int) = demoTable.Rows := by
    intro k col h
    simp only [demoTable, mapGet] at h
    split_ifs at h
    · simp only [Option.some.injEq] at h
      subst h
      rfl
    · simp only [Option.some.injEq] at h
      subst h
      rfl
  exact (tableIndex_kinds demoTableEnv demoTable (by decide) hcols).2.2.1
    (.rows [1]) .empty 1 rfl rfl rfl (by decide) (by decide)


/-! ## Theorems on the domain of indexes -/

/-- C31: `ToIndex(nil)` accepts a value iff it is a Bool, an Index, or a Number
whose `ToIndex` conversion succeeds; it maps true to Index 1, false to Index 0,
an Index to itself and a convertible Number `n` to `Index(n.ToIndex())`; every
accepted result is an Index, and every rejected value is returned unchanged. -/
theorem indexTo_domain {V : Type} (env : IndexEnv V)
    (hindex : ∀ i, env.asIndex (env.index i) = some i) (V0 : V) :
    ((indexTo env none V0).2 = true ↔
      (env.asBool V0).isSome = true ∨ (env.asIndex V0).isSome = true ∨
        ∃ i, env.asNumber V0 = some (some i)) ∧
    (env.asBool V0 = some true → indexTo env none V0 = (env.index 1, true)) ∧
    (env.asBool V0 = some false → indexTo env none V0 = (env.index 0, true)) ∧
    (env.asBool V0 = none → (env.asIndex V0).isSome = true →
      indexTo env none V0 = (V0, true)) ∧
    (env.asBool V0 = none → env.asIndex V0 = none →
      ∀ i, env.asNumber V0 = some (some i) → indexTo env none V0 = (env.index i, true)) ∧
    ((indexTo env none V0).2 = true → (env.asIndex (indexTo env none V0).1).isSome = true) ∧
    ((indexTo env none V0).2 = false → (indexTo env none V0).1 = V0) := by
  unfold indexTo propagate
  cases hb : env.asBool V0 with
  | some b =>
    cases b <;> simp [hindex]
  | none =>
    cases hi : env.asIndex V0 with
    | some n => simp [hi]
    | none =>
      cases hn : env.asNumber V0 with
      | none => simp
      | some o =>
        cases o with
        | none => simp
        | some i => simp [hindex]

/-- Instance of C31: the index 7 is accepted as it is, the integer 5 of the
tower becomes the index 5, and true becomes the index 1. -/
theorem indexTo_domain_witness :
    indexTo demoIndexEnv none (.index 7) = (.index 7, true) ∧
    indexTo demoIndexEnv none (.integer 5) = (.index 5, true) ∧
    indexTo demoIndexEnv none (.bool true) = (.index 1, true) :=
  ⟨(indexTo_domain demoIndexEnv (fun _ => rfl) (.index 7)).2.2.2.1 rfl rfl,
   (indexTo_domain demoIndexEnv (fun _ => rfl) (.integer 5)).2.2.2.2.1 rfl rfl 5 rfl,
   (indexTo_domain demoIndexEnv (fun _ => rfl) (.bool true)).2.1 rfl⟩


/-! ## Theorems on residue -/

/-- The residue over the rationals, step by step. -/
theorem abs2_rat (L R : Rat) :
    abs2 ratCaps L R
      = .val (R - L * ((⌊R / (L + (if L = 0 then 1 else 0))⌋ : Int) : Rat)) := by
  have hfloor : ∀ q : Rat, Rat.floor q = ⌊q⌋ := fun q => rfl
  by_cases hL : L = 0
  · subst hL
    simp [abs2, add2, div2, mul2, sub2, Elementary.min, ratCaps, Reply.ofOption, hfloor]
  · have hne : L + 0 ≠ 0 := by simpa using hL
    simp [abs2, add2, div2, mul2, sub2, Elementary.min, ratCaps, Reply.ofOption, hfloor, hL]

/-- The residue of `R` by a positive `L` lies in `[0, L)`, by a negative `L`
in `(L, 0]`. -/
theorem residue_range (L R : Rat) :
    (0 < L → 0 ≤ R - L * ((⌊R / L⌋ : Int) : Rat) ∧ R - L * ((⌊R / L⌋ : Int) : Rat) < L) ∧
    (L < 0 → L < R - L * ((⌊R / L⌋ : Int) : Rat) ∧ R - L * ((⌊R / L⌋ : Int) : Rat) ≤ 0) := by
  have h1 := Int.floor_le (R / L)
  have h2 := Int.lt_floor_add_one (R / L)
  constructor
  · intro hpos
    have hR : R = R / L * L := by field_simp
    constructor
    · nlinarith
    · nlinarith
  · intro hneg
    have hR : R = R / L * L := by
      have : L ≠ 0 := ne_of_lt hneg
      field_simp
    constructor
    · nlinarith
    · nlinarith


/-- C32: over exact rational arithmetic `abs2(L, R)` is
`R - L×⌊R÷(L + (L=0))⌋`; hence `abs2(0, R) = R`, and for `L ≠ 0` the result is
`R - L×⌊R÷L⌋`, which lies in `[0, L)` for `L > 0` and in `(L, 0]` for `L < 0`;
and for every representation `abs2` declines when `SameType` fails or when
addition, division, floor or multiplication declines, and else returns what
subtraction returns. -/
theorem abs2_residue :
    (∀ L R : Rat, abs2 ratCaps L R
      = .val (R - L * ((⌊R / (L + (if L = 0 then 1 else 0))⌋ : Int) : Rat))) ∧
    (∀ R : Rat, abs2 ratCaps 0 R = .val R) ∧
    (∀ L R : Rat, L ≠ 0 → abs2 ratCaps L R = .val (R - L * ((⌊R / L⌋ : Int) : Rat))) ∧
    (∀ L R v : Rat, abs2 ratCaps L R = .val v →
      (0 < L → 0 ≤ v ∧ v < L) ∧ (L < 0 → L < v ∧ v ≤ 0)) ∧
    (∀ (V E : Type) (c : Caps2 V E) (L R : V), c.isNumber L = true →
      ((∃ e, c.SameType (c.bool (c.IsZero L)) L = .error e) → abs2 c L R = .decline) ∧
      (∀ L0 l1, c.SameType (c.bool (c.IsZero L)) L = .ok (L0, l1) →
        (add2 c L L0 = .decline → abs2 c L R = .decline) ∧
        (∀ x1, add2 c L L0 = .val x1 →
          (div2 c.toCaps R x1 = .decline → abs2 c L R = .decline) ∧
          (∀ x2, div2 c.toCaps R x1 = .val x2 →
            (Elementary.min c x2 = .decline → abs2 c L R = .decline) ∧
            (∀ x3, Elementary.min c x2 = .val x3 → c.isNumber x3 = true →
              ((∃ e, c.SameType L x3 = .error e) → abs2 c L R = .decline) ∧
              (∀ L1 x4, c.SameType L x3 = .ok (L1, x4) →
                (mul2 c.toCaps L1 x4 = .decline → abs2 c L R = .decline) ∧
                (∀ x5, mul2 c.toCaps L1 x4 = .val x5 →
                  abs2 c L R = sub2 c R x5 ∧
                  (sub2 c R x5 = .decline → abs2 c L R = .decline)))))))) := by
  have hne : ∀ L R : Rat, L ≠ 0 →
      abs2 ratCaps L R = .val (R - L * ((⌊R / L⌋ : Int) : Rat)) := by
    intro L R hL
    rw [abs2_rat, if_neg hL, add_zero]
  refine ⟨abs2_rat, fun R => ?_, hne, fun L R v hv => ⟨fun hpos => ?_, fun hneg => ?_⟩,
    fun V E c L R hnum => ⟨?_, fun L0 l1 hs => ⟨fun ha => ?_, fun x1 ha => ⟨fun hd => ?_,
      fun x2 hd => ⟨fun hm => ?_, fun x3 hm hnum3 => ⟨?_, fun L1 x4 hs2 => ⟨fun hmul => ?_,
        fun x5 hmul => ?_⟩⟩⟩⟩⟩⟩⟩
  · rw [abs2_rat]
    simp
  · rw [hne L R (ne_of_gt hpos)] at hv
    simp only [Reply.val.injEq] at hv
    subst hv
    exact (residue_range L R).1 hpos
  · rw [hne L R (ne_of_lt hneg)] at hv
    simp only [Reply.val.injEq] at hv
    subst hv
    exact (residue_range L R).2 hneg
  · rintro ⟨e, he⟩
    simp [abs2, hnum, he]
  · simp [abs2, hnum, hs, ha]
  · simp [abs2, hnum, hs, ha, hd]
  · simp [abs2, hnum, hs, ha, hd, hm]
  · rintro ⟨e, he⟩
    simp [abs2, hnum, hs, ha, hd, hm, hnum3, he]
  · simp [abs2, hnum, hs, ha, hd, hm, hnum3, hs2, hmul]
  · have h : abs2 c L R = sub2 c R x5 := by
      simp [abs2, hnum, hs, ha, hd, hm, hnum3, hs2, hmul]
    exact ⟨h, fun hsub => by rw [h, hsub]⟩

/-- Instance of C32: the residue of 7 by 3 is 1, and of 7 by -3 it is -2. -/
theorem abs2_residue_witness :
    abs2 ratCaps 3 7 = .val 1 ∧ abs2 ratCaps (-3) 7 = .val (-2) := by
  have h1 : (⌊(7 : Rat) / 3⌋ : Int) = 2 := by
    rw [Int.floor_eq_iff]
    norm_num
  have h2 : (⌊(7 : Rat) / (-3)⌋ : Int) = -3 := by
    rw [Int.floor_eq_iff]
    norm_num
  refine ⟨(abs2_residue.2.2.1 3 7 (by norm_num)).trans ?_,
    (abs2_residue.2.2.1 (-3) 7 (by norm_num)).trans ?_⟩
  · rw [h1]
    norm_num
  · rw [h2]
    norm_num


/-! ## Theorems on the derived function of dot with scalars and with nil -/

/-- C33 (the code departs from the claim): on the scalars 3 and 4 with
multiplication as `g`, `inner` does not return `3 g 4 = 12` but the error of
`g` on two nil operands; for all operands that are no arrays `inner` returns
what `g` returns on nil and nil, whatever `l` and `r` are. -/
theorem inner_scalars_call_nil :
    inner nilEnv optAdd optMul (.scalar (some 3)) (.scalar (some 4))
      = .err (.other .nilOperand) ∧
    optMul (some 3) (some 4) = .ok (some 12) ∧
    (∀ (V E Ty : Type) (env : DotEnv V E Ty) (f g : V → V → Except E V) (lv rv : V),
      inner env f g (.scalar lv) (.scalar rv)
        = (match g env.nilValue env.nilValue with
          | .error e => .err (.other e)
          | .ok v => .ok (.scalar v))) :=
  ⟨rfl, rfl, fun _ _ _ _ _ _ _ _ => rfl⟩

/-- C34 (the code departs from the claim): called without left argument (`l`
is nil) on the vector `1 2 3`, the function derived from `+` and the function
that returns its right argument returns the value 6 and no error; on the
scalar 5 it returns the value nil and no error; with multiplication as `g` the
error is that of `g`. -/
theorem dot_monadic_returns_value :
    dotApply nilEnv ⟨some "+", some optAdd⟩ ⟨some "⊢", some rightArg⟩
        (.scalar nilEnv.nilValue) (.array (vectorArray .range [some 1, some 2, some 3]))
      = .ok (.scalar (some 6)) ∧
    dotApply nilEnv ⟨some "+", some optAdd⟩ ⟨some "⊢", some rightArg⟩
        (.scalar nilEnv.nilValue) (.scalar (some 5))
      = .ok (.scalar none) ∧
    dotApply nilEnv ⟨some "+", some optAdd⟩ ⟨some "×", some optMul⟩
        (.scalar nilEnv.nilValue) (.scalar (some 5))
      = .err (.other .nilOperand) := by
  decide

end Iv
